import Mathlib

set_option maxHeartbeats 1000000

/-! Shallow embedding of the DPLL SAT solvers of the SAT_assignment3
repository: src/solver.py (naive unit propagation, DLCS branching),
src/ella_test/solver_mom.py (MOM branching plus statistics counters) and
src/watched/solver_jw_watched.py (two-sided Jeroslow-Wang branching with
watched-literal unit propagation).  Machine integers are modelled as Int
and Nat (Python integers are unbounded, so no overflow handling is
needed); Python dicts are insertion-ordered association lists; Python
sets of literals are duplicate-free lists of Int (constructed by
deduplication, and kept duplicate-free by the operations the solvers
use: membership test, removal of one element, filtering).  Where Python
iterates over a set or a dict in an order its semantics leaves
unspecified, the embedding fixes the order of the underlying list and a
comment records why the observable result does not depend on it. -/

/-- Python set of integer literals, as produced by `_clauses_to_sets` in
src/solver.py: a duplicate-free list.  A literal is a nonzero signed
integer. -/
abbrev Clause := List Int

/-- Python dict mapping variable to bool, kept as an insertion-ordered
association list.  All three solvers only ever insert bindings for keys
that are absent (they check `var in assignment` first), so lookup is
unambiguous; insertion order is observable only through `dict.items()`
iteration in the watched solver. -/
abbrev Assignment := List (Nat × Bool)

/-- Dictionary lookup: the first binding of the variable, if any. -/
def alookup : Assignment → Nat → Option Bool
  | [], _ => none
  | (k, b) :: t, v => if k = v then some b else alookup t v

/-- Membership test `var in assignment`. -/
def amem (a : Assignment) (v : Nat) : Bool :=
  (alookup a v).isSome

/-- Variables occurring in a clause list, without duplicates.  Used only
to compute fuel bounds for the Python `while True` loops and as the
iteration order of pure-literal collection. -/
def varsList (cls : List Clause) : List Nat :=
  (cls.flatMap (fun c => c.map Int.natAbs)).dedup

/-- Embedding of `_clauses_to_sets` in src/solver.py (identical to
`convert_clauses` in src/ella_test/solver_mom.py): each clause list
becomes a set, modelled by removing duplicate literals. -/
def clausesToSets (clauses : List (List Int)) : List Clause :=
  clauses.map (fun c => c.dedup)

/-- Embedding of `_contains_empty_clause` in src/solver.py (identical to
`check_empty_clause` in the other two solvers). -/
def containsEmptyClause (cls : List Clause) : Bool :=
  cls.any (fun c => c.length == 0)

/-! ## Unit propagation (`_unit_propagate` in src/solver.py)

The same function appears verbatim as `unit_clause_rule` in
src/ella_test/solver_mom.py, so this embedding serves both files. -/

/-- Collection of the unit literals of the current clause list: for each
clause of size one, its unique element (`next(iter(c))`), in clause-list
order. -/
def unitLitsOf (cls : List Clause) : List Int :=
  cls.filterMap (fun c => if c.length = 1 then c.head? else none)

/-- Simplification of the clause list after the unit literal `lit` was
assigned true (the inner `for c in clauses` loop of `_unit_propagate`):
clauses containing `lit` are dropped, `-lit` is removed elsewhere, and
`none` models the immediate conflict return when a clause becomes
empty. -/
def upSimplifyByLit (lit : Int) : List Clause → Option (List Clause)
  | [] => some []
  | c :: t =>
      if lit ∈ c then upSimplifyByLit lit t
      else if -lit ∈ c then
        let c2 := c.erase (-lit)
        if c2.length = 0 then none
        else (upSimplifyByLit lit t).map (fun r => c2 :: r)
      else (upSimplifyByLit lit t).map (fun r => c :: r)

/-- Processing of one batch of unit literals (the `for lit in unit_lits`
loop of `_unit_propagate`).  On a conflict the Python code returns the
clause list as it stood before the offending literal was processed,
together with the assignment at that point; both are reproduced here. -/
def upBatch : List Int → List Clause → Assignment → List Clause × Assignment × Bool
  | [], cls, a => (cls, a, false)
  | lit :: rest, cls, a =>
      let v := lit.natAbs
      let val := decide (0 < lit)
      match alookup a v with
      | some b => if b ≠ val then (cls, a, true) else upBatch rest cls a
      | none =>
          let a2 := a ++ [(v, val)]
          match upSimplifyByLit lit cls with
          | none => (cls, a2, true)
          | some cls2 => upBatch rest cls2 a2

/-- Outer `while True` loop of `_unit_propagate`, with explicit fuel.
Each iteration that neither stops nor conflicts assigns at least one new
variable drawn from the variables of the initial clause list (a
singleton clause whose literal is already consistently assigned is never
removed, so an iteration assigning no new variable repeats forever);
hence `(varsList cls).length + 1` iterations are enough for every run
that terminates in Python, and fuel exhaustion (`none`) models exactly
the runs on which the Python loop does not terminate. -/
def upLoop : Nat → List Clause → Assignment → Option (List Clause × Assignment × Bool)
  | 0, _, _ => none
  | fuel + 1, cls, a =>
      let units := unitLitsOf cls
      if units.isEmpty then some (cls, a, false)
      else
        match upBatch units cls a with
        | (cls2, a2, true) => some (cls2, a2, true)
        | (cls2, a2, false) => upLoop fuel cls2 a2

/-- Embedding of `_unit_propagate` in src/solver.py and of the verbatim
identical `unit_clause_rule` in src/ella_test/solver_mom.py. -/
def unit_propagate (cls : List Clause) (a : Assignment) :
    Option (List Clause × Assignment × Bool) :=
  upLoop ((varsList cls).length + 1) cls a

/-! ## Pure-literal elimination (`_pure_literal_elim` in src/solver.py)

The same function appears verbatim as `pure_literal_rule` in
src/ella_test/solver_mom.py and src/watched/solver_jw_watched.py. -/

/-- Number of occurrences of the variable `v` with polarity `pol` in the
clause list (each clause is a set, so it contributes at most one
occurrence per polarity). -/
def occCount (cls : List Clause) (v : Nat) (pol : Bool) : Nat :=
  (cls.map (fun c => if (if pol then (v : Int) else -(v : Int)) ∈ c then 1 else 0)).sum

/-- Collection of the pure literals of one round: unassigned variables
occurring with only one polarity, paired with that polarity.  Python
iterates over `set(list(pos_occ.keys()) + list(neg_occ.keys()))`, whose
order is unspecified; the embedding iterates over the clause variables
in the fixed order of `varsList`.  The later `pureApply` loop assigns
each collected variable and filters out the clauses that mention it with
the chosen polarity, and since the collected variables are pairwise
distinct and each is assigned a fixed polarity, the resulting clause
list and the bindings of the resulting assignment do not depend on this
order (only the insertion order of the dict does, which no caller of the
naive or MOM solver observes). -/
def pureCollect (cls : List Clause) (a : Assignment) : List (Nat × Bool) :=
  (varsList cls).filterMap (fun v =>
    if amem a v then none
    else
      let p := occCount cls v true
      let n := occCount cls v false
      if 0 < p ∧ n = 0 then some (v, true)
      else if 0 < n ∧ p = 0 then some (v, false)
      else none)

/-- Assignment-and-simplification loop over one batch of pure literals
(the `for var, val in pure_vars` loop). -/
def pureApply : List (Nat × Bool) → List Clause → Assignment → List Clause × Assignment
  | [], cls, a => (cls, a)
  | (v, val) :: rest, cls, a =>
      let lit : Int := if val then (v : Int) else -(v : Int)
      pureApply rest (cls.filter (fun c => lit ∉ c)) (a ++ [(v, val)])

/-- Outer `while True` loop of `_pure_literal_elim`, with explicit fuel.
Every round with a nonempty batch assigns at least one previously
unassigned variable of the current (hence of the initial) clause list,
so `(varsList cls).length + 1` rounds always reach the fixpoint and the
fuel-exhaustion branch is dead code. -/
def pureLoop : Nat → List Clause → Assignment → List Clause × Assignment
  | 0, cls, a => (cls, a)
  | fuel + 1, cls, a =>
      let pv := pureCollect cls a
      if pv.isEmpty then (cls, a)
      else
        let r := pureApply pv cls a
        pureLoop fuel r.1 r.2

/-- Embedding of `_pure_literal_elim` in src/solver.py and of the
verbatim identical `pure_literal_rule` of the other two solver files. -/
def pure_literal_elim (cls : List Clause) (a : Assignment) : List Clause × Assignment :=
  pureLoop ((varsList cls).length + 1) cls a

/-! ## Branching heuristic of src/solver.py (`_choose_branch_var`) -/

/-- One step of the `for var in range(1, num_vars + 1)` scan of
`_choose_branch_var`: the accumulator holds (best variable so far, best
score so far, preferred polarity so far), starting from
(None, -1, True).  Python skips literals of assigned variables when
counting, which only affects the counts of assigned variables; the scan
consults counts of unassigned variables only, for which `occCount`
agrees with the Python dictionaries. -/
def chooseStep (cls : List Clause) (a : Assignment)
    (acc : Option Nat × Int × Bool) (v : Nat) : Option Nat × Int × Bool :=
  if amem a v then acc
  else
    let p : Int := occCount cls v true
    let n : Int := occCount cls v false
    let score := p + n
    if score > acc.2.1 then (some v, score, decide (p ≥ n)) else acc

/-- Embedding of `_choose_branch_var` in src/solver.py: DLCS-like scan
returning the chosen variable (None when every variable in 1..num_vars
is assigned) and the preferred polarity. -/
def chooseBranchVar (cls : List Clause) (a : Assignment) (nv : Nat) : Option Nat × Bool :=
  let r := (List.range' 1 nv).foldl (chooseStep cls a) (none, -1, true)
  (r.1, r.2.2)

/-- Embedding of `_simplify_after_assignment` in src/solver.py (the same
function appears verbatim as `simplify_after_assignment` in
src/ella_test/solver_mom.py): given that `lit` was assigned true, drop
satisfied clauses and strip `-lit` from the rest, without detecting
empty clauses. -/
def simplifyAfterAssignment (lit : Int) : List Clause → List Clause
  | [] => []
  | c :: t =>
      if lit ∈ c then simplifyAfterAssignment lit t
      else if -lit ∈ c then c.erase (-lit) :: simplifyAfterAssignment lit t
      else c :: simplifyAfterAssignment lit t

/-- Embedding of `_build_model` in src/solver.py (verbatim identical to
`build_model` in the other two solver files): a total DIMACS-style model
where unassigned variables default to false. -/
def buildModel (a : Assignment) (nv : Nat) : List Int :=
  (List.range' 1 nv).map (fun v => if (alookup a v).getD false then (v : Int) else -(v : Int))

/-! ## The recursive DPLL search of src/solver.py (`_dpll`)

The Python recursion carries no fuel; here fuel counts the remaining
allowed recursion depth, and `none` models a non-terminating or
stack-exhausting run.  `solve_cnf` passes `num_vars + 1`, which is shown
below to be enough for every input, because each recursive call assigns
one more variable from 1..num_vars. -/

/-- Embedding of `_dpll` in src/solver.py: unit propagation, pure
literal elimination, base cases, branch choice, then the
`for try_val in (pref_val, not pref_val)` loop written out as two
polarity attempts (preferred polarity first, first success
short-circuits).  An attempt whose simplified clause list contains an
empty clause is skipped without recursing, which for the result of this
solver is the same as a failed recursive attempt.  The recursion is
structural on the fuel so that the definition evaluates by kernel
reduction. -/
def dpllGo (fuel : Nat) (cls : List Clause) (a : Assignment) (nv : Nat) :
    Option (Bool × Assignment) :=
  match fuel with
  | 0 => none
  | f + 1 =>
    match unit_propagate cls a with
    | none => none
    | some (_, _, true) => some (false, [])
    | some (cls1, a1, false) =>
      let r := pure_literal_elim cls1 a1
      let cls2 := r.1
      let a2 := r.2
      if cls2.isEmpty then some (true, a2)
      else if containsEmptyClause cls2 then some (false, [])
      else
        match chooseBranchVar cls2 a2 nv with
        | (none, _) => some (false, [])
        | (some v, pref) =>
          let lit1 : Int := if pref then (v : Int) else -(v : Int)
          let cls3 := simplifyAfterAssignment lit1 cls2
          let r1 := if containsEmptyClause cls3 then some (false, ([] : Assignment))
                    else dpllGo f cls3 (a2 ++ [(v, pref)]) nv
          match r1 with
          | none => none
          | some (true, fa) => some (true, fa)
          | some (false, _) =>
            let lit2 : Int := if !pref then (v : Int) else -(v : Int)
            let cls4 := simplifyAfterAssignment lit2 cls2
            let r2 := if containsEmptyClause cls4 then some (false, ([] : Assignment))
                      else dpllGo f cls4 (a2 ++ [(v, !pref)]) nv
            match r2 with
            | none => none
            | some (true, fa) => some (true, fa)
            | some (false, _) => some (false, [])

/-- Embedding of the public `solve_cnf` in src/solver.py. -/
def solve_cnf (clauses : List (List Int)) (nv : Nat) : Option (String × Option (List Int)) :=
  match dpllGo (nv + 1) (clausesToSets clauses) [] nv with
  | none => none
  | some (true, a) => some ("SAT", some (buildModel a nv))
  | some (false, _) => some ("UNSAT", none)

/-! ## The MOM solver of src/ella_test/solver_mom.py

Its `convert_clauses`, `unit_clause_rule`, `pure_literal_rule`,
`simplify_after_assignment` and `build_model` are verbatim copies of the
corresponding functions of src/solver.py, so the embeddings above serve
both files.  What is new is the `split` heuristic, the statistics
counters threaded through `dpll`, and the entry point
`solve_cnf_mom`. -/

/-- Statistics dictionary `{"splits": 0, "backtracks": 0, "calls": 0}`
threaded through `dpll` in src/ella_test/solver_mom.py. -/
structure Counters where
  splits : Nat
  backtracks : Nat
  calls : Nat
deriving DecidableEq, Repr

/-- One step of the `max(scores, key=scores.get)` scan inside `split` of
src/ella_test/solver_mom.py: the accumulator holds the best (key, score)
pair so far; Python `max` keeps the first key attaining the maximum in
dictionary insertion order, which is first-occurrence order of the
variable stream, so a strictly-greater comparison is used. -/
def momFoldStep (g : Nat → Nat) (acc : Option (Nat × Nat)) (v : Nat) : Option (Nat × Nat) :=
  match acc with
  | none => some (v, g v)
  | some (bv, bs) => if g v > bs then some (v, g v) else some (bv, bs)

/-- Embedding of `split` in src/ella_test/solver_mom.py (MOM-style:
maximum occurrences among the clauses of minimum length).  Returns
`none` for the `ValueError` that Python `max` raises on an empty score
dictionary; this is dead code, because a clause with an unassigned
literal always contributes a score.  Python builds the score dictionary
by iterating the minimum-length clauses in list order and each clause
set in unspecified order, then `max(scores, key=scores.get)` returns the
first key attaining the maximal score in insertion order; the embedding
iterates each clause in the fixed order of its underlying list. -/
def momSplit (cls : List Clause) (a : Assignment) : Option (Option Nat × Bool) :=
  let unassignedClauses := cls.filter (fun c => !(c.all (fun l => amem a l.natAbs)))
  match unassignedClauses with
  | [] => some (none, true)
  | c0 :: rest =>
      let minLen := rest.foldl (fun m c => min m c.length) c0.length
      let minClauses := unassignedClauses.filter (fun c => c.length = minLen)
      let varStream := (minClauses.flatMap (fun c => c.map Int.natAbs)).filter
        (fun v => !(amem a v))
      let best : Option (Nat × Nat) :=
        varStream.foldl (momFoldStep (fun v => varStream.count v)) none
      match best with
      | none => none
      | some (bv, _) =>
          let polScore : Int := minClauses.foldl (fun s c =>
            let s1 := if (bv : Int) ∈ c then s + 1 else s
            if -(bv : Int) ∈ c then s1 - 1 else s1) 0
          some (some bv, decide (polScore ≥ 0))

/-- Embedding of `dpll` in src/ella_test/solver_mom.py: the same search
as `_dpll` of src/solver.py with the MOM `split` heuristic and the
statistics counters.  Every call increments `calls`; reaching the branch
increments `splits`; each recursive attempt that returns unsatisfiable
increments `backtracks` (an attempt skipped by the empty-clause check
does not).  The fuel plays the same role as in `dpllGo`. -/
def momDpll (fuel : Nat) (cls : List Clause) (a : Assignment) (nv : Nat) (k : Counters) :
    Option (Bool × Assignment × Counters) :=
  match fuel with
  | 0 => none
  | f + 1 =>
    let k1 : Counters := { k with calls := k.calls + 1 }
    match unit_propagate cls a with
    | none => none
    | some (_, _, true) => some (false, [], k1)
    | some (cls1, a1, false) =>
      let r := pure_literal_elim cls1 a1
      let cls2 := r.1
      let a2 := r.2
      if cls2.isEmpty then some (true, a2, k1)
      else if containsEmptyClause cls2 then some (false, [], k1)
      else
        match momSplit cls2 a2 with
        | none => none
        | some (none, _) => some (false, [], k1)
        | some (some v, pref) =>
          let k2 : Counters := { k1 with splits := k1.splits + 1 }
          let lit1 : Int := if pref then (v : Int) else -(v : Int)
          let cls3 := simplifyAfterAssignment lit1 cls2
          let r1 := if containsEmptyClause cls3 then some (false, ([] : Assignment), k2)
                    else
                      match momDpll f cls3 (a2 ++ [(v, pref)]) nv k2 with
                      | none => none
                      | some (true, fa, k3) => some (true, fa, k3)
                      | some (false, _, k3) =>
                          some (false, [], { k3 with backtracks := k3.backtracks + 1 })
          match r1 with
          | none => none
          | some (true, fa, k3) => some (true, fa, k3)
          | some (false, _, k3) =>
            let lit2 : Int := if !pref then (v : Int) else -(v : Int)
            let cls4 := simplifyAfterAssignment lit2 cls2
            let r2 := if containsEmptyClause cls4 then some (false, ([] : Assignment), k3)
                      else
                        match momDpll f cls4 (a2 ++ [(v, !pref)]) nv k3 with
                        | none => none
                        | some (true, fa, k4) => some (true, fa, k4)
                        | some (false, _, k4) =>
                            some (false, [], { k4 with backtracks := k4.backtracks + 1 })
            match r2 with
            | none => none
            | some (true, fa, k4) => some (true, fa, k4)
            | some (false, _, k4) => some (false, [], k4)

/-- Embedding of the public `solve_cnf_mom` in
src/ella_test/solver_mom.py.  The Python function also measures
wall-clock time and renders the counters into a log string; the time and
the string are not modelled, the counters record is returned in their
stead. -/
def solve_cnf_mom (clauses : List (List Int)) (nv : Nat) :
    Option (String × Option (List Int) × Counters) :=
  match momDpll (nv + 1) (clausesToSets clauses) [] nv ⟨0, 0, 0⟩ with
  | none => none
  | some (true, a, k) => some ("SAT", some (buildModel a nv), k)
  | some (false, _, k) => some ("UNSAT", none, k)

/-! ## The watched-literal solver of src/watched/solver_jw_watched.py

Python is dynamically typed and this file mixes clause representations:
`convert_clauses` produces tuples, `unit_clause_rule` returns frozensets
and `simplify_after_assignment` returns sets.  Tuples are indexable;
sets and frozensets are not, and `unit_clause_rule` indexes its clauses
(`clause[pos]`), raising `TypeError` when a clause is not a tuple.  The
embedding therefore tags each clause value with its dynamic kind and
models indexing a set as the error `WErr.typeErr`. -/

/-- Python error outcomes of the watched solver: a dynamic `TypeError`
(indexing a non-indexable clause) or fuel exhaustion of an embedded
loop (the loops of `unit_clause_rule` always terminate within the
chosen fuel, so `fuelOut` is dead code there; in `dpll` it plays the
same depth-bound role as in the other two solvers). -/
inductive WErr where
  | typeErr
  | fuelOut
deriving DecidableEq, Repr

/-- Python clause value in src/watched/solver_jw_watched.py: a tuple
(indexable) or a set\slash frozenset (iterable only).  The `lits` list
of a set records its elements in a fixed canonical order. -/
inductive WClause where
  | tup (lits : List Int)
  | setc (lits : List Int)
deriving DecidableEq, Repr

/-- Literals of a clause value, in iteration order. -/
def WClause.lits : WClause → List Int
  | .tup l => l
  | .setc l => l

/-- Python `len(clause)`. -/
def WClause.wlen (c : WClause) : Nat :=
  c.lits.length

/-- Python `clause[i]`: defined for tuples, a `TypeError` (here `none`)
for sets and frozensets. -/
def WClause.idx : WClause → Nat → Option Int
  | .tup l, i => l.get? i
  | .setc _, _ => none

/-- Embedding of `convert_clauses` in src/watched/solver_jw_watched.py:
each clause becomes a tuple (duplicates, if any, are kept). -/
def wConvertClauses (clauses : List (List Int)) : List WClause :=
  clauses.map WClause.tup

/-- Python `lit_is_true` inside `unit_clause_rule`. -/
def litIsTrue (lit : Int) (a : Assignment) : Bool :=
  match alookup a lit.natAbs with
  | none => false
  | some b => b == decide (0 < lit)

/-- Python `lit_is_false` inside `unit_clause_rule`. -/
def litIsFalse (lit : Int) (a : Assignment) : Bool :=
  match alookup a lit.natAbs with
  | none => false
  | some b => b != decide (0 < lit)

/-- Watcher table: `watchers` maps a literal to the set of clause
indices currently watching it (`watchers.setdefault(lit, set())`),
modelled as a function into duplicate-free lists. -/
def wAdd (w : Int → List Nat) (lit : Int) (ci : Nat) : Int → List Nat :=
  fun l => if l = lit then (if ci ∈ w lit then w lit else w lit ++ [ci]) else w l

/-- Python `watchers[lit].discard(ci)`. -/
def wDiscard (w : Int → List Nat) (lit : Int) (ci : Nat) : Int → List Nat :=
  fun l => if l = lit then (w lit).erase ci else w l

/-- Mutable state of the propagation loop of `unit_clause_rule`:
watched positions per clause, the watcher table, the FIFO queue of
literals that became true, and the assignment. -/
structure WState where
  wpos : List (Nat × Nat)
  watchers : Int → List Nat
  queue : List Int
  assign : Assignment

/-- Result of one step of the propagation loop: either a conflict
return (carrying the assignment at that moment, since Python returns
`clauses, assignment, True`) or the updated state. -/
inductive WRes where
  | conflict (a : Assignment)
  | next (st : WState)

/-- Initialization loop of `unit_clause_rule` (lines building
`watched_pos` and `watchers`): scan the clauses in order; an empty
clause is an immediate conflict; otherwise watch positions 0 and 1
(position 0 twice for a unit clause) and record the registrations of
both watched literals, indexing the clause (which for a set raises
`TypeError`). -/
def wBuildWatches : Nat → List WClause → Except WErr (Option (List (Nat × Nat) × List (Int × Nat)))
  | _, [] => .ok (some ([], []))
  | ci, c :: t =>
      if c.wlen = 0 then .ok none
      else
        let i2 := if c.wlen = 1 then 0 else 1
        match c.idx 0, c.idx i2 with
        | some l1, some l2 =>
            (match wBuildWatches (ci + 1) t with
             | .error e => .error e
             | .ok none => .ok none
             | .ok (some (wp, regs)) =>
                 .ok (some ((0, i2) :: wp, (l1, ci) :: (l2, ci) :: regs)))
        | _, _ => .error .typeErr

/-- Initial-unit-clause loop of `unit_clause_rule`: enqueue the literal
of every unit clause, assigning it, and report a conflict when it
contradicts the assignment.  Returns (assignment, queue, conflict). -/
def wInitUnits : List WClause → Assignment → List Int →
    Except WErr (Assignment × List Int × Bool)
  | [], a, q => .ok (a, q, false)
  | c :: t, a, q =>
      if c.wlen = 1 then
        match c.idx 0 with
        | none => .error .typeErr
        | some lit =>
            let v := lit.natAbs
            let val := decide (0 < lit)
            match alookup a v with
            | some b => if b ≠ val then .ok (a, q, true) else wInitUnits t a q
            | none => wInitUnits t (a ++ [(v, val)]) (q ++ [lit])
      else wInitUnits t a q

/-- Search for a replacement watch (`for idx, cand in enumerate(clause)`
inside the propagation loop): the first position other than the two
current watch positions whose literal is not false. -/
def findNewWatch (lits : List Int) (i : Nat) (owp fwp : Nat) (a : Assignment) :
    Option (Nat × Int) :=
  match lits with
  | [] => none
  | cand :: rest =>
      if i = owp ∨ i = fwp then findNewWatch rest (i + 1) owp fwp a
      else if !litIsFalse cand a then some (i, cand)
      else findNewWatch rest (i + 1) owp fwp a

/-- Handling of a clause whose false watch cannot be moved (tail of the
body of `for ci in affected_watch_list`): the other watched literal is
either false (conflict) or gets assigned true and enqueued. -/
def wForceOther (otherLit : Int) (st : WState) : Except WErr WRes :=
  if litIsFalse otherLit st.assign then .ok (.conflict st.assign)
  else
    let ov := otherLit.natAbs
    let oval := decide (0 < otherLit)
    match alookup st.assign ov with
    | some b =>
        if b ≠ oval then .ok (.conflict st.assign)
        else .ok (.next st)
    | none =>
        .ok (.next { st with
          assign := st.assign ++ [(ov, oval)],
          queue := st.queue ++ [otherLit] })

/-- Handling of one affected clause once its watch positions and the
position of the false watch are known: satisfied clause, watch move, or
`wForceOther`. -/
def wHandleWatch (clause : WClause) (trueLit : Int) (ci : Nat)
    (i1 fwp owp : Nat) (st : WState) : Except WErr WRes :=
  match clause.idx owp with
  | none => .error .typeErr
  | some otherLit =>
      if litIsTrue otherLit st.assign then .ok (.next st)
      else
        match findNewWatch clause.lits 0 owp fwp st.assign with
        | some (j, cand) =>
            let w2 := wDiscard st.watchers (-trueLit) ci
            let w3 := wAdd w2 cand ci
            let wp2 := if fwp = i1 then st.wpos.set ci (j, owp)
                       else st.wpos.set ci (owp, j)
            .ok (.next { st with watchers := w3, wpos := wp2 })
        | none => wForceOther otherLit st

/-- Processing of one clause of the affected watch list of `-true_lit`
(the body of `for ci in affected_watch_list`): determine which watched
position holds `-true_lit` (skipping the clause if neither does), then
handle it. -/
def wProcessClause (clauses : List WClause) (trueLit : Int) (ci : Nat) (st : WState) :
    Except WErr WRes :=
  match clauses.get? ci, st.wpos.get? ci with
  | some clause, some (i1, i2) =>
      (match clause.idx i1, clause.idx i2 with
       | some li1, some li2 =>
           if li1 = -trueLit then wHandleWatch clause trueLit ci i1 i1 i2 st
           else if li2 = -trueLit then wHandleWatch clause trueLit ci i1 i2 i1 st
           else .ok (.next st)
       | _, _ => .error .typeErr)
  | _, _ => .error .typeErr

/-- Iteration over the snapshot of the affected watch list. -/
def wProcessAffected (clauses : List WClause) (trueLit : Int) :
    List Nat → WState → Except WErr WRes
  | [], st => .ok (.next st)
  | ci :: rest, st =>
      match wProcessClause clauses trueLit ci st with
      | .error e => .error e
      | .ok (.conflict a) => .ok (.conflict a)
      | .ok (.next st2) => wProcessAffected clauses trueLit rest st2

/-- Main propagation loop (`while queue`) of `unit_clause_rule`, with
explicit fuel.  Every iteration pops one literal, and a literal is only
ever enqueued together with a fresh assignment of its variable (a
variable of some clause), so the iterations are bounded by the initial
queue length plus the number of clause variables; the fuel passed by
`wUnitClauseRule` covers this, making `fuelOut` dead code. -/
def wPropagate (clauses : List WClause) : Nat → WState → Except WErr WRes
  | 0, _ => .error .fuelOut
  | fuel + 1, st =>
      match st.queue with
      | [] => .ok (.next st)
      | trueLit :: qrest =>
          let st1 : WState := { st with queue := qrest }
          let bad : Bool := match alookup st1.assign trueLit.natAbs with
                            | some b => b != decide (0 < trueLit)
                            | none => false
          if bad then .ok (.conflict st1.assign)
          else
            let affected := st1.watchers (-trueLit)
            match wProcessAffected clauses trueLit affected st1 with
            | .error e => .error e
            | .ok (.conflict a) => .ok (.conflict a)
            | .ok (.next st2) => wPropagate clauses fuel st2

/-- Materialization pass of `unit_clause_rule` after propagation:
drop satisfied clauses, strip false literals, detect an emergent empty
clause as a conflict, and return the survivors as frozensets. -/
def wMaterialize (a : Assignment) : List WClause → Option (List WClause)
  | [] => some []
  | c :: t =>
      if c.lits.any (fun l => litIsTrue l a) then wMaterialize a t
      else
        let kept := c.lits.filter (fun l => !litIsFalse l a)
        if kept.isEmpty then none
        else (wMaterialize a t).map (fun r => WClause.setc kept :: r)

/-- Embedding of `unit_clause_rule` in src/watched/solver_jw_watched.py:
watched-literal unit propagation.  Conflicts return the input clause
list, the assignment reached so far and the flag `true`; success returns
the simplified frozenset clauses, the extended assignment and `false`;
`.error .typeErr` models the `TypeError` Python raises when a clause is
a set or frozenset (its literals get indexed). -/
def wUnitClauseRule (clauses : List WClause) (a : Assignment) :
    Except WErr (List WClause × Assignment × Bool) :=
  match wBuildWatches 0 clauses with
  | .error e => .error e
  | .ok none => .ok (clauses, a, true)
  | .ok (some (wp, regs)) =>
      let w0 : Int → List Nat := regs.foldl (fun w r => wAdd w r.1 r.2) (fun _ => [])
      let q0 : List Int := a.map (fun p => if p.2 then (p.1 : Int) else -(p.1 : Int))
      match wInitUnits clauses a q0 with
      | .error e => .error e
      | .ok (a1, _, true) => .ok (clauses, a1, true)
      | .ok (a1, q1, false) =>
          let fuel := q1.length + (varsList (clauses.map WClause.lits)).length + 1
          match wPropagate clauses fuel ⟨wp, w0, q1, a1⟩ with
          | .error e => .error e
          | .ok (.conflict a2) => .ok (clauses, a2, true)
          | .ok (.next st2) =>
              match wMaterialize st2.assign clauses with
              | none => .ok (clauses, st2.assign, true)
              | some simplified => .ok (simplified, st2.assign, false)

/-- Variables of a watched clause list (fuel bound helper). -/
def wVarsList (cls : List WClause) : List Nat :=
  varsList (cls.map WClause.lits)

/-- Collection phase of `pure_literal_rule` in
src/watched/solver_jw_watched.py; the code is the verbatim
`_pure_literal_elim` of src/solver.py, operating on the literal lists of
the dynamically typed clause values. -/
def wPureCollect (cls : List WClause) (a : Assignment) : List (Nat × Bool) :=
  pureCollect (cls.map WClause.lits) a

/-- Application phase of `pure_literal_rule` on watched clause values
(clause objects are kept, only filtered). -/
def wPureApply : List (Nat × Bool) → List WClause → Assignment → List WClause × Assignment
  | [], cls, a => (cls, a)
  | (v, val) :: rest, cls, a =>
      let lit : Int := if val then (v : Int) else -(v : Int)
      wPureApply rest (cls.filter (fun c => lit ∉ c.lits)) (a ++ [(v, val)])

/-- Outer loop of `pure_literal_rule` on watched clause values. -/
def wPureLoop : Nat → List WClause → Assignment → List WClause × Assignment
  | 0, cls, a => (cls, a)
  | fuel + 1, cls, a =>
      let pv := wPureCollect cls a
      if pv.isEmpty then (cls, a)
      else
        let r := wPureApply pv cls a
        wPureLoop fuel r.1 r.2

/-- Embedding of `pure_literal_rule` in
src/watched/solver_jw_watched.py. -/
def wPureLiteralRule (cls : List WClause) (a : Assignment) : List WClause × Assignment :=
  wPureLoop ((wVarsList cls).length + 1) cls a

/-- Largest clause length of the current clause list, used as the
scaling exponent for exact Jeroslow-Wang scores. -/
def jwMaxLen (cls : List WClause) : Nat :=
  cls.foldr (fun c m => max c.wlen m) 0

/-- Positive Jeroslow-Wang score of a variable, scaled by `2 ^ E` where
`E = jwMaxLen cls`: each clause containing the literal contributes
`2 ** (-len(c))`, scaled to the integer `2 ^ (E - len(c))`.  Python
computes the scores as floating point sums of powers of two; scaling
every quantity that `split` compares by the positive constant `2 ^ E`
preserves all its comparisons, and the integer scores equal the scaled
exact float values whenever the float computation does not round (in
particular on all concrete instances evaluated in this file). -/
def jwPosScore (cls : List WClause) (E : Nat) (v : Nat) : Int :=
  (cls.map (fun c => if (v : Int) ∈ c.lits then ((2 ^ (E - c.wlen) : Nat) : Int) else 0)).sum

/-- Negative Jeroslow-Wang score of a variable, scaled like
`jwPosScore`. -/
def jwNegScore (cls : List WClause) (E : Nat) (v : Nat) : Int :=
  (cls.map (fun c => if -(v : Int) ∈ c.lits then ((2 ^ (E - c.wlen) : Nat) : Int) else 0)).sum

/-- One step of the `for var in range(1, num_vars + 1)` scan of `split`
in src/watched/solver_jw_watched.py (two-sided Jeroslow-Wang), with
accumulator (best variable, best score, preferred polarity) starting
from (None, -1.0, True); the initial score -1.0 is scaled to `-2 ^ E`.
Python skips literals of assigned variables when accumulating scores,
which only affects assigned variables, whose scores are never
consulted. -/
def jwStep (cls : List WClause) (a : Assignment) (E : Nat)
    (acc : Option Nat × Int × Bool) (v : Nat) : Option Nat × Int × Bool :=
  if amem a v then acc
  else
    let p := jwPosScore cls E v
    let n := jwNegScore cls E v
    if p + n > acc.2.1 then (some v, p + n, decide (p ≥ n)) else acc

/-- Embedding of `split` in src/watched/solver_jw_watched.py. -/
def jwSplit (cls : List WClause) (a : Assignment) (nv : Nat) : Option Nat × Bool :=
  let E := jwMaxLen cls
  let r := (List.range' 1 nv).foldl (jwStep cls a E) (none, -((2 ^ E : Nat) : Int), true)
  (r.1, r.2.2)

/-- Embedding of `check_empty_clause` in
src/watched/solver_jw_watched.py. -/
def wContainsEmptyClause (cls : List WClause) : Bool :=
  cls.any (fun c => c.wlen == 0)

/-- Embedding of `simplify_after_assignment` in
src/watched/solver_jw_watched.py: the same code as in src/solver.py, but
`set(c); remove(-lit)` turns the touched clauses into Python sets
(non-indexable values), while untouched clauses keep their dynamic
kind. -/
def wSimplifyAfterAssignment (lit : Int) : List WClause → List WClause
  | [] => []
  | c :: t =>
      if lit ∈ c.lits then wSimplifyAfterAssignment lit t
      else if -lit ∈ c.lits then .setc (c.lits.erase (-lit)) :: wSimplifyAfterAssignment lit t
      else c :: wSimplifyAfterAssignment lit t

/-- Embedding of `dpll` in src/watched/solver_jw_watched.py: same
structure as `_dpll` of src/solver.py with the Jeroslow-Wang split and
the watched-literal unit propagation, and with dynamic type errors
propagated. -/
def wDpll (fuel : Nat) (cls : List WClause) (a : Assignment) (nv : Nat) :
    Except WErr (Bool × Assignment) :=
  match fuel with
  | 0 => .error .fuelOut
  | f + 1 =>
    match wUnitClauseRule cls a with
    | .error e => .error e
    | .ok (_, _, true) => .ok (false, [])
    | .ok (cls1, a1, false) =>
      let r := wPureLiteralRule cls1 a1
      let cls2 := r.1
      let a2 := r.2
      if cls2.isEmpty then .ok (true, a2)
      else if wContainsEmptyClause cls2 then .ok (false, [])
      else
        match jwSplit cls2 a2 nv with
        | (none, _) => .ok (false, [])
        | (some v, pref) =>
          let lit1 : Int := if pref then (v : Int) else -(v : Int)
          let cls3 := wSimplifyAfterAssignment lit1 cls2
          let r1 := if wContainsEmptyClause cls3 then .ok (false, ([] : Assignment))
                    else wDpll f cls3 (a2 ++ [(v, pref)]) nv
          match r1 with
          | .error e => .error e
          | .ok (true, fa) => .ok (true, fa)
          | .ok (false, _) =>
            let lit2 : Int := if !pref then (v : Int) else -(v : Int)
            let cls4 := wSimplifyAfterAssignment lit2 cls2
            let r2 := if wContainsEmptyClause cls4 then .ok (false, ([] : Assignment))
                      else wDpll f cls4 (a2 ++ [(v, !pref)]) nv
            match r2 with
            | .error e => .error e
            | .ok (true, fa) => .ok (true, fa)
            | .ok (false, _) => .ok (false, [])

/-- Embedding of the public `solve_cnf` in
src/watched/solver_jw_watched.py
(called `solve_cnf_watched` here to keep the three entry points apart).
The Python function also prints its wall-clock runtime, which is not
modelled. -/
def solve_cnf_watched (clauses : List (List Int)) (nv : Nat) :
    Except WErr (String × Option (List Int)) :=
  match wDpll (nv + 1) (wConvertClauses clauses) [] nv with
  | .error e => .error e
  | .ok (true, a) => .ok ("SAT", some (buildModel a nv))
  | .ok (false, _) => .ok ("UNSAT", none)

deriving instance DecidableEq for Except

/-! ## Basic lemmas about assignments -/

/-- Extension of partial assignments: every binding of the first is a
binding of the second.  The solvers only ever append fresh bindings, so
along one search path assignments grow in this sense. -/
def AExt (a a2 : Assignment) : Prop :=
  ∀ v b, alookup a v = some b → alookup a2 v = some b

/-- Total truth assignment over all variables. -/
abbrev TAssign := Nat → Bool

/-- A literal is true under a total assignment: positive literals want
their variable true, negative ones want it false. -/
def litSat (τ : TAssign) (l : Int) : Prop :=
  τ l.natAbs = decide (0 < l)

/-- A clause (disjunction) is satisfied when some literal is true. -/
def clauseSat (τ : TAssign) (c : Clause) : Prop :=
  ∃ l ∈ c, litSat τ l

/-- A clause list (conjunction) is satisfied when every clause is. -/
def cnfSat (τ : TAssign) (cls : List Clause) : Prop :=
  ∀ c ∈ cls, clauseSat τ c

/-- A total assignment extends a partial one. -/
def TExt (a : Assignment) (τ : TAssign) : Prop :=
  ∀ v b, alookup a v = some b → τ v = b

/-- Literal of a variable with the given truth value, as the solvers
build it (`var if val else -var`). -/
def litOf (v : Nat) (tv : Bool) : Int :=
  if tv then (v : Int) else -(v : Int)

/-- Well-formed raw input, as assumed by the explicit claims: non-zero
literals, variables within 1..num_vars, and no variable occurring twice
in one clause (in particular never with both polarities). -/
def WFInput (clauses : List (List Int)) (nv : Nat) : Prop :=
  ∀ c ∈ clauses, ∀ l ∈ c, l ≠ 0 ∧ l.natAbs ≤ nv ∧ -l ∉ c

/-- Invariant of the states reachable by `_dpll` from `solve_cnf`:
clauses are duplicate-free, their literals are non-zero with variables
in 1..num_vars, no clause mentions a variable bound by the current
assignment, and no clause contains a variable with both polarities. -/
def DInv (cls : List Clause) (a : Assignment) (nv : Nat) : Prop :=
  ∀ c ∈ cls, c.Nodup ∧
    ∀ l ∈ c, l ≠ 0 ∧ l.natAbs ≤ nv ∧ alookup a l.natAbs = none ∧ -l ∉ c

/-- Unassigned variables among 1..num_vars; the recursion depth measure
of the DPLL search. -/
def unassignedCount (a : Assignment) (nv : Nat) : Nat :=
  ((List.range' 1 nv).filter (fun v => !(amem a v))).length

/-- States `(clauses, assignment)` of invocations of `_dpll` reachable
from `solve_cnf clauses nv` in src/solver.py: the initial invocation
`_dpll(clause_sets, {}, num_vars)`, and for every reachable invocation
that passes unit propagation without conflict, pure-literal elimination,
both base-case checks and the branch choice, the two recursive child
invocations (`tv` ranges over both polarities). -/
inductive DReach (clauses : List (List Int)) (nv : Nat) :
    List Clause → Assignment → Prop
  | init : DReach clauses nv (clausesToSets clauses) []
  | step {cls : List Clause} {a : Assignment} {cls1 : List Clause} {a1 : Assignment}
      {cls2 : List Clause} {a2 : Assignment} {v : Nat} {pref tv : Bool} :
      DReach clauses nv cls a →
      unit_propagate cls a = some (cls1, a1, false) →
      pure_literal_elim cls1 a1 = (cls2, a2) →
      containsEmptyClause cls2 = false →
      chooseBranchVar cls2 a2 nv = (some v, pref) →
      DReach clauses nv (simplifyAfterAssignment (litOf v tv) cls2) (a2 ++ [(v, tv)])

/-- The total assignment read off a partial assignment with the same
unassigned-means-false default as `_build_model`. -/
def defaultExtend (a : Assignment) : TAssign :=
  fun v => (alookup a v).getD false

/-- Literals forced by exhaustive unit propagation over the clause list
`cls` (starting from no assignment). -/
inductive UPC (cls : List (List Int)) : Int → Prop where
  | step {c : List Int} {l : Int} (hc : c ∈ cls) (hl : l ∈ c)
      (hrest : ∀ l2 ∈ c, l2 ≠ l → UPC cls (-l2)) : UPC cls l

def reduceClause (a : Assignment) (c : List Int) : Option (List Int) :=
  if c.any (fun l => litIsTrue l a) then none
  else some (c.filter (fun l => !litIsFalse l a))

def reduceCls (a : Assignment) (cls : List (List Int)) : List Clause :=
  cls.filterMap (fun c => reduceClause a c)

/-- Soundness of an assignment relative to the original input: every
binding was present initially or is forced by unit propagation. -/
def NSound (cls0 : List (List Int)) (a0 a : Assignment) : Prop :=
  ∀ v b, alookup a v = some b → alookup a0 v = some b ∨ UPC cls0 (litOf v b)

/-- Number of unassigned variables from a fixed list, the decreasing
part of the watched-propagation measure. -/
def countUn (vars : List Nat) (a : Assignment) : Nat :=
  (vars.filter (fun v => !(amem a v))).length

/-- Invariant of the watched-propagation state over the original clause
list `cls0` and initial assignment `a0`: watch positions are valid, the
watcher table is the exact inverse of the watch positions, the
assignment is a sound, duplicate-free extension of `a0`, queued literals
are true, every unit input clause is already assigned, and a false
watched literal means the clause is satisfied or the falsifying
literal's effect is still queued. -/
structure WInv (cls0 : List (List Int)) (a0 : Assignment) (exc : Int → Nat → Prop)
    (st : WState) : Prop where
  wlen : st.wpos.length = cls0.length
  wvalid : ∀ ci i1 i2, st.wpos.get? ci = some (i1, i2) →
    ∃ c0, cls0.get? ci = some c0 ∧ i1 < c0.length ∧ i2 < c0.length ∧
      (c0.length = 1 → i1 = 0 ∧ i2 = 0) ∧ (2 ≤ c0.length → i1 ≠ i2)
  wexact : ∀ l ci, ci ∈ st.watchers l ↔
    ∃ i1 i2 c0, st.wpos.get? ci = some (i1, i2) ∧ cls0.get? ci = some c0 ∧
      (c0.get? i1 = some l ∨ c0.get? i2 = some l)
  wnodup : ∀ l, (st.watchers l).Nodup
  asound : ∀ v b, alookup st.assign v = some b →
    alookup a0 v = some b ∨ UPC cls0 (litOf v b)
  akeys : (st.assign.map Prod.fst).Nodup
  apos : ∀ p ∈ st.assign, 1 ≤ p.1
  aext : AExt a0 st.assign
  qtrue : ∀ l ∈ st.queue, litIsTrue l st.assign = true ∧ l ≠ 0
  units : ∀ c0 ∈ cls0, ∀ l, c0 = [l] → amem st.assign l.natAbs = true
  watch : ∀ ci i1 i2 c0 w, st.wpos.get? ci = some (i1, i2) →
    cls0.get? ci = some c0 → (c0.get? i1 = some w ∨ c0.get? i2 = some w) →
    litIsFalse w st.assign = true →
    (∃ l ∈ c0, litIsTrue l st.assign = true) ∨ -w ∈ st.queue ∨ exc w ci

theorem AExt.refl (a : Assignment) : AExt a a := fun _ _ h => h

theorem AExt.trans {a b c : Assignment} (h1 : AExt a b) (h2 : AExt b c) : AExt a c :=
  fun v x h => h2 v x (h1 v x h)

theorem alookup_append_some {a : Assignment} {v : Nat} {b : Bool} (ext : Assignment)
    (h : alookup a v = some b) : alookup (a ++ ext) v = some b := by
  induction a with
  | nil => simp [alookup] at h
  | cons p t ih =>
      by_cases hk : p.1 = v
      · simpa [alookup, hk] using h
      · simp only [alookup, hk, if_false, List.cons_append] at h ⊢
        simp [alookup, hk]
        exact ih h

theorem AExt.append (a ext : Assignment) : AExt a (a ++ ext) :=
  fun _ _ h => alookup_append_some ext h

theorem alookup_append_none {a : Assignment} {v : Nat} (ext : Assignment)
    (h : alookup a v = none) : alookup (a ++ ext) v = alookup ext v := by
  induction a with
  | nil => simp [alookup]
  | cons p t ih =>
      by_cases hk : p.1 = v
      · simp [alookup, hk] at h
      · simp only [alookup, hk, if_false] at h
        simpa [alookup, hk] using ih h

/-! ## C7: totality and default policy of the model builder -/

theorem buildModel_length (a : Assignment) (nv : Nat) : (buildModel a nv).length = nv := by
  simp [buildModel]

/-- Claim C7: for every partial assignment and every positive num_vars,
`_build_model` returns a list of length exactly num_vars whose v-th
entry (v in 1..num_vars) is +v when the assignment maps v to true and
-v when it maps v to false or does not contain v. -/
theorem C7_build_model_total (a : Assignment) (nv : Nat) (hnv : 0 < nv) :
    (buildModel a nv).length = nv ∧
    ∀ v, 1 ≤ v → v ≤ nv →
      (buildModel a nv)[v - 1]? =
        some (if alookup a v = some true then (v : Int) else -(v : Int)) := by
  refine ⟨buildModel_length a nv, ?_⟩
  intro v h1 h2
  have hlt : v - 1 < nv := by omega
  have hr : (List.range' 1 nv)[v - 1]? = some (1 + 1 * (v - 1)) :=
    List.getElem?_range' _ _ hlt
  have hv : 1 + 1 * (v - 1) = v := by omega
  simp only [buildModel, List.getElem?_map, hr, hv, Option.map_some']
  cases h3 : alookup a v with
  | none => simp
  | some b => cases b <;> simp

/-- Witness for C7 at a concrete input. -/
theorem C7_build_model_total_witness :
    0 < 3 ∧
      ((buildModel [(2, true), (3, false)] 3).length = 3 ∧
      ∀ v, 1 ≤ v → v ≤ 3 →
        (buildModel [(2, true), (3, false)] 3)[v - 1]? =
          some (if alookup [(2, true), (3, false)] v = some true then (v : Int) else -(v : Int))) :=
  ⟨by decide, C7_build_model_total [(2, true), (3, false)] 3 (by decide)⟩

/-! ## C8: pure-literal elimination only removes clauses and only adds
bindings -/

theorem pureApply_sublist (pv : List (Nat × Bool)) (cls : List Clause) (a : Assignment) :
    (pureApply pv cls a).1.Sublist cls ∧ AExt a (pureApply pv cls a).2 := by
  induction pv generalizing cls a with
  | nil => exact ⟨List.Sublist.refl cls, AExt.refl a⟩
  | cons p rest ih =>
      obtain ⟨v, val⟩ := p
      have h := ih (cls.filter (fun c => (if val then (v : Int) else -(v : Int)) ∉ c))
        (a ++ [(v, val)])
      refine ⟨h.1.trans (List.filter_sublist cls), ?_⟩
      exact (AExt.append a [(v, val)]).trans h.2

theorem pureLoop_sublist (fuel : Nat) (cls : List Clause) (a : Assignment) :
    (pureLoop fuel cls a).1.Sublist cls ∧ AExt a (pureLoop fuel cls a).2 := by
  induction fuel generalizing cls a with
  | zero => exact ⟨List.Sublist.refl cls, AExt.refl a⟩
  | succ f ih =>
      by_cases h : (pureCollect cls a).isEmpty
      · simp only [pureLoop, h, if_true]
        exact ⟨List.Sublist.refl cls, AExt.refl a⟩
      · simp only [pureLoop, h, if_false]
        have h1 := pureApply_sublist (pureCollect cls a) cls a
        have h2 := ih (pureApply (pureCollect cls a) cls a).1
          (pureApply (pureCollect cls a) cls a).2
        exact ⟨h2.1.trans h1.1, h1.2.trans h2.2⟩

/-- Claim C8: `_pure_literal_elim` returns a pair (no conflict flag of
any kind exists in its result type) whose clause list is a sublist of
the input (each surviving clause is an input clause, unchanged) and
whose assignment retains every binding of the input assignment,
only ever adding new ones. -/
theorem C8_pure_literal_elim_spec (cls : List Clause) (a : Assignment) :
    (pure_literal_elim cls a).1.Sublist cls ∧
    ∀ v b, alookup a v = some b → alookup (pure_literal_elim cls a).2 v = some b := by
  have h := pureLoop_sublist ((varsList cls).length + 1) cls a
  exact ⟨h.1, h.2⟩

/-! ## No unit clause survives successful unit propagation, so the
empty-clause skip in the branch loop never fires -/

theorem upLoop_false_no_units {fuel : Nat} {cls cls2 : List Clause} {a a2 : Assignment}
    (h : upLoop fuel cls a = some (cls2, a2, false)) : unitLitsOf cls2 = [] := by
  induction fuel generalizing cls a with
  | zero => simp [upLoop] at h
  | succ f ih =>
      rw [upLoop] at h
      by_cases hu : (unitLitsOf cls).isEmpty
      · simp only [hu, if_true, Option.some.injEq, Prod.mk.injEq] at h
        obtain ⟨h1, -, -⟩ := h
        subst h1
        exact List.isEmpty_iff.mp hu
      · simp only [hu, if_false] at h
        rcases hb : upBatch (unitLitsOf cls) cls a with ⟨cls3, a3, flag⟩
        rw [hb] at h
        cases flag
        · exact ih h
        · simp at h

theorem unit_propagate_false_no_units {cls cls2 : List Clause} {a a2 : Assignment}
    (h : unit_propagate cls a = some (cls2, a2, false)) : unitLitsOf cls2 = [] :=
  upLoop_false_no_units h

theorem no_units_no_singleton {cls : List Clause} (h : unitLitsOf cls = [])
    {c : Clause} (hc : c ∈ cls) : c.length ≠ 1 := by
  intro hlen
  have h2 : (if c.length = 1 then c.head? else none) = none := by
    have h3 := List.filterMap_eq_nil.mp h c hc
    exact h3
  rw [if_pos hlen] at h2
  have : c = [] := List.head?_eq_none_iff.mp h2
  rw [this] at hlen
  simp at hlen

theorem containsEmpty_false_iff {cls : List Clause} :
    containsEmptyClause cls = false ↔ ∀ c ∈ cls, c.length ≠ 0 := by
  simp [containsEmptyClause, List.any_eq_false]

theorem simplify_no_empty {cls : List Clause} (lit : Int)
    (h0 : ∀ c ∈ cls, c.length ≠ 0) (h1 : ∀ c ∈ cls, c.length ≠ 1) :
    containsEmptyClause (simplifyAfterAssignment lit cls) = false := by
  induction cls with
  | nil => simp [simplifyAfterAssignment, containsEmptyClause]
  | cons c t ih =>
      have hc0 := h0 c (List.mem_cons_self c t)
      have hc1 := h1 c (List.mem_cons_self c t)
      have iht := ih (fun x hx => h0 x (List.mem_cons_of_mem c hx))
        (fun x hx => h1 x (List.mem_cons_of_mem c hx))
      rw [simplifyAfterAssignment]
      by_cases hin : lit ∈ c
      · simp only [hin, if_true]
        exact iht
      · by_cases hneg : -lit ∈ c
        · simp only [hin, if_false, hneg, if_true]
          have hlen : (c.erase (-lit)).length = c.length - 1 := List.length_erase_of_mem hneg
          simp only [containsEmptyClause, List.any_cons] at iht ⊢
          rw [iht]
          have : ((c.erase (-lit)).length == 0) = false := by
            rw [hlen, beq_eq_false_iff_ne]
            omega
          simp [this]
        · simp only [hin, if_false, hneg]
          simp only [containsEmptyClause, List.any_cons] at iht ⊢
          rw [iht]
          have : (c.length == 0) = false := by
            rw [beq_eq_false_iff_ne]
            omega
          simp [this]

/-- After a successful unit propagation followed by pure-literal
elimination, the surviving clause list has no unit clause; if it passed
the empty-clause check, every branch simplification is empty-free. -/
theorem branch_no_empty {clsU cls2 : List Clause} {aU a2 a1 : Assignment}
    {cls1 : List Clause}
    (hup : unit_propagate clsU aU = some (cls1, a1, false))
    (hpure : pure_literal_elim cls1 a1 = (cls2, a2))
    (hne : containsEmptyClause cls2 = false) (lit : Int) :
    containsEmptyClause (simplifyAfterAssignment lit cls2) = false := by
  have hnu : unitLitsOf cls1 = [] := unit_propagate_false_no_units hup
  have hsub : cls2.Sublist cls1 := by
    have h := (pureLoop_sublist ((varsList cls1).length + 1) cls1 a1).1
    rw [show pureLoop ((varsList cls1).length + 1) cls1 a1 = pure_literal_elim cls1 a1 from rfl,
      hpure] at h
    exact h
  refine simplify_no_empty lit (containsEmpty_false_iff.mp hne) ?_
  intro c hc
  exact no_units_no_singleton hnu (hsub.subset hc)

/-! ## C6: statistics inequalities of the MOM solver -/

/-- Counter bookkeeping of one complete `dpll` call of
src/ella_test/solver_mom.py: counters are monotone, each call adds at
most two backtracks per split, and adds at least one call more than it
adds splits.  The key step uses `branch_no_empty`: after unit
propagation no unit clause survives, so neither polarity attempt is
skipped by the empty-clause check, hence a split always recurses. -/
theorem momDpll_counter_bounds :
    ∀ (fuel : Nat) (cls : List Clause) (a : Assignment) (nv : Nat) (k : Counters)
      (s : Bool) (fa : Assignment) (k2 : Counters),
      momDpll fuel cls a nv k = some (s, fa, k2) →
      k.splits ≤ k2.splits ∧ k.backtracks ≤ k2.backtracks ∧ k.calls ≤ k2.calls ∧
      k2.backtracks + 2 * k.splits ≤ k.backtracks + 2 * k2.splits ∧
      k.calls + k2.splits + 1 ≤ k2.calls + k.splits := by
  intro fuel
  induction fuel with
  | zero =>
      intro cls a nv k s fa k2 h
      simp [momDpll] at h
  | succ f ih =>
      intro cls a nv k s fa k2 h
      rw [momDpll] at h
      rcases hup : unit_propagate cls a with _ | ⟨cls1, a1, flag⟩
      · rw [hup] at h
        simp at h
      · rw [hup] at h
        cases flag with
        | true =>
            simp only [Option.some.injEq, Prod.mk.injEq] at h
            obtain ⟨-, -, hk⟩ := h
            subst hk
            dsimp only
            omega
        | false =>
            rcases hpure : pure_literal_elim cls1 a1 with ⟨cls2, a2⟩
            simp only [hpure] at h
            cases hemp : cls2.isEmpty with
            | true =>
                simp only [hemp, if_true, Option.some.injEq, Prod.mk.injEq] at h
                obtain ⟨-, -, hk⟩ := h
                subst hk
                dsimp only
                omega
            | false =>
                simp only [hemp, Bool.false_eq_true, if_false] at h
                cases hce : containsEmptyClause cls2 with
                | true =>
                    simp only [hce, if_true, Option.some.injEq, Prod.mk.injEq] at h
                    obtain ⟨-, -, hk⟩ := h
                    subst hk
                    dsimp only
                    omega
                | false =>
                    simp only [hce, Bool.false_eq_true, if_false] at h
                    rcases hsplit : momSplit cls2 a2 with _ | ⟨vo, pref⟩
                    · rw [hsplit] at h
                      simp at h
                    · rw [hsplit] at h
                      cases vo with
                      | none =>
                          simp only [Option.some.injEq, Prod.mk.injEq] at h
                          obtain ⟨-, -, hk⟩ := h
                          subst hk
                          dsimp only
                          omega
                      | some v =>
                          have hskip1 := branch_no_empty hup hpure hce
                            (if pref then (v : Int) else -(v : Int))
                          have hskip2 := branch_no_empty hup hpure hce
                            (if !pref then (v : Int) else -(v : Int))
                          simp only [hskip1, hskip2, Bool.false_eq_true, if_false] at h
                          rcases hr1 : momDpll f (simplifyAfterAssignment
                              (if pref then (v : Int) else -(v : Int)) cls2)
                              (a2 ++ [(v, pref)]) nv
                              { calls := k.calls + 1, splits := k.splits + 1,
                                backtracks := k.backtracks } with _ | ⟨s1, fa1, k3⟩
                          · rw [hr1] at h
                            simp at h
                          · rw [hr1] at h
                            have ih1 := ih _ _ _ _ _ _ _ hr1
                            dsimp only at ih1
                            cases s1 with
                            | true =>
                                simp only [Option.some.injEq, Prod.mk.injEq] at h
                                obtain ⟨-, -, hk⟩ := h
                                subst hk
                                omega
                            | false =>
                                simp only [] at h
                                rcases hr2 : momDpll f (simplifyAfterAssignment
                                    (if !pref then (v : Int) else -(v : Int)) cls2)
                                    (a2 ++ [(v, !pref)]) nv
                                    { calls := k3.calls, splits := k3.splits,
                                      backtracks := k3.backtracks + 1 } with _ | ⟨s2, fa2, k4⟩
                                · rw [hr2] at h
                                  simp at h
                                · rw [hr2] at h
                                  have ih2 := ih _ _ _ _ _ _ _ hr2
                                  dsimp only at ih2
                                  cases s2 with
                                  | true =>
                                      simp only [Option.some.injEq, Prod.mk.injEq] at h
                                      obtain ⟨-, -, hk⟩ := h
                                      subst hk
                                      omega
                                  | false =>
                                      simp only [Option.some.injEq, Prod.mk.injEq] at h
                                      obtain ⟨-, -, hk⟩ := h
                                      subst hk
                                      dsimp only
                                      omega

/-- Claim C6 counterexample: on the unsatisfiable input
[[1, 2], [1, -2], [-1, 2], [-1, -2]] with two variables, the MOM solver
performs one split whose two recursive attempts both fail, incrementing
`backtracks` twice, so the run ends with backtracks = 2 > 1 = splits and
the claimed inequality backtracks ≤ splits is false. -/
theorem C6_counterexample :
    (solve_cnf_mom [[1, 2], [1, -2], [-1, 2], [-1, -2]] 2).map
        (fun r => decide (r.2.2.backtracks ≤ r.2.2.splits)) = some false := by
  decide

/-- Claim C6 (amended): after `solve_cnf_mom` completes, the counters
satisfy backtracks ≤ 2 * splits and calls ≥ splits + 1.  (The claim
stated backtracks ≤ splits, but the code increments `backtracks` once
per failed recursive child, up to two per split, as the counterexample
shows; the factor two is the only change.) -/
theorem C6_amended_statistics (clauses : List (List Int)) (nv : Nat)
    (s : String) (m : Option (List Int)) (k : Counters)
    (h : solve_cnf_mom clauses nv = some (s, m, k)) :
    k.backtracks ≤ 2 * k.splits ∧ k.splits + 1 ≤ k.calls := by
  unfold solve_cnf_mom at h
  rcases hrun : momDpll (nv + 1) (clausesToSets clauses) [] nv ⟨0, 0, 0⟩
    with _ | ⟨sb, fa, k2⟩
  · rw [hrun] at h
    simp at h
  · rw [hrun] at h
    have hb := momDpll_counter_bounds _ _ _ _ _ _ _ _ hrun
    dsimp only at hb
    cases sb with
    | true =>
        simp only [Option.some.injEq, Prod.mk.injEq] at h
        obtain ⟨-, -, hk⟩ := h
        subst hk
        omega
    | false =>
        simp only [Option.some.injEq, Prod.mk.injEq] at h
        obtain ⟨-, -, hk⟩ := h
        subst hk
        omega

/-- Witness for C6 (amended) at a concrete input. -/
theorem C6_amended_statistics_witness :
    solve_cnf_mom [[1, 2], [-1, 2], [1, -2]] 2 = some ("SAT", some [1, 2], ⟨1, 0, 2⟩) ∧
    ((⟨1, 0, 2⟩ : Counters).backtracks ≤ 2 * (⟨1, 0, 2⟩ : Counters).splits ∧
      (⟨1, 0, 2⟩ : Counters).splits + 1 ≤ (⟨1, 0, 2⟩ : Counters).calls) :=
  ⟨by decide, C6_amended_statistics [[1, 2], [-1, 2], [1, -2]] 2 "SAT" (some [1, 2])
    ⟨1, 0, 2⟩ (by decide)⟩

/-! ## Semantics: total assignments and satisfaction -/

theorem TExt_of_AExt {a b : Assignment} {τ : TAssign} (hab : AExt a b) (h : TExt b τ) :
    TExt a τ :=
  fun v x hx => h v x (hab v x hx)

theorem TExt_nil (τ : TAssign) : TExt [] τ := by
  intro v b h
  simp [alookup] at h

theorem litSat_neg_conflict {τ : TAssign} {l : Int} (hl : l ≠ 0)
    (h1 : litSat τ l) (h2 : litSat τ (-l)) : False := by
  unfold litSat at h1 h2
  rw [Int.natAbs_neg, h1, decide_eq_decide] at h2
  omega

theorem cnfSat_cons {τ : TAssign} {c : Clause} {cls : List Clause} :
    cnfSat τ (c :: cls) ↔ clauseSat τ c ∧ cnfSat τ cls := by
  simp [cnfSat]

theorem cnfSat_of_sublist {τ : TAssign} {cls1 cls2 : List Clause}
    (hs : cls1.Sublist cls2) (h : cnfSat τ cls2) : cnfSat τ cls1 :=
  fun c hc => h c (hs.subset hc)

theorem litOf_ne_zero {v : Nat} (h : 1 ≤ v) (tv : Bool) : litOf v tv ≠ 0 := by
  cases tv <;> simp [litOf] <;> omega

theorem litSat_litOf {τ : TAssign} {v : Nat} (h : 1 ≤ v) (tv : Bool) :
    litSat τ (litOf v tv) ↔ τ v = tv := by
  cases tv with
  | false =>
      unfold litSat litOf
      rw [if_neg Bool.false_ne_true]
      have h1 : (-(v : Int)).natAbs = v := by simp
      have h2 : decide (0 < -(v : Int)) = false := by
        rw [decide_eq_false_iff_not]
        omega
      rw [h1, h2]
  | true =>
      unfold litSat litOf
      rw [if_pos rfl]
      have h1 : ((v : Int)).natAbs = v := by simp
      have h2 : decide (0 < (v : Int)) = true := by
        rw [decide_eq_true_eq]
        omega
      rw [h1, h2]

theorem litOf_natAbs {l : Int} (h : l ≠ 0) : litOf l.natAbs (decide (0 < l)) = l := by
  unfold litOf
  by_cases hp : 0 < l
  · have h1 : ((l.natAbs : Nat) : Int) = l := Int.natAbs_of_nonneg (le_of_lt hp)
    simp [hp, h1]
  · have hneg : l ≤ 0 := by omega
    have h1 : ((l.natAbs : Nat) : Int) = -l := Int.ofNat_natAbs_of_nonpos hneg
    simp [hp, h1]

/-! ## Well-formed inputs and the search invariant -/

theorem Inv_initial {clauses : List (List Int)} {nv : Nat} (h : WFInput clauses nv) :
    DInv (clausesToSets clauses) [] nv := by
  intro c hc
  rw [clausesToSets, List.mem_map] at hc
  obtain ⟨c0, hc0, rfl⟩ := hc
  refine ⟨List.nodup_dedup c0, ?_⟩
  intro l hl
  rw [List.mem_dedup] at hl
  obtain ⟨h1, h2, h3⟩ := h c0 hc0 l hl
  exact ⟨h1, h2, rfl, by rw [List.mem_dedup]; exact h3⟩

theorem Inv_of_sublist {cls1 cls2 : List Clause} {a : Assignment} {nv : Nat}
    (hs : cls1.Sublist cls2) (h : DInv cls2 a nv) : DInv cls1 a nv :=
  fun c hc => h c (hs.subset hc)

/-! ## More association-list lemmas -/

theorem alookup_append_single_same {a : Assignment} {v : Nat} (b : Bool)
    (h : alookup a v = none) : alookup (a ++ [(v, b)]) v = some b := by
  rw [alookup_append_none _ h]
  simp [alookup]

theorem alookup_append_single_ne {a : Assignment} {v w : Nat} (b : Bool) (h : w ≠ v) :
    alookup (a ++ [(v, b)]) w = alookup a w := by
  cases hc : alookup a w with
  | some x => exact alookup_append_some _ hc
  | none =>
      rw [alookup_append_none _ hc]
      simp [alookup, Ne.symm h]

theorem TExt_append {a : Assignment} {τ : TAssign} {v : Nat} {tv : Bool}
    (h : TExt a τ) (hv : τ v = tv) : TExt (a ++ [(v, tv)]) τ := by
  intro w b hw
  by_cases hvw : w = v
  · subst hvw
    cases hc : alookup a w with
    | some x =>
        rw [alookup_append_some _ hc] at hw
        cases hw
        exact h w b hc
    | none =>
        rw [alookup_append_single_same _ hc] at hw
        cases hw
        exact hv
  · rw [alookup_append_single_ne _ hvw] at hw
    exact h w b hw

/-! ## Counting unassigned variables (fuel measures) -/

theorem length_filter_mono {l : List Nat} {p q : Nat → Bool}
    (h : ∀ x ∈ l, p x = true → q x = true) :
    (l.filter p).length ≤ (l.filter q).length := by
  induction l with
  | nil => simp
  | cons x t ih =>
      have iht := ih (fun y hy => h y (List.mem_cons_of_mem x hy))
      cases hp : p x with
      | true =>
          have hq := h x (List.mem_cons_self x t) hp
          simp [List.filter_cons, hp, hq]
          exact iht
      | false =>
          cases hq : q x with
          | true =>
              simp [List.filter_cons, hp, hq]
              omega
          | false =>
              simp [List.filter_cons, hp, hq]
              exact iht

theorem length_filter_strict {l : List Nat} {p q : Nat → Bool}
    (h : ∀ x ∈ l, p x = true → q x = true)
    {x0 : Nat} (hx0 : x0 ∈ l) (hq : q x0 = true) (hp : p x0 = false) :
    (l.filter p).length < (l.filter q).length := by
  induction l with
  | nil => simp at hx0
  | cons x t ih =>
      have ht := fun y hy => h y (List.mem_cons_of_mem x hy)
      rcases List.mem_cons.mp hx0 with hx | hx
      · subst hx
        simp [List.filter_cons, hp, hq]
        have := length_filter_mono ht
        omega
      · have iht := ih ht hx
        cases hpx : p x with
        | true =>
            have hqx := h x (List.mem_cons_self x t) hpx
            simp [List.filter_cons, hpx, hqx]
            omega
        | false =>
            cases hqx : q x with
            | true =>
                simp [List.filter_cons, hpx, hqx]
                omega
            | false =>
                simp [List.filter_cons, hpx, hqx]
                exact iht

theorem amem_false_of_AExt {a b : Assignment} {v : Nat} (h : AExt a b)
    (hb : amem b v = false) : amem a v = false := by
  cases hc : alookup a v with
  | none => simp [amem, hc]
  | some x =>
      have := h v x hc
      simp [amem, this] at hb

theorem unassignedCount_le_of_AExt {a b : Assignment} {nv : Nat} (h : AExt a b) :
    unassignedCount b nv ≤ unassignedCount a nv := by
  refine length_filter_mono ?_
  intro v _ hv
  rw [Bool.not_eq_true'] at hv ⊢
  exact amem_false_of_AExt h hv

theorem unassignedCount_append_lt {a : Assignment} {nv v : Nat} {tv : Bool}
    (h1 : 1 ≤ v) (h2 : v ≤ nv) (h3 : alookup a v = none) :
    unassignedCount (a ++ [(v, tv)]) nv < unassignedCount a nv := by
  refine @length_filter_strict (List.range' 1 nv) _ _ ?_ v ?_ ?_ ?_
  · intro x _ hx
    rw [Bool.not_eq_true'] at hx ⊢
    exact amem_false_of_AExt (AExt.append a [(v, tv)]) hx
  · rw [List.mem_range'_1]
    omega
  · simp [amem, h3]
  · simp [amem, alookup_append_single_same tv h3]

theorem unassignedCount_nil (nv : Nat) : unassignedCount [] nv = nv := by
  unfold unassignedCount
  have : ∀ v, ((fun v => !(amem ([] : Assignment) v)) v = true) := by
    intro v
    simp [amem, alookup]
  rw [List.filter_eq_self.mpr (fun v _ => this v)]
  simp

/-! ## Semantics of clause simplification under a newly true literal -/

theorem clauseSat_erase_neg {τ : TAssign} {c : Clause} {m : Int} (hm0 : m ≠ 0)
    (hms : litSat τ m) (h : clauseSat τ c) : clauseSat τ (c.erase (-m)) := by
  obtain ⟨l, hl, hsat⟩ := h
  have hne : l ≠ -m := by
    rintro rfl
    exact litSat_neg_conflict hm0 hms hsat
  exact ⟨l, (List.mem_erase_of_ne hne).mpr hl, hsat⟩

theorem clauseSat_of_erase {τ : TAssign} {c : Clause} {x : Int}
    (h : clauseSat τ (c.erase x)) : clauseSat τ c := by
  obtain ⟨l, hl, hsat⟩ := h
  exact ⟨l, List.mem_of_mem_erase hl, hsat⟩

/-- Satisfaction is invariant under `_simplify_after_assignment` for
total assignments making the assigned literal true. -/
theorem cnfSat_simplify_iff {τ : TAssign} {lit : Int} (hl : lit ≠ 0) (hsat : litSat τ lit)
    (cls : List Clause) :
    cnfSat τ (simplifyAfterAssignment lit cls) ↔ cnfSat τ cls := by
  induction cls with
  | nil => simp [simplifyAfterAssignment]
  | cons c t ih =>
      rw [simplifyAfterAssignment]
      by_cases h1 : lit ∈ c
      · rw [if_pos h1, ih, cnfSat_cons]
        constructor
        · intro h2
          exact ⟨⟨lit, h1, hsat⟩, h2⟩
        · exact And.right
      · by_cases h2 : -lit ∈ c
        · rw [if_neg h1, if_pos h2, cnfSat_cons, cnfSat_cons, ih]
          constructor
          · rintro ⟨hc, ht⟩
            exact ⟨clauseSat_of_erase hc, ht⟩
          · rintro ⟨hc, ht⟩
            exact ⟨clauseSat_erase_neg hl hsat hc, ht⟩
        · rw [if_neg h1, if_neg h2, cnfSat_cons, cnfSat_cons, ih]

/-- The invariant survives `_simplify_after_assignment` together with
recording the new binding. -/
theorem DInv_simplify {cls : List Clause} {a : Assignment} {nv v : Nat} (tv : Bool)
    (hInv : DInv cls a nv) (h1 : 1 ≤ v) (h2 : v ≤ nv) (h3 : alookup a v = none) :
    DInv (simplifyAfterAssignment (litOf v tv) cls) (a ++ [(v, tv)]) nv := by
  induction cls with
  | nil =>
      intro c hc
      simp [simplifyAfterAssignment] at hc
  | cons c t ih =>
      have hct : DInv t a nv := fun x hx => hInv x (List.mem_cons_of_mem _ hx)
      have hc0 := hInv c (List.mem_cons_self c t)
      rw [simplifyAfterAssignment]
      by_cases hin : litOf v tv ∈ c
      · rw [if_pos hin]
        exact ih hct
      · by_cases hneg : -litOf v tv ∈ c
        · rw [if_neg hin, if_pos hneg]
          intro c2 hc2
          rcases List.mem_cons.mp hc2 with rfl | hc2
          · refine ⟨hc0.1.erase _, ?_⟩
            intro l hl
            have hlc := List.mem_of_mem_erase hl
            obtain ⟨hz, hle, hun, hnn⟩ := hc0.2 l hlc
            refine ⟨hz, hle, ?_, fun hcon => hnn (List.mem_of_mem_erase hcon)⟩
            by_cases hveq : l.natAbs = v
            · exfalso
              have hl2 := Int.natAbs_eq_iff.mp hveq
              have hlne : l ≠ -litOf v tv := ((List.Nodup.mem_erase_iff hc0.1).mp hl).1
              cases tv <;> simp only [litOf, if_pos rfl, if_neg Bool.false_ne_true,
                neg_neg] at hin hneg hlne <;>
                rcases hl2 with rfl | rfl <;> simp_all
            · rw [alookup_append_single_ne _ hveq]
              exact hun
          · exact ih hct c2 hc2
        · rw [if_neg hin, if_neg hneg]
          intro c2 hc2
          rcases List.mem_cons.mp hc2 with rfl | hc2
          · refine ⟨hc0.1, ?_⟩
            intro l hl
            obtain ⟨hz, hle, hun, hnn⟩ := hc0.2 l hl
            refine ⟨hz, hle, ?_, hnn⟩
            by_cases hveq : l.natAbs = v
            · exfalso
              have hl2 := Int.natAbs_eq_iff.mp hveq
              cases tv <;> simp only [litOf, if_pos rfl, if_neg Bool.false_ne_true,
                neg_neg] at hin hneg <;>
                rcases hl2 with rfl | rfl <;> simp_all
            · rw [alookup_append_single_ne _ hveq]
              exact hun
          · exact ih hct c2 hc2

/-! ## The inner simplification of unit propagation -/

theorem upSimplifyByLit_some_eq {lit : Int} :
    ∀ {cls cls2 : List Clause}, upSimplifyByLit lit cls = some cls2 →
      cls2 = simplifyAfterAssignment lit cls := by
  intro cls
  induction cls with
  | nil =>
      intro cls2 h
      simp only [upSimplifyByLit, Option.some.injEq] at h
      subst h
      rfl
  | cons c t ih =>
      intro cls2 h
      rw [upSimplifyByLit] at h
      rw [simplifyAfterAssignment]
      by_cases h1 : lit ∈ c
      · rw [if_pos h1] at h
        rw [if_pos h1]
        exact ih h
      · by_cases h2 : -lit ∈ c
        · rw [if_neg h1, if_pos h2] at h
          rw [if_neg h1, if_pos h2]
          by_cases h3 : (c.erase (-lit)).length = 0
          · rw [if_pos h3] at h
            simp at h
          · rw [if_neg h3] at h
            cases hr : upSimplifyByLit lit t with
            | none =>
                rw [hr] at h
                simp at h
            | some r =>
                rw [hr] at h
                simp at h
                rw [← h, ih hr]
        · rw [if_neg h1, if_neg h2] at h
          rw [if_neg h1, if_neg h2]
          cases hr : upSimplifyByLit lit t with
          | none =>
              rw [hr] at h
              simp at h
          | some r =>
              rw [hr] at h
              simp at h
              rw [← h, ih hr]

theorem upSimplifyByLit_none_unsat {lit : Int} (hl : lit ≠ 0) :
    ∀ {cls : List Clause}, upSimplifyByLit lit cls = none →
      ∀ τ, litSat τ lit → ¬ cnfSat τ cls := by
  intro cls
  induction cls with
  | nil =>
      intro h
      simp [upSimplifyByLit] at h
  | cons c t ih =>
      intro h τ hsat hcnf
      rw [upSimplifyByLit] at h
      rw [cnfSat_cons] at hcnf
      by_cases h1 : lit ∈ c
      · rw [if_pos h1] at h
        exact ih h τ hsat hcnf.2
      · by_cases h2 : -lit ∈ c
        · rw [if_neg h1, if_pos h2] at h
          by_cases h3 : (c.erase (-lit)).length = 0
          · have hlen : c.length = 1 := by
              have ha := List.length_erase_of_mem h2
              have hb := List.length_pos_of_mem h2
              omega
            obtain ⟨x, hx⟩ := List.length_eq_one.mp hlen
            subst hx
            have hxl : x = -lit := (List.mem_singleton.mp h2).symm
            subst hxl
            obtain ⟨l, hle, hls⟩ := hcnf.1
            have hll : l = -lit := List.mem_singleton.mp hle
            subst hll
            exact litSat_neg_conflict hl hsat hls
          · rw [if_neg h3] at h
            cases hr : upSimplifyByLit lit t with
            | none => exact ih hr τ hsat hcnf.2
            | some r =>
                rw [hr] at h
                simp at h
        · rw [if_neg h1, if_neg h2] at h
          cases hr : upSimplifyByLit lit t with
          | none => exact ih hr τ hsat hcnf.2
          | some r =>
              rw [hr] at h
              simp at h

/-- Clauses untouched by the assigned literal survive the inner
simplification. -/
theorem upSimplifyByLit_mem {lit : Int} :
    ∀ {cls cls2 : List Clause}, upSimplifyByLit lit cls = some cls2 →
      ∀ c ∈ cls, lit ∉ c → -lit ∉ c → c ∈ cls2 := by
  intro cls cls2 h c hc hn1 hn2
  rw [upSimplifyByLit_some_eq h]
  clear h
  induction cls with
  | nil => simp at hc
  | cons x t ih =>
      rw [simplifyAfterAssignment]
      rcases List.mem_cons.mp hc with rfl | hc
      · rw [if_neg hn1, if_neg hn2]
        exact List.mem_cons_self _ _
      · by_cases h1 : lit ∈ x
        · rw [if_pos h1]
          exact ih hc
        · by_cases h2 : -lit ∈ x
          · rw [if_neg h1, if_pos h2]
            exact List.mem_cons_of_mem _ (ih hc)
          · rw [if_neg h1, if_neg h2]
            exact List.mem_cons_of_mem _ (ih hc)

/-! ## Specification of unit propagation -/

theorem mem_unitLitsOf {cls : List Clause} {l : Int} (h : l ∈ unitLitsOf cls) : [l] ∈ cls := by
  unfold unitLitsOf at h
  rw [List.mem_filterMap] at h
  obtain ⟨c, hc, hf⟩ := h
  by_cases h1 : c.length = 1
  · rw [if_pos h1] at hf
    obtain ⟨x, hx⟩ := List.length_eq_one.mp h1
    subst hx
    simp at hf
    subst hf
    exact hc
  · rw [if_neg h1] at hf
    simp at hf

theorem litIsTrue_none {l : Int} {a : Assignment} (h : alookup a l.natAbs = none) :
    litIsTrue l a = false := by
  unfold litIsTrue
  rw [h]

theorem litIsTrue_some {l : Int} {a : Assignment} (h : litIsTrue l a = true) :
    alookup a l.natAbs = some (decide (0 < l)) := by
  unfold litIsTrue at h
  cases hc : alookup a l.natAbs with
  | none => rw [hc] at h; simp at h
  | some b =>
      rw [hc] at h
      simp at h
      rw [h]

theorem litIsTrue_AExt {l : Int} {a b : Assignment} (hab : AExt a b)
    (h : litIsTrue l a = true) : litIsTrue l b = true := by
  have h1 := litIsTrue_some h
  unfold litIsTrue
  rw [hab _ _ h1]
  simp

theorem clauseSat_singleton {τ : TAssign} {l : Int} (h : clauseSat τ [l]) : litSat τ l := by
  obtain ⟨m, hm, hs⟩ := h
  rwa [List.mem_singleton.mp hm] at hs

theorem upSimplifyByLit_some_no_neg_unit {lit : Int} (h0 : lit ≠ 0) :
    ∀ {cls cls2 : List Clause}, upSimplifyByLit lit cls = some cls2 → [-lit] ∉ cls := by
  intro cls
  induction cls with
  | nil =>
      intro cls2 _ hmem
      simp at hmem
  | cons c t ih =>
      intro cls2 h hmem
      rw [upSimplifyByLit] at h
      rcases List.mem_cons.mp hmem with rfl | hmem2
      · have h1 : lit ∉ [-lit] := by
          simp
          omega
        have h2 : -lit ∈ [-lit] := List.mem_singleton_self _
        rw [if_neg h1, if_pos h2] at h
        have h3 : (([-lit] : Clause).erase (-lit)).length = 0 := by simp
        rw [if_pos h3] at h
        simp at h
      · by_cases h1 : lit ∈ c
        · rw [if_pos h1] at h
          exact ih h hmem2
        · by_cases h2 : -lit ∈ c
          · rw [if_neg h1, if_pos h2] at h
            by_cases h3 : (c.erase (-lit)).length = 0
            · rw [if_pos h3] at h
              simp at h
            · rw [if_neg h3] at h
              cases hr : upSimplifyByLit lit t with
              | none => rw [hr] at h; simp at h
              | some r => exact ih hr hmem2
          · rw [if_neg h1, if_neg h2] at h
            cases hr : upSimplifyByLit lit t with
            | none => rw [hr] at h; simp at h
            | some r => exact ih hr hmem2

/-- Full specification of one batch of the unit-literal loop: the
assignment only grows; on a non-conflicting return the invariant holds,
satisfaction of the simplified clauses is equivalent to satisfaction of
the input clauses for totals extending the final assignment, and any
model of the input extending the initial assignment is forced to extend
the final one; on a conflicting return no model of the input extends the
initial assignment. -/
theorem upBatch_spec {nv : Nat} :
    ∀ (lits : List Int) (cls : List Clause) (a : Assignment),
      DInv cls a nv →
      (∀ l ∈ lits, [l] ∈ cls ∨ litIsTrue l a = true) →
      AExt a (upBatch lits cls a).2.1 ∧
      ((upBatch lits cls a).2.2 = false →
        DInv (upBatch lits cls a).1 (upBatch lits cls a).2.1 nv ∧
        (∀ τ, TExt (upBatch lits cls a).2.1 τ →
          (cnfSat τ (upBatch lits cls a).1 ↔ cnfSat τ cls)) ∧
        (∀ τ, TExt a τ → cnfSat τ cls → TExt (upBatch lits cls a).2.1 τ)) ∧
      ((upBatch lits cls a).2.2 = true →
        ∀ τ, TExt a τ → ¬ cnfSat τ cls) := by
  intro lits
  induction lits with
  | nil =>
      intro cls a hInv _
      refine ⟨AExt.refl a, ?_, ?_⟩
      · intro _
        exact ⟨hInv, fun τ _ => Iff.rfl, fun τ h _ => h⟩
      · intro hfl
        simp [upBatch] at hfl
  | cons lit rest ih =>
      intro cls a hInv H
      have Hrest0 : ∀ l ∈ rest, [l] ∈ cls ∨ litIsTrue l a = true :=
        fun l hl => H l (List.mem_cons_of_mem _ hl)
      cases hla : alookup a lit.natAbs with
      | some b =>
          by_cases hbv : b = decide (0 < lit)
          · -- consistent, continue with the rest
            have hred : upBatch (lit :: rest) cls a = upBatch rest cls a := by
              rw [upBatch, hla]
              dsimp only
              rw [if_neg (by simp [hbv])]
            rw [hred]
            exact ih cls a hInv Hrest0
          · -- conflict return (cls, a, true)
            have hred : upBatch (lit :: rest) cls a = (cls, a, true) := by
              rw [upBatch, hla]
              dsimp only
              rw [if_pos (by simp [hbv])]
            rw [hred]
            refine ⟨AExt.refl a, by intro h; simp at h, ?_⟩
            intro _ τ hext hcnf
            rcases H lit (List.mem_cons_self _ _) with hu | ht
            · have hsat := clauseSat_singleton (hcnf _ hu)
              have := hext _ _ hla
              unfold litSat at hsat
              rw [this] at hsat
              exact hbv hsat
            · have := litIsTrue_some ht
              rw [hla] at this
              exact hbv (Option.some.inj this)
      | none =>
          -- fresh assignment
          have hunit : [lit] ∈ cls := by
            rcases H lit (List.mem_cons_self _ _) with hu | ht
            · exact hu
            · rw [litIsTrue_none hla] at ht
              simp at ht
          obtain ⟨hz, hle, -, -⟩ := (hInv _ hunit).2 lit (List.mem_singleton_self _)
          have h1le : 1 ≤ lit.natAbs := by
            have := Int.natAbs_pos.mpr hz
            omega
          have hlitOf : litOf lit.natAbs (decide (0 < lit)) = lit := litOf_natAbs hz
          cases hsim : upSimplifyByLit lit cls with
          | none =>
              have hred : upBatch (lit :: rest) cls a =
                  (cls, a ++ [(lit.natAbs, decide (0 < lit))], true) := by
                rw [upBatch, hla]
                dsimp only
                rw [hsim]
              rw [hred]
              refine ⟨AExt.append a _, by intro h; simp at h, ?_⟩
              intro _ τ hext hcnf
              have hsat := clauseSat_singleton (hcnf _ hunit)
              exact upSimplifyByLit_none_unsat hz hsim τ hsat hcnf
          | some cls2 =>
              have hred : upBatch (lit :: rest) cls a =
                  upBatch rest cls2 (a ++ [(lit.natAbs, decide (0 < lit))]) := by
                rw [upBatch, hla]
                dsimp only
                rw [hsim]
              rw [hred]
              set a2 := a ++ [(lit.natAbs, decide (0 < lit))] with ha2
              have hceq : cls2 = simplifyAfterAssignment lit cls := upSimplifyByLit_some_eq hsim
              have hInv2 : DInv cls2 a2 nv := by
                rw [hceq, ← hlitOf]
                exact DInv_simplify _ hInv h1le hle hla
              have ha2lk : alookup a2 lit.natAbs = some (decide (0 < lit)) :=
                alookup_append_single_same _ hla
              have Hrest : ∀ l ∈ rest, [l] ∈ cls2 ∨ litIsTrue l a2 = true := by
                intro l hl
                rcases Hrest0 l hl with hu | ht
                · by_cases he1 : l = lit
                  · subst he1
                    right
                    unfold litIsTrue
                    rw [ha2lk]
                    simp
                  · by_cases he2 : l = -lit
                    · exfalso
                      subst he2
                      exact upSimplifyByLit_some_no_neg_unit hz hsim hu
                    · left
                      refine upSimplifyByLit_mem hsim _ hu ?_ ?_
                      · simp
                        intro hx
                        exact he1 hx.symm
                      · simp
                        intro hx
                        apply he2
                        omega
                · exact Or.inr (litIsTrue_AExt (AExt.append a _) ht)
              have IH := ih cls2 a2 hInv2 Hrest
              have hAE : AExt a (upBatch rest cls2 a2).2.1 :=
                (AExt.append a _).trans IH.1
              -- a model of cls extending a is forced through the new binding
              have hforce : ∀ τ, TExt a τ → cnfSat τ cls →
                  TExt a2 τ ∧ cnfSat τ cls2 := by
                intro τ hext hcnf
                have hsat := clauseSat_singleton (hcnf _ hunit)
                have hTa2 : TExt a2 τ := by
                  rw [ha2]
                  exact TExt_append hext hsat
                refine ⟨hTa2, ?_⟩
                rw [hceq]
                exact (cnfSat_simplify_iff hz hsat cls).mpr hcnf
              refine ⟨hAE, ?_, ?_⟩
              · intro hfl
                obtain ⟨ihInv, ihIff, ihForce⟩ := IH.2.1 hfl
                refine ⟨ihInv, ?_, ?_⟩
                · intro τ hext
                  have hTa2 : TExt a2 τ := TExt_of_AExt IH.1 hext
                  have hsat : litSat τ lit := by
                    unfold litSat
                    exact hTa2 _ _ ha2lk
                  rw [ihIff τ hext, hceq]
                  exact cnfSat_simplify_iff hz hsat cls
                · intro τ hext hcnf
                  obtain ⟨hTa2, hc2⟩ := hforce τ hext hcnf
                  exact ihForce τ hTa2 hc2
              · intro hfl τ hext hcnf
                obtain ⟨hTa2, hc2⟩ := hforce τ hext hcnf
                exact IH.2.2 hfl τ hTa2 hc2

/-- Specification of the outer unit-propagation loop, same contract as
`upBatch_spec`. -/
theorem upLoop_spec {nv : Nat} :
    ∀ (fuel : Nat) (cls : List Clause) (a : Assignment),
      DInv cls a nv →
      ∀ {cls2 : List Clause} {a2 : Assignment} {flag : Bool},
        upLoop fuel cls a = some (cls2, a2, flag) →
        AExt a a2 ∧
        (flag = false →
          DInv cls2 a2 nv ∧
          (∀ τ, TExt a2 τ → (cnfSat τ cls2 ↔ cnfSat τ cls)) ∧
          (∀ τ, TExt a τ → cnfSat τ cls → TExt a2 τ)) ∧
        (flag = true → ∀ τ, TExt a τ → ¬ cnfSat τ cls) := by
  intro fuel
  induction fuel with
  | zero =>
      intro cls a _ cls2 a2 flag h
      simp [upLoop] at h
  | succ f ih =>
      intro cls a hInv cls2 a2 flag h
      rw [upLoop] at h
      by_cases hu : (unitLitsOf cls).isEmpty
      · simp only [hu, if_true, Option.some.injEq, Prod.mk.injEq] at h
        obtain ⟨h1, h2, h3⟩ := h
        subst h1
        subst h2
        subst h3
        refine ⟨AExt.refl a, ?_, by intro h; simp at h⟩
        intro _
        exact ⟨hInv, fun τ _ => Iff.rfl, fun τ h _ => h⟩
      · simp only [hu, Bool.false_eq_true, if_false] at h
        have HU : ∀ l ∈ unitLitsOf cls, [l] ∈ cls ∨ litIsTrue l a = true :=
          fun l hl => Or.inl (mem_unitLitsOf hl)
        have spec := @upBatch_spec nv (unitLitsOf cls) cls a hInv HU
        rcases hb : upBatch (unitLitsOf cls) cls a with ⟨clsB, aB, flagB⟩
        rw [hb] at h spec
        cases flagB with
        | true =>
            simp only [Option.some.injEq, Prod.mk.injEq] at h
            obtain ⟨h1, h2, h3⟩ := h
            subst h1
            subst h2
            subst h3
            exact ⟨spec.1, by intro h; simp at h, fun _ => spec.2.2 rfl⟩
        | false =>
            obtain ⟨sInv, sIff, sForce⟩ := spec.2.1 rfl
            have IH := ih clsB aB sInv h
            refine ⟨spec.1.trans IH.1, ?_, ?_⟩
            · intro hfl
              obtain ⟨iInv, iIff, iForce⟩ := IH.2.1 hfl
              refine ⟨iInv, ?_, ?_⟩
              · intro τ hext
                rw [iIff τ hext]
                exact sIff τ (TExt_of_AExt IH.1 hext)
              · intro τ hext hcnf
                have hTB : TExt aB τ := sForce τ hext hcnf
                have hcB : cnfSat τ clsB := (sIff τ hTB).mpr hcnf
                exact iForce τ hTB hcB
            · intro hfl τ hext hcnf
              have hTB : TExt aB τ := sForce τ hext hcnf
              have hcB : cnfSat τ clsB := (sIff τ hTB).mpr hcnf
              exact IH.2.2 hfl τ hTB hcB

/-- Specification of `_unit_propagate`. -/
theorem unit_propagate_spec {nv : Nat} {cls : List Clause} {a : Assignment}
    (hInv : DInv cls a nv) {cls2 : List Clause} {a2 : Assignment} {flag : Bool}
    (h : unit_propagate cls a = some (cls2, a2, flag)) :
    AExt a a2 ∧
    (flag = false →
      DInv cls2 a2 nv ∧
      (∀ τ, TExt a2 τ → (cnfSat τ cls2 ↔ cnfSat τ cls)) ∧
      (∀ τ, TExt a τ → cnfSat τ cls → TExt a2 τ)) ∧
    (flag = true → ∀ τ, TExt a τ → ¬ cnfSat τ cls) :=
  upLoop_spec _ cls a hInv h

/-! ## Specification of pure-literal elimination -/

theorem alookup_none_iff {l : Assignment} {w : Nat} :
    alookup l w = none ↔ ∀ p ∈ l, p.1 ≠ w := by
  induction l with
  | nil => simp [alookup]
  | cons p t ih =>
      obtain ⟨k, b⟩ := p
      by_cases hk : k = w
      · subst hk
        simp [alookup]
      · simp [alookup, hk, ih]

theorem alookup_some_mem {l : Assignment} {w : Nat} {b : Bool}
    (h : alookup l w = some b) : (w, b) ∈ l := by
  induction l with
  | nil => simp [alookup] at h
  | cons p t ih =>
      obtain ⟨k, x⟩ := p
      by_cases hk : k = w
      · subst hk
        rw [alookup, if_pos rfl] at h
        cases h
        exact List.mem_cons_self _ _
      · rw [alookup, if_neg hk] at h
        exact List.mem_cons_of_mem _ (ih h)

theorem alookup_of_mem_nodup {l : Assignment} (hn : (l.map Prod.fst).Nodup)
    {v : Nat} {b : Bool} (h : (v, b) ∈ l) : alookup l v = some b := by
  induction l with
  | nil => simp at h
  | cons p t ih =>
      obtain ⟨k, x⟩ := p
      rw [List.map_cons, List.nodup_cons] at hn
      rcases List.mem_cons.mp h with he | hm
      · cases he
        rw [alookup, if_pos rfl]
      · have hkv : k ≠ v := by
          intro hkv
          subst hkv
          exact hn.1 (List.mem_map.mpr ⟨(k, b), hm, rfl⟩)
        rw [alookup, if_neg hkv]
        exact ih hn.2 hm

theorem varsList_mem {cls : List Clause} {v : Nat} (h : v ∈ varsList cls) :
    ∃ c ∈ cls, ∃ l ∈ c, l.natAbs = v := by
  unfold varsList at h
  rw [List.mem_dedup, List.mem_flatMap] at h
  obtain ⟨c, hc, hm⟩ := h
  rw [List.mem_map] at hm
  obtain ⟨l, hl, hv⟩ := hm
  exact ⟨c, hc, l, hl, hv⟩

theorem occCount_zero {cls : List Clause} {v : Nat} {pol : Bool}
    (h : occCount cls v pol = 0) {c : Clause} (hc : c ∈ cls) :
    (if pol then (v : Int) else -(v : Int)) ∉ c := by
  intro hmem
  unfold occCount at h
  rw [List.sum_eq_zero_iff] at h
  have := h 1 (List.mem_map.mpr ⟨c, hc, by rw [if_pos hmem]⟩)
  exact one_ne_zero this

theorem pureCollect_mem {cls : List Clause} {a : Assignment} {v : Nat} {val : Bool}
    (h : (v, val) ∈ pureCollect cls a) :
    v ∈ varsList cls ∧ amem a v = false ∧ occCount cls v (!val) = 0 := by
  unfold pureCollect at h
  rw [List.mem_filterMap] at h
  obtain ⟨w, hw, hf⟩ := h
  by_cases h1 : amem a w
  · rw [if_pos h1] at hf
    simp at hf
  · rw [if_neg h1] at hf
    by_cases h2 : 0 < occCount cls w true ∧ occCount cls w false = 0
    · rw [if_pos h2] at hf
      simp at hf
      obtain ⟨rfl, rfl⟩ := hf
      exact ⟨hw, by simpa using h1, h2.2⟩
    · rw [if_neg h2] at hf
      by_cases h3 : 0 < occCount cls w false ∧ occCount cls w true = 0
      · rw [if_pos h3] at hf
        simp at hf
        obtain ⟨rfl, rfl⟩ := hf
        exact ⟨hw, by simpa using h1, h3.2⟩
      · rw [if_neg h3] at hf
        simp at hf

theorem map_fst_filterMap_sublist (l : List Nat) (f : Nat → Option (Nat × Bool))
    (hf : ∀ v p, f v = some p → p.1 = v) :
    ((l.filterMap f).map Prod.fst).Sublist l := by
  induction l with
  | nil => simp
  | cons x t ih =>
      rw [List.filterMap_cons]
      cases hfx : f x with
      | none => exact ih.cons x
      | some p =>
          rw [List.map_cons]
          rw [hf x p hfx]
          exact ih.cons₂ x

theorem pureCollect_keys_nodup (cls : List Clause) (a : Assignment) :
    ((pureCollect cls a).map Prod.fst).Nodup := by
  have hs : ((pureCollect cls a).map Prod.fst).Sublist (varsList cls) := by
    refine map_fst_filterMap_sublist _ _ ?_
    intro v p hp
    by_cases h1 : amem a v
    · rw [if_pos h1] at hp
      simp at hp
    · rw [if_neg h1] at hp
      by_cases h2 : 0 < occCount cls v true ∧ occCount cls v false = 0
      · rw [if_pos h2] at hp
        cases hp
        rfl
      · rw [if_neg h2] at hp
        by_cases h3 : 0 < occCount cls v false ∧ occCount cls v true = 0
        · rw [if_pos h3] at hp
          cases hp
          rfl
        · rw [if_neg h3] at hp
          simp at hp
  exact hs.nodup (List.nodup_dedup _)

/-- Purity: every occurrence of a collected variable has the collected
polarity. -/
theorem pureCollect_pure {cls : List Clause} {a : Assignment} {v : Nat} {val : Bool}
    (hm : (v, val) ∈ pureCollect cls a)
    {c : Clause} {l : Int} (hc : c ∈ cls) (hl : l ∈ c) (hv : l.natAbs = v) :
    l = litOf v val := by
  obtain ⟨-, -, hocc⟩ := pureCollect_mem hm
  have hopp := occCount_zero hocc hc
  have habs := Int.natAbs_eq_iff.mp hv
  cases val with
  | true =>
      have hopp2 : -(v : Int) ∉ c := by simpa using hopp
      rcases habs with rfl | rfl
      · rfl
      · exact absurd hl hopp2
  | false =>
      have hopp2 : (v : Int) ∉ c := by simpa using hopp
      rcases habs with rfl | rfl
      · exact absurd hl hopp2
      · rfl

/-- The variables collected in one round are at least 1 (they are
absolute values of non-zero literals of the invariant-respecting clause
list). -/
theorem pureCollect_var_pos {nv : Nat} {cls : List Clause} {a : Assignment}
    (hInv : DInv cls a nv) {v : Nat} {val : Bool}
    (hm : (v, val) ∈ pureCollect cls a) : 1 ≤ v ∧ v ≤ nv := by
  obtain ⟨hvl, -, -⟩ := pureCollect_mem hm
  obtain ⟨c, hc, l, hl, hv⟩ := varsList_mem hvl
  obtain ⟨hz, hle, -, -⟩ := (hInv c hc).2 l hl
  subst hv
  have := Int.natAbs_pos.mpr hz
  omega

theorem pureApply_assign : ∀ (pv : List (Nat × Bool)) (cls : List Clause) (a : Assignment),
    (pureApply pv cls a).2 = a ++ pv := by
  intro pv
  induction pv with
  | nil => intro cls a; simp [pureApply]
  | cons p rest ih =>
      intro cls a
      obtain ⟨v, val⟩ := p
      rw [pureApply, ih]
      simp

theorem pureApply_mem : ∀ {pv : List (Nat × Bool)} {cls : List Clause} {a : Assignment}
    {c : Clause}, c ∈ (pureApply pv cls a).1 →
      c ∈ cls ∧ ∀ p ∈ pv, litOf p.1 p.2 ∉ c := by
  intro pv
  induction pv with
  | nil =>
      intro cls a c hc
      exact ⟨hc, by simp⟩
  | cons p rest ih =>
      intro cls a c hc
      obtain ⟨v, val⟩ := p
      rw [pureApply] at hc
      obtain ⟨hc2, hrest⟩ := ih hc
      rw [List.mem_filter] at hc2
      refine ⟨hc2.1, ?_⟩
      intro q hq
      rcases List.mem_cons.mp hq with rfl | hq2
      · have := hc2.2
        simp only [decide_not] at this
        rw [Bool.not_eq_true', decide_eq_false_iff_not] at this
        simpa [litOf] using this
      · exact hrest q hq2

theorem pureApply_removed : ∀ {pv : List (Nat × Bool)} {cls : List Clause} {a : Assignment}
    {c : Clause}, c ∈ cls → c ∉ (pureApply pv cls a).1 →
      ∃ p ∈ pv, litOf p.1 p.2 ∈ c := by
  intro pv
  induction pv with
  | nil =>
      intro cls a c hc hnc
      exact absurd hc hnc
  | cons p rest ih =>
      intro cls a c hc hnc
      obtain ⟨v, val⟩ := p
      rw [pureApply] at hnc
      by_cases hmem : (if val then (v : Int) else -(v : Int)) ∈ c
      · exact ⟨(v, val), List.mem_cons_self _ _, by simpa [litOf] using hmem⟩
      · have hc2 : c ∈ cls.filter (fun c => (if val then (v : Int) else -(v : Int)) ∉ c) :=
          List.mem_filter.mpr ⟨hc, by simpa using hmem⟩
        obtain ⟨q, hq, hql⟩ := ih hc2 hnc
        exact ⟨q, List.mem_cons_of_mem _ hq, hql⟩

theorem amem_false_iff {a : Assignment} {v : Nat} :
    amem a v = false ↔ alookup a v = none := by
  unfold amem
  cases alookup a v <;> simp

/-- One round of pure-literal elimination: the invariant is preserved,
removed clauses are satisfied by the added bindings (soundness), and
satisfiability relative to the current partial assignment is preserved
(completeness): flipping each pure variable to its pure polarity can
only turn literals true. -/
theorem pureRound_spec {nv : Nat} {cls : List Clause} {a : Assignment} (hInv : DInv cls a nv) :
    DInv (pureApply (pureCollect cls a) cls a).1 (pureApply (pureCollect cls a) cls a).2 nv ∧
    (∀ τ, TExt (pureApply (pureCollect cls a) cls a).2 τ →
      cnfSat τ (pureApply (pureCollect cls a) cls a).1 → cnfSat τ cls) ∧
    ((∃ τ, TExt a τ ∧ cnfSat τ cls) →
      ∃ τ, TExt (pureApply (pureCollect cls a) cls a).2 τ ∧
        cnfSat τ (pureApply (pureCollect cls a) cls a).1) := by
  have hassign := pureApply_assign (pureCollect cls a) cls a
  have hsub := (pureApply_sublist (pureCollect cls a) cls a).1
  refine ⟨?_, ?_, ?_⟩
  · intro c hc
    have hcc := hsub.subset hc
    obtain ⟨hnd, hlits⟩ := hInv c hcc
    refine ⟨hnd, ?_⟩
    intro l hl
    obtain ⟨hz, hle, hun, hnn⟩ := hlits l hl
    refine ⟨hz, hle, ?_, hnn⟩
    rw [hassign, alookup_append_none _ hun, alookup_none_iff]
    intro p hp heq
    obtain ⟨-, hnotin⟩ := pureApply_mem hc
    obtain ⟨w, b⟩ := p
    have hpl := pureCollect_pure hp hcc hl heq.symm
    exact hnotin (w, b) hp (hpl ▸ hl)
  · intro τ hext hcnf c hc
    by_cases hcin : c ∈ (pureApply (pureCollect cls a) cls a).1
    · exact hcnf c hcin
    · obtain ⟨p, hp, hpl⟩ := pureApply_removed hc hcin
      obtain ⟨v, val⟩ := p
      have h1v := pureCollect_var_pos hInv hp
      have hlk : alookup (pureApply (pureCollect cls a) cls a).2 v = some val := by
        rw [hassign]
        obtain ⟨-, hunm, -⟩ := pureCollect_mem hp
        rw [alookup_append_none _ (amem_false_iff.mp hunm)]
        exact alookup_of_mem_nodup (pureCollect_keys_nodup cls a) hp
      have hτv : τ v = val := hext _ _ hlk
      exact ⟨litOf v val, hpl, (litSat_litOf h1v.1 val).mpr hτv⟩
  · rintro ⟨τ, hext, hcnf⟩
    refine ⟨fun w => (alookup (pureCollect cls a) w).getD (τ w), ?_, ?_⟩
    · rw [hassign]
      intro w b hw
      cases hA : alookup a w with
      | some b2 =>
          have hpvnone : alookup (pureCollect cls a) w = none := by
            rw [alookup_none_iff]
            intro p hp hpe
            obtain ⟨v2, val2⟩ := p
            obtain ⟨-, hunm, -⟩ := pureCollect_mem hp
            rw [amem_false_iff] at hunm
            dsimp at hpe
            rw [hpe] at hunm
            rw [hunm] at hA
            exact Option.noConfusion hA
          rw [alookup_append_some _ hA] at hw
          cases hw
          simp only [hpvnone, Option.getD_none]
          exact hext _ _ hA
      | none =>
          rw [alookup_append_none _ hA] at hw
          simp [hw]
    · intro c hc
      have hcc := hsub.subset hc
      obtain ⟨l, hl, hsat⟩ := hcnf c hcc
      cases hP : alookup (pureCollect cls a) l.natAbs with
      | none =>
          refine ⟨l, hl, ?_⟩
          unfold litSat at hsat ⊢
          simp only [hP, Option.getD_none]
          exact hsat
      | some val =>
          have hm : (l.natAbs, val) ∈ pureCollect cls a := alookup_some_mem hP
          have hpl := pureCollect_pure hm hcc hl rfl
          have h1v := pureCollect_var_pos hInv hm
          refine ⟨l, hl, ?_⟩
          rw [hpl, litSat_litOf h1v.1]
          simp only [hP, Option.getD_some]

/-- Specification of the full pure-literal loop; contract as in
`pureRound_spec`. -/
theorem pureLoop_spec {nv : Nat} : ∀ (fuel : Nat) (cls : List Clause) (a : Assignment),
    DInv cls a nv →
    DInv (pureLoop fuel cls a).1 (pureLoop fuel cls a).2 nv ∧
    (∀ τ, TExt (pureLoop fuel cls a).2 τ → cnfSat τ (pureLoop fuel cls a).1 → cnfSat τ cls) ∧
    ((∃ τ, TExt a τ ∧ cnfSat τ cls) →
      ∃ τ, TExt (pureLoop fuel cls a).2 τ ∧ cnfSat τ (pureLoop fuel cls a).1) := by
  intro fuel
  induction fuel with
  | zero =>
      intro cls a hInv
      exact ⟨hInv, fun τ _ h => h, fun h => h⟩
  | succ f ih =>
      intro cls a hInv
      rw [pureLoop]
      by_cases hp : (pureCollect cls a).isEmpty
      · rw [if_pos hp]
        exact ⟨hInv, fun τ _ h => h, fun h => h⟩
      · rw [if_neg hp]
        have hr := pureRound_spec hInv
        have ihr := ih (pureApply (pureCollect cls a) cls a).1
          (pureApply (pureCollect cls a) cls a).2 hr.1
        have hAE : AExt (pureApply (pureCollect cls a) cls a).2
            (pureLoop f (pureApply (pureCollect cls a) cls a).1
              (pureApply (pureCollect cls a) cls a).2).2 :=
          (pureLoop_sublist f _ _).2
        refine ⟨ihr.1, ?_, ?_⟩
        · intro τ hext hc
          exact hr.2.1 τ (TExt_of_AExt hAE hext) (ihr.2.1 τ hext hc)
        · intro hsat
          exact ihr.2.2 (hr.2.2 hsat)

/-- Specification of `_pure_literal_elim`. -/
theorem pure_literal_elim_spec {nv : Nat} {cls : List Clause} {a : Assignment}
    (hInv : DInv cls a nv) :
    DInv (pure_literal_elim cls a).1 (pure_literal_elim cls a).2 nv ∧
    (∀ τ, TExt (pure_literal_elim cls a).2 τ →
      cnfSat τ (pure_literal_elim cls a).1 → cnfSat τ cls) ∧
    ((∃ τ, TExt a τ ∧ cnfSat τ cls) →
      ∃ τ, TExt (pure_literal_elim cls a).2 τ ∧ cnfSat τ (pure_literal_elim cls a).1) :=
  pureLoop_spec _ cls a hInv

/-! ## Properties of the DLCS branch choice -/

theorem chooseStep_keeps_some {cls : List Clause} {a : Assignment}
    {acc : Option Nat × Int × Bool} {v : Nat} (h : acc.1.isSome) :
    ((chooseStep cls a acc v).1).isSome := by
  unfold chooseStep
  by_cases h1 : amem a v
  · rw [if_pos h1]
    exact h
  · rw [if_neg h1]
    by_cases h2 : ((occCount cls v true : Int) + (occCount cls v false : Int) >
        acc.2.1)
    · rw [if_pos h2]
      rfl
    · rw [if_neg h2]
      exact h

theorem foldl_chooseStep_some {cls : List Clause} {a : Assignment} :
    ∀ (l : List Nat) (acc : Option Nat × Int × Bool), acc.1.isSome →
      ((l.foldl (chooseStep cls a) acc).1).isSome := by
  intro l
  induction l with
  | nil => intro acc h; exact h
  | cons x t ih =>
      intro acc h
      exact ih _ (chooseStep_keeps_some h)

theorem foldl_chooseStep_none {cls : List Clause} {a : Assignment} :
    ∀ (l : List Nat) (acc : Option Nat × Int × Bool), acc.1 = none → acc.2.1 = -1 →
      (l.foldl (chooseStep cls a) acc).1 = none → ∀ v ∈ l, amem a v = true := by
  intro l
  induction l with
  | nil =>
      intro acc _ _ _ v hv
      simp at hv
  | cons x t ih =>
      intro acc hn hs h v hv
      by_cases h1 : amem a x
      · have hstep : chooseStep cls a acc x = acc := by
          unfold chooseStep
          rw [if_pos h1]
        rw [List.foldl_cons, hstep] at h
        rcases List.mem_cons.mp hv with rfl | hv2
        · exact h1
        · exact ih acc hn hs h v hv2
      · exfalso
        have hgt : ((occCount cls x true : Int) + (occCount cls x false : Int) > acc.2.1) := by
          rw [hs]
          have c1 : (0 : Int) ≤ (occCount cls x true : Int) := Int.ofNat_nonneg _
          have c2 : (0 : Int) ≤ (occCount cls x false : Int) := Int.ofNat_nonneg _
          omega
        have hstep : (chooseStep cls a acc x).1 = some x := by
          unfold chooseStep
          rw [if_neg h1, if_pos hgt]
        rw [List.foldl_cons] at h
        have := @foldl_chooseStep_some cls a t (chooseStep cls a acc x)
          (by rw [hstep]; rfl)
        rw [h] at this
        simp at this

theorem chooseBranchVar_none {cls : List Clause} {a : Assignment} {nv : Nat}
    (h : (chooseBranchVar cls a nv).1 = none) :
    ∀ v, 1 ≤ v → v ≤ nv → amem a v = true := by
  intro v h1 h2
  refine foldl_chooseStep_none (List.range' 1 nv) (none, -1, true) rfl rfl h v ?_
  rw [List.mem_range'_1]
  omega

theorem foldl_chooseStep_bounds {cls : List Clause} {a : Assignment} {nv : Nat} :
    ∀ (l : List Nat) (acc : Option Nat × Int × Bool),
      (∀ w, acc.1 = some w → 1 ≤ w ∧ w ≤ nv ∧ amem a w = false) →
      (∀ v ∈ l, 1 ≤ v ∧ v ≤ nv) →
      ∀ w, (l.foldl (chooseStep cls a) acc).1 = some w →
        1 ≤ w ∧ w ≤ nv ∧ amem a w = false := by
  intro l
  induction l with
  | nil =>
      intro acc hacc _ w h
      exact hacc w h
  | cons x t ih =>
      intro acc hacc hl w h
      rw [List.foldl_cons] at h
      refine ih _ ?_ (fun v hv => hl v (List.mem_cons_of_mem _ hv)) w h
      intro u hu
      unfold chooseStep at hu
      by_cases h1 : amem a x
      · rw [if_pos h1] at hu
        exact hacc u hu
      · rw [if_neg h1] at hu
        by_cases h2 : ((occCount cls x true : Int) + (occCount cls x false : Int) >
            acc.2.1)
        · rw [if_pos h2] at hu
          cases hu
          exact ⟨(hl x (List.mem_cons_self x t)).1, (hl x (List.mem_cons_self x t)).2,
            by simpa using h1⟩
        · rw [if_neg h2] at hu
          exact hacc u hu

theorem chooseBranchVar_some {cls : List Clause} {a : Assignment} {nv : Nat} {v : Nat}
    {p : Bool} (h : chooseBranchVar cls a nv = (some v, p)) :
    1 ≤ v ∧ v ≤ nv ∧ alookup a v = none := by
  have h1 : ((List.range' 1 nv).foldl (chooseStep cls a) (none, -1, true)).1 = some v := by
    have := congrArg Prod.fst h
    exact this
  have := @foldl_chooseStep_bounds _ _ nv (List.range' 1 nv) (none, -1, true)
    (by intro w hw; simp at hw)
    (by intro u hu; rw [List.mem_range'_1] at hu; omega) v h1
  exact ⟨this.1, this.2.1, amem_false_iff.mp this.2.2⟩

/-! ## Fuel sufficiency of the unit-propagation loop -/

theorem upBatch_AExt : ∀ (lits : List Int) (cls : List Clause) (a : Assignment),
    AExt a (upBatch lits cls a).2.1 := by
  intro lits
  induction lits with
  | nil => intro cls a; exact AExt.refl a
  | cons lit rest ih =>
      intro cls a
      cases hla : alookup a lit.natAbs with
      | some b =>
          by_cases hbv : b = decide (0 < lit)
          · rw [upBatch, hla]
            dsimp only
            rw [if_neg (by simp [hbv])]
            exact ih cls a
          · rw [upBatch, hla]
            dsimp only
            rw [if_pos (by simp [hbv])]
            exact AExt.refl a
      | none =>
          cases hsim : upSimplifyByLit lit cls with
          | none =>
              rw [upBatch, hla]
              dsimp only
              rw [hsim]
              exact AExt.append a _
          | some cls2 =>
              rw [upBatch, hla]
              dsimp only
              rw [hsim]
              exact (AExt.append a _).trans (ih cls2 _)

theorem mem_varsList {cls : List Clause} {c : Clause} {l : Int} (hc : c ∈ cls) (hl : l ∈ c) :
    l.natAbs ∈ varsList cls := by
  unfold varsList
  rw [List.mem_dedup, List.mem_flatMap]
  exact ⟨c, hc, List.mem_map.mpr ⟨l, hl, rfl⟩⟩

theorem simplify_mem_sub {lit : Int} : ∀ {cls : List Clause} {c2 : Clause},
    c2 ∈ simplifyAfterAssignment lit cls → ∃ c ∈ cls, ∀ l ∈ c2, l ∈ c := by
  intro cls
  induction cls with
  | nil =>
      intro c2 h
      simp [simplifyAfterAssignment] at h
  | cons c t ih =>
      intro c2 h
      rw [simplifyAfterAssignment] at h
      by_cases h1 : lit ∈ c
      · rw [if_pos h1] at h
        obtain ⟨c3, hc3, hsub⟩ := ih h
        exact ⟨c3, List.mem_cons_of_mem _ hc3, hsub⟩
      · by_cases h2 : -lit ∈ c
        · rw [if_neg h1, if_pos h2] at h
          rcases List.mem_cons.mp h with rfl | h3
          · exact ⟨c, List.mem_cons_self _ _, fun l hl => List.mem_of_mem_erase hl⟩
          · obtain ⟨c3, hc3, hsub⟩ := ih h3
            exact ⟨c3, List.mem_cons_of_mem _ hc3, hsub⟩
        · rw [if_neg h1, if_neg h2] at h
          rcases List.mem_cons.mp h with he | h3
          · exact ⟨c, List.mem_cons_self _ _, fun l hl => he ▸ hl⟩
          · obtain ⟨c3, hc3, hsub⟩ := ih h3
            exact ⟨c3, List.mem_cons_of_mem _ hc3, hsub⟩

theorem varsList_subset_simplify {lit : Int} {cls : List Clause} :
    ∀ v ∈ varsList (simplifyAfterAssignment lit cls), v ∈ varsList cls := by
  intro v hv
  obtain ⟨c2, hc2, l, hl, hveq⟩ := varsList_mem hv
  obtain ⟨c, hc, hsub⟩ := simplify_mem_sub hc2
  subst hveq
  exact mem_varsList hc (hsub l hl)

theorem varsList_subset_upBatch : ∀ (lits : List Int) (cls : List Clause) (a : Assignment),
    ∀ v ∈ varsList (upBatch lits cls a).1, v ∈ varsList cls := by
  intro lits
  induction lits with
  | nil => intro cls a v hv; exact hv
  | cons lit rest ih =>
      intro cls a v hv
      cases hla : alookup a lit.natAbs with
      | some b =>
          by_cases hbv : b = decide (0 < lit)
          · rw [upBatch, hla] at hv
            dsimp only at hv
            rw [if_neg (by simp [hbv])] at hv
            exact ih cls a v hv
          · rw [upBatch, hla] at hv
            dsimp only at hv
            rw [if_pos (by simp [hbv])] at hv
            exact hv
      | none =>
          cases hsim : upSimplifyByLit lit cls with
          | none =>
              rw [upBatch, hla] at hv
              dsimp only at hv
              rw [hsim] at hv
              exact hv
          | some cls2 =>
              rw [upBatch, hla] at hv
              dsimp only at hv
              rw [hsim] at hv
              have := ih cls2 _ v hv
              rw [upSimplifyByLit_some_eq hsim] at this
              exact varsList_subset_simplify v this

/-- The first unit literal of a nonempty batch gets assigned (under the
invariant its variable is fresh). -/
theorem upBatch_first {nv : Nat} {cls : List Clause} {a : Assignment}
    (hInv : DInv cls a nv) {l0 : Int} {rest : List Int} (hu : [l0] ∈ cls) :
    (alookup (upBatch (l0 :: rest) cls a).2.1 l0.natAbs).isSome := by
  obtain ⟨-, -, hun, -⟩ := (hInv _ hu).2 l0 (List.mem_singleton_self _)
  cases hsim : upSimplifyByLit l0 cls with
  | none =>
      rw [upBatch, hun]
      dsimp only
      rw [hsim]
      rw [alookup_append_single_same _ hun]
      rfl
  | some cls2 =>
      rw [upBatch, hun]
      dsimp only
      rw [hsim]
      have hbase : alookup (a ++ [(l0.natAbs, decide (0 < l0))]) l0.natAbs =
          some (decide (0 < l0)) := alookup_append_single_same _ hun
      have := upBatch_AExt rest cls2 (a ++ [(l0.natAbs, decide (0 < l0))]) _ _ hbase
      rw [this]
      rfl

theorem upLoop_ne_none {nv : Nat} : ∀ (fuelU : Nat) (cls : List Clause) (a : Assignment),
    DInv cls a nv → (varsList cls).length < fuelU → upLoop fuelU cls a ≠ none := by
  intro fuelU
  induction fuelU with
  | zero =>
      intro cls a _ h
      omega
  | succ f ih =>
      intro cls a hInv hlen
      rw [upLoop]
      cases hu : (unitLitsOf cls).isEmpty with
      | true => simp [hu]
      | false =>
          simp only [hu, Bool.false_eq_true, if_false]
          rcases hb : upBatch (unitLitsOf cls) cls a with ⟨clsB, aB, flagB⟩
          cases flagB with
          | true => simp
          | false =>
              -- the batch assigned the first unit variable, which therefore
              -- disappears from the clause variables
              obtain ⟨u, us, hus⟩ : ∃ u us, unitLitsOf cls = u :: us := by
                cases hc : unitLitsOf cls with
                | nil => rw [hc] at hu; simp at hu
                | cons u us => exact ⟨u, us, rfl⟩
              have huc : [u] ∈ cls := mem_unitLitsOf (by rw [hus]; exact List.mem_cons_self _ _)
              have hassigned : (alookup aB u.natAbs).isSome := by
                have := @upBatch_first _ _ _ hInv _ us huc
                rw [← hus, hb] at this
                exact this
              have HU : ∀ l ∈ unitLitsOf cls, [l] ∈ cls ∨ litIsTrue l a = true :=
                fun l hl => Or.inl (mem_unitLitsOf hl)
              have spec := @upBatch_spec nv (unitLitsOf cls) cls a hInv HU
              rw [hb] at spec
              have hInvB : DInv clsB aB nv := (spec.2.1 rfl).1
              have hsubv : ∀ v ∈ varsList clsB, v ∈ varsList cls := by
                have := varsList_subset_upBatch (unitLitsOf cls) cls a
                rw [hb] at this
                exact this
              have hnotin : u.natAbs ∉ varsList clsB := by
                intro hin
                obtain ⟨c, hc, l, hl, hveq⟩ := varsList_mem hin
                obtain ⟨-, -, hun2, -⟩ := (hInvB c hc).2 l hl
                rw [hveq] at hun2
                rw [hun2] at hassigned
                simp at hassigned
              have huin : u.natAbs ∈ varsList cls := mem_varsList huc (List.mem_singleton_self _)
              have hlt : (varsList clsB).length < (varsList cls).length := by
                have hsube : varsList clsB ⊆ (varsList cls).erase u.natAbs := by
                  intro w hw
                  have hne : w ≠ u.natAbs := fun he => hnotin (he ▸ hw)
                  exact (List.mem_erase_of_ne hne).mpr (hsubv w hw)
                have h1 : (varsList clsB).length ≤ ((varsList cls).erase u.natAbs).length :=
                  List.Subperm.length_le
                    (List.subperm_of_subset (List.nodup_dedup _) hsube)
                have h2 := List.length_erase_of_mem huin
                have h3 := List.length_pos_of_mem huin
                omega
              exact ih clsB aB hInvB (by omega)

theorem unit_propagate_ne_none {nv : Nat} {cls : List Clause} {a : Assignment}
    (hInv : DInv cls a nv) : unit_propagate cls a ≠ none :=
  upLoop_ne_none _ cls a hInv (by omega)

/-! ## Correctness of the DPLL search of src/solver.py -/

theorem containsEmpty_true {cls : List Clause} (h : containsEmptyClause cls = true) :
    ∃ c ∈ cls, c = [] := by
  unfold containsEmptyClause at h
  rw [List.any_eq_true] at h
  obtain ⟨c, hc, he⟩ := h
  exact ⟨c, hc, List.length_eq_zero.mp (by simpa using he)⟩

theorem not_cnfSat_of_empty {τ : TAssign} {cls : List Clause}
    (h : ∃ c ∈ cls, c = []) : ¬ cnfSat τ cls := by
  obtain ⟨c, hc, rfl⟩ := h
  intro hs
  obtain ⟨l, hl, -⟩ := hs [] hc
  simp at hl

theorem pure_literal_elim_AExt (cls : List Clause) (a : Assignment) :
    AExt a (pure_literal_elim cls a).2 :=
  (pureLoop_sublist _ _ _).2

/-- Correctness of `_dpll`: a successful call returns an extension of
its assignment all of whose total extensions satisfy the input clause
list; a failing call certifies that no total extension of its assignment
satisfies the input clause list. -/
theorem dpllGo_correct {nv : Nat} : ∀ (fuel : Nat) (cls : List Clause) (a : Assignment),
    DInv cls a nv → ∀ {res : Bool × Assignment}, dpllGo fuel cls a nv = some res →
      (res.1 = true → AExt a res.2 ∧ ∀ τ, TExt res.2 τ → cnfSat τ cls) ∧
      (res.1 = false → ∀ τ, TExt a τ → ¬ cnfSat τ cls) := by
  intro fuel
  induction fuel with
  | zero =>
      intro cls a _ res h
      simp [dpllGo] at h
  | succ f ih =>
      intro cls a hInv res h
      rw [dpllGo] at h
      rcases hup : unit_propagate cls a with _ | ⟨cls1, a1, flag⟩
      · rw [hup] at h
        simp at h
      · rw [hup] at h
        obtain ⟨upAE, upFalse, upTrue⟩ := unit_propagate_spec hInv hup
        cases flag with
        | true =>
            simp only [Option.some.injEq] at h
            subst h
            refine ⟨by intro habs; simp at habs, ?_⟩
            intro _ τ hext
            exact upTrue rfl τ hext
        | false =>
            obtain ⟨Inv1, upIff, upForce⟩ := upFalse rfl
            rcases hpure : pure_literal_elim cls1 a1 with ⟨cls2, a2⟩
            simp only [hpure] at h
            have pspec := pure_literal_elim_spec Inv1
            rw [hpure] at pspec
            obtain ⟨Inv2, pSound, pComplete⟩ := pspec
            have pAE : AExt a1 a2 := by
              have := pure_literal_elim_AExt cls1 a1
              rw [hpure] at this
              exact this
            have aAE2 : AExt a a2 := upAE.trans pAE
            have hmodel : ∀ τ, TExt a τ → cnfSat τ cls →
                ∃ τ2, TExt a2 τ2 ∧ cnfSat τ2 cls2 := by
              intro τ hext hcnf
              have h1 : TExt a1 τ := upForce τ hext hcnf
              have h2 : cnfSat τ cls1 := (upIff τ h1).mpr hcnf
              exact pComplete ⟨τ, h1, h2⟩
            have hback : ∀ τ, TExt a2 τ → cnfSat τ cls2 → cnfSat τ cls := by
              intro τ hext hc2
              exact (upIff τ (TExt_of_AExt pAE hext)).mp (pSound τ hext hc2)
            cases hemp : cls2.isEmpty with
            | true =>
                simp only [hemp, if_true, Option.some.injEq] at h
                subst h
                refine ⟨?_, by intro habs; simp at habs⟩
                intro _
                refine ⟨aAE2, ?_⟩
                intro τ hext
                refine hback τ hext ?_
                intro c hc
                rw [List.isEmpty_iff.mp hemp] at hc
                simp at hc
            | false =>
                simp only [hemp, Bool.false_eq_true, if_false] at h
                cases hce : containsEmptyClause cls2 with
                | true =>
                    simp only [hce, if_true, Option.some.injEq] at h
                    subst h
                    refine ⟨by intro habs; simp at habs, ?_⟩
                    intro _ τ hext hcnf
                    obtain ⟨τ2, hext2, hc2⟩ := hmodel τ hext hcnf
                    exact not_cnfSat_of_empty (containsEmpty_true hce) hc2
                | false =>
                    simp only [hce, Bool.false_eq_true, if_false] at h
                    rcases hch : chooseBranchVar cls2 a2 nv with ⟨vo, pref⟩
                    rw [hch] at h
                    cases vo with
                    | none =>
                        simp only [Option.some.injEq] at h
                        subst h
                        refine ⟨by intro habs; simp at habs, ?_⟩
                        intro _ τ hext hcnf
                        obtain ⟨τ2, hext2, hc2⟩ := hmodel τ hext hcnf
                        have hne : cls2 ≠ [] := by
                          intro he
                          rw [he] at hemp
                          simp at hemp
                        obtain ⟨c, hc⟩ := List.exists_mem_of_ne_nil cls2 hne
                        have hclen := containsEmpty_false_iff.mp hce c hc
                        obtain ⟨l, hl⟩ := List.exists_mem_of_ne_nil c
                          (by intro he; rw [he] at hclen; simp at hclen)
                        obtain ⟨hz, hle, hun, -⟩ := (Inv2 c hc).2 l hl
                        have h1l : 1 ≤ l.natAbs := by
                          have := Int.natAbs_pos.mpr hz
                          omega
                        have hamem := chooseBranchVar_none (congrArg Prod.fst hch)
                          l.natAbs h1l hle
                        simp [amem, hun] at hamem
                    | some v =>
                        obtain ⟨hv1, hvnv, hvun⟩ := chooseBranchVar_some hch
                        have hskip1 := branch_no_empty hup hpure hce
                          (if pref then (v : Int) else -(v : Int))
                        have hskip2 := branch_no_empty hup hpure hce
                          (if !pref then (v : Int) else -(v : Int))
                        simp only [hskip1, hskip2, Bool.false_eq_true, if_false] at h
                        have hInv3 : DInv (simplifyAfterAssignment
                            (if pref then (v : Int) else -(v : Int)) cls2)
                            (a2 ++ [(v, pref)]) nv :=
                          DInv_simplify pref Inv2 hv1 hvnv hvun
                        have hInv4 : DInv (simplifyAfterAssignment
                            (if !pref then (v : Int) else -(v : Int)) cls2)
                            (a2 ++ [(v, !pref)]) nv :=
                          DInv_simplify (!pref) Inv2 hv1 hvnv hvun
                        have hchild_iff : ∀ (tv : Bool) (τ : TAssign), τ v = tv →
                            (cnfSat τ (simplifyAfterAssignment
                              (if tv then (v : Int) else -(v : Int)) cls2) ↔
                              cnfSat τ cls2) := by
                          intro tv τ htv
                          have hls : litSat τ (litOf v tv) := (litSat_litOf hv1 tv).mpr htv
                          exact cnfSat_simplify_iff (litOf_ne_zero hv1 tv) hls cls2
                        rcases hr1 : dpllGo f (simplifyAfterAssignment
                            (if pref then (v : Int) else -(v : Int)) cls2)
                            (a2 ++ [(v, pref)]) nv with _ | ⟨s1, fa1⟩
                        · rw [hr1] at h
                          simp at h
                        · rw [hr1] at h
                          have IH1 := ih _ _ hInv3 hr1
                          cases s1 with
                          | true =>
                              simp only [Option.some.injEq] at h
                              subst h
                              obtain ⟨hAE1, hsat1⟩ := IH1.1 rfl
                              refine ⟨?_, by intro habs; simp at habs⟩
                              intro _
                              refine ⟨aAE2.trans ((AExt.append a2 _).trans hAE1), ?_⟩
                              intro τ hext
                              have hc3 := hsat1 τ hext
                              have hT2 : TExt (a2 ++ [(v, pref)]) τ :=
                                TExt_of_AExt hAE1 hext
                              have htv : τ v = pref :=
                                hT2 _ _ (alookup_append_single_same _ hvun)
                              have hc2 := (hchild_iff pref τ htv).mp hc3
                              exact hback τ (TExt_of_AExt (AExt.append a2 _) hT2) hc2
                          | false =>
                              rcases hr2 : dpllGo f (simplifyAfterAssignment
                                  (if !pref then (v : Int) else -(v : Int)) cls2)
                                  (a2 ++ [(v, !pref)]) nv with _ | ⟨s2, fa2⟩
                              · rw [hr2] at h
                                simp at h
                              · rw [hr2] at h
                                have IH2 := ih _ _ hInv4 hr2
                                cases s2 with
                                | true =>
                                    simp only [Option.some.injEq] at h
                                    subst h
                                    obtain ⟨hAE2b, hsat2⟩ := IH2.1 rfl
                                    refine ⟨?_, by intro habs; simp at habs⟩
                                    intro _
                                    refine ⟨aAE2.trans ((AExt.append a2 _).trans hAE2b), ?_⟩
                                    intro τ hext
                                    have hc4 := hsat2 τ hext
                                    have hT2 : TExt (a2 ++ [(v, !pref)]) τ :=
                                      TExt_of_AExt hAE2b hext
                                    have htv : τ v = !pref :=
                                      hT2 _ _ (alookup_append_single_same _ hvun)
                                    have hc2 := (hchild_iff (!pref) τ htv).mp hc4
                                    exact hback τ (TExt_of_AExt (AExt.append a2 _) hT2) hc2
                                | false =>
                                    simp only [Option.some.injEq] at h
                                    subst h
                                    refine ⟨by intro habs; simp at habs, ?_⟩
                                    intro _ τ hext hcnf
                                    obtain ⟨τ2, hext2, hc2⟩ := hmodel τ hext hcnf
                                    by_cases htv : τ2 v = pref
                                    · have hT3 : TExt (a2 ++ [(v, pref)]) τ2 :=
                                        TExt_append hext2 htv
                                      have hc3 := (hchild_iff pref τ2 htv).mpr hc2
                                      exact IH1.2 rfl τ2 hT3 hc3
                                    · have htv2 : τ2 v = !pref := by
                                        cases hb : τ2 v <;> cases pref <;> simp_all
                                      have hT4 : TExt (a2 ++ [(v, !pref)]) τ2 :=
                                        TExt_append hext2 htv2
                                      have hc4 := (hchild_iff (!pref) τ2 htv2).mpr hc2
                                      exact IH2.2 rfl τ2 hT4 hc4

/-! ## Fuel sufficiency of the DPLL searches -/

theorem dpllGo_ne_none {nv : Nat} : ∀ (fuel : Nat) (cls : List Clause) (a : Assignment),
    DInv cls a nv → unassignedCount a nv < fuel → dpllGo fuel cls a nv ≠ none := by
  intro fuel
  induction fuel with
  | zero =>
      intro cls a _ hcnt
      omega
  | succ f ih =>
      intro cls a hInv hcnt
      rw [dpllGo]
      rcases hup : unit_propagate cls a with _ | ⟨cls1, a1, flag⟩
      · exact absurd hup (unit_propagate_ne_none hInv)
      · obtain ⟨upAE, upFalse, -⟩ := unit_propagate_spec hInv hup
        cases flag with
        | true => simp
        | false =>
            obtain ⟨Inv1, -, -⟩ := upFalse rfl
            rcases hpure : pure_literal_elim cls1 a1 with ⟨cls2, a2⟩
            simp only [hpure]
            have pspec := pure_literal_elim_spec Inv1
            rw [hpure] at pspec
            have Inv2 := pspec.1
            have pAE : AExt a1 a2 := by
              have := pure_literal_elim_AExt cls1 a1
              rw [hpure] at this
              exact this
            cases hemp : cls2.isEmpty with
            | true => simp [hemp]
            | false =>
                simp only [hemp, Bool.false_eq_true, if_false]
                cases hce : containsEmptyClause cls2 with
                | true => simp [hce]
                | false =>
                    simp only [hce, Bool.false_eq_true, if_false]
                    rcases hch : chooseBranchVar cls2 a2 nv with ⟨vo, pref⟩
                    cases vo with
                    | none => simp
                    | some v =>
                        obtain ⟨hv1, hvnv, hvun⟩ := chooseBranchVar_some hch
                        have hskip1 := branch_no_empty hup hpure hce
                          (if pref then (v : Int) else -(v : Int))
                        have hskip2 := branch_no_empty hup hpure hce
                          (if !pref then (v : Int) else -(v : Int))
                        simp only [hskip1, hskip2, Bool.false_eq_true, if_false]
                        have hcount : ∀ tv : Bool, unassignedCount (a2 ++ [(v, tv)]) nv < f := by
                          intro tv
                          have h1 : unassignedCount a2 nv ≤ unassignedCount a nv :=
                            unassignedCount_le_of_AExt (upAE.trans pAE)
                          have h2 := @unassignedCount_append_lt a2 _ _ tv hv1 hvnv hvun
                          omega
                        have hInv3 := DInv_simplify pref Inv2 hv1 hvnv hvun
                        have hInv4 := DInv_simplify (!pref) Inv2 hv1 hvnv hvun
                        cases hr1 : dpllGo f (simplifyAfterAssignment
                            (if pref then (v : Int) else -(v : Int)) cls2)
                            (a2 ++ [(v, pref)]) nv with
                        | none => exact absurd hr1 (ih _ _ hInv3 (hcount pref))
                        | some r1 =>
                            obtain ⟨s1, fa1⟩ := r1
                            cases s1 with
                            | true => simp
                            | false =>
                                cases hr2 : dpllGo f (simplifyAfterAssignment
                                    (if !pref then (v : Int) else -(v : Int)) cls2)
                                    (a2 ++ [(v, !pref)]) nv with
                                | none => exact absurd hr2 (ih _ _ hInv4 (hcount (!pref)))
                                | some r2 =>
                                    obtain ⟨s2, fa2⟩ := r2
                                    cases s2 <;> simp

/-! ## The MOM split always yields a variable of the clause list -/

theorem momMinFold_attained : ∀ (rest : List Clause) (x : Nat),
    (rest.foldl (fun m c => min m c.length) x = x) ∨
    (∃ c ∈ rest, rest.foldl (fun m c => min m c.length) x = c.length) := by
  intro rest
  induction rest with
  | nil => intro x; exact Or.inl rfl
  | cons c t ih =>
      intro x
      rw [List.foldl_cons]
      rcases ih (min x c.length) with h | ⟨c2, hc2, h⟩
      · rw [h]
        rcases Nat.le_total x c.length with hle | hle
        · rw [min_eq_left hle]
          exact Or.inl rfl
        · rw [min_eq_right hle]
          exact Or.inr ⟨c, List.mem_cons_self _ _, rfl⟩
      · exact Or.inr ⟨c2, List.mem_cons_of_mem _ hc2, h⟩

theorem momFoldStep_keeps_some {g : Nat → Nat} {acc : Option (Nat × Nat)} {v : Nat}
    (h : acc.isSome) : (momFoldStep g acc v).isSome := by
  cases acc with
  | none => simp at h
  | some bp =>
      obtain ⟨bv, bs⟩ := bp
      unfold momFoldStep
      dsimp only
      by_cases h2 : g v > bs
      · rw [if_pos h2]
        rfl
      · rw [if_neg h2]
        rfl

theorem momFold_some_of_some {g : Nat → Nat} :
    ∀ (l : List Nat) (acc : Option (Nat × Nat)), acc.isSome →
      (l.foldl (momFoldStep g) acc).isSome := by
  intro l
  induction l with
  | nil => intro acc h; exact h
  | cons x t ih =>
      intro acc h
      rw [List.foldl_cons]
      exact ih _ (momFoldStep_keeps_some h)

theorem momFold_some {g : Nat → Nat} :
    ∀ (l : List Nat) (acc : Option (Nat × Nat)), acc.isSome ∨ l ≠ [] →
      (l.foldl (momFoldStep g) acc).isSome := by
  intro l acc h
  rcases h with h | h
  · exact momFold_some_of_some l acc h
  · cases l with
    | nil => exact absurd rfl h
    | cons x t =>
        rw [List.foldl_cons]
        refine momFold_some_of_some t _ ?_
        cases acc with
        | none => rfl
        | some bp => exact momFoldStep_keeps_some rfl

theorem momFold_mem {g : Nat → Nat} :
    ∀ (l : List Nat) (acc : Option (Nat × Nat)) {v cnt : Nat},
      l.foldl (momFoldStep g) acc = some (v, cnt) →
      acc = some (v, cnt) ∨ v ∈ l := by
  intro l
  induction l with
  | nil =>
      intro acc v cnt h
      exact Or.inl h
  | cons x t ih =>
      intro acc v cnt h
      rw [List.foldl_cons] at h
      rcases ih _ h with hacc | hmem
      · cases acc with
        | none =>
            unfold momFoldStep at hacc
            simp at hacc
            exact Or.inr (by rw [hacc.1]; exact List.mem_cons_self _ _)
        | some bp =>
            obtain ⟨bv, bs⟩ := bp
            unfold momFoldStep at hacc
            dsimp only at hacc
            by_cases h2 : g x > bs
            · rw [if_pos h2] at hacc
              simp at hacc
              exact Or.inr (by rw [hacc.1]; exact List.mem_cons_self _ _)
            · rw [if_neg h2] at hacc
              exact Or.inl hacc
      · exact Or.inr (List.mem_cons_of_mem _ hmem)

/-- The `ValueError` branch of `split` in src/ella_test/solver_mom.py is
dead code: whenever some clause has an unassigned literal, the score
dictionary is nonempty. -/
theorem momSplit_ne_none (cls : List Clause) (a : Assignment) : momSplit cls a ≠ none := by
  unfold momSplit
  cases huc : cls.filter (fun c => !(c.all (fun l => amem a l.natAbs))) with
  | nil => simp
  | cons c0 rest =>
      dsimp only
      set ml := rest.foldl (fun m c => min m c.length) c0.length with hml
      set mc := (c0 :: rest).filter (fun c => decide (c.length = ml)) with hmc
      set vs := (mc.flatMap (fun c => c.map Int.natAbs)).filter (fun v => !(amem a v)) with hvs
      have hcmin : ∃ cmin ∈ c0 :: rest, cmin.length = ml := by
        rcases momMinFold_attained rest c0.length with h | ⟨c2, hc2, h⟩
        · exact ⟨c0, List.mem_cons_self _ _, by rw [hml, h]⟩
        · exact ⟨c2, List.mem_cons_of_mem _ hc2, by rw [hml, h]⟩
      obtain ⟨cmin, hcm, hcml⟩ := hcmin
      have hcmf : cmin ∈ cls.filter (fun c => !(c.all (fun l => amem a l.natAbs))) := by
        rw [huc]
        exact hcm
      have hpred := (List.mem_filter.mp hcmf).2
      have hex : ∃ l ∈ cmin, amem a l.natAbs = false := by
        rw [Bool.not_eq_eq_eq_not, Bool.not_true, List.all_eq_false] at hpred
        obtain ⟨l, hl, hp⟩ := hpred
        exact ⟨l, hl, by simpa using hp⟩
      obtain ⟨l, hlm, hlun⟩ := hex
      have hvmem : l.natAbs ∈ vs := by
        rw [hvs]
        refine List.mem_filter.mpr ⟨?_, by simp [hlun]⟩
        rw [List.mem_flatMap]
        refine ⟨cmin, ?_, List.mem_map.mpr ⟨l, hlm, rfl⟩⟩
        rw [hmc]
        exact List.mem_filter.mpr ⟨hcm, by simp [hcml]⟩
      have hne : vs ≠ [] := List.ne_nil_of_mem hvmem
      have hsome := @momFold_some (fun v => vs.count v) vs none (Or.inr hne)
      cases hbest : vs.foldl (momFoldStep (fun v => vs.count v)) none with
      | none =>
          rw [hbest] at hsome
          simp at hsome
      | some bp =>
          obtain ⟨bv, bs⟩ := bp
          simp

/-- A variable chosen by `split` of src/ella_test/solver_mom.py occurs
in the clause list and is unassigned. -/
theorem momSplit_some_var {cls : List Clause} {a : Assignment} {v : Nat} {p : Bool}
    (h : momSplit cls a = some (some v, p)) :
    (∃ c ∈ cls, ∃ l ∈ c, l.natAbs = v) ∧ amem a v = false := by
  unfold momSplit at h
  cases huc : cls.filter (fun c => !(c.all (fun l => amem a l.natAbs))) with
  | nil =>
      rw [huc] at h
      simp at h
  | cons c0 rest =>
      rw [huc] at h
      dsimp only at h
      set ml := rest.foldl (fun m c => min m c.length) c0.length with hml
      set mc := (c0 :: rest).filter (fun c => decide (c.length = ml)) with hmc
      set vs := (mc.flatMap (fun c => c.map Int.natAbs)).filter (fun v => !(amem a v)) with hvs
      cases hbest : vs.foldl (momFoldStep (fun v => vs.count v)) none with
      | none =>
          rw [hbest] at h
          simp at h
      | some bp =>
          obtain ⟨bv, bs⟩ := bp
          rw [hbest] at h
          simp only [Option.some.injEq, Prod.mk.injEq] at h
          obtain ⟨hbv, -⟩ := h
          have hmem : bv ∈ vs := by
            rcases momFold_mem vs none hbest with habs | hm
            · simp at habs
            · exact hm
          rw [hbv] at hmem
          rw [hvs] at hmem
          have h1 := List.mem_filter.mp hmem
          have h2 : v ∈ mc.flatMap (fun c => c.map Int.natAbs) := h1.1
          rw [List.mem_flatMap] at h2
          obtain ⟨c, hc, hlm⟩ := h2
          rw [List.mem_map] at hlm
          obtain ⟨l, hl, hveq⟩ := hlm
          have hcm : c ∈ cls := by
            rw [hmc] at hc
            have := (List.mem_filter.mp hc).1
            have h3 : c ∈ cls.filter (fun c => !(c.all (fun l => amem a l.natAbs))) := by
              rw [huc]
              exact this
            exact (List.mem_filter.mp h3).1
          refine ⟨⟨c, hcm, l, hl, hveq⟩, ?_⟩
          have := h1.2
          simpa using this

theorem momDpll_ne_none {nv : Nat} : ∀ (fuel : Nat) (cls : List Clause) (a : Assignment)
    (k : Counters), DInv cls a nv → unassignedCount a nv < fuel →
    momDpll fuel cls a nv k ≠ none := by
  intro fuel
  induction fuel with
  | zero =>
      intro cls a k _ hcnt
      omega
  | succ f ih =>
      intro cls a k hInv hcnt
      rw [momDpll]
      rcases hup : unit_propagate cls a with _ | ⟨cls1, a1, flag⟩
      · exact absurd hup (unit_propagate_ne_none hInv)
      · obtain ⟨upAE, upFalse, -⟩ := unit_propagate_spec hInv hup
        cases flag with
        | true => simp
        | false =>
            obtain ⟨Inv1, -, -⟩ := upFalse rfl
            rcases hpure : pure_literal_elim cls1 a1 with ⟨cls2, a2⟩
            simp only [hpure]
            have pspec := pure_literal_elim_spec Inv1
            rw [hpure] at pspec
            have Inv2 := pspec.1
            have pAE : AExt a1 a2 := by
              have := pure_literal_elim_AExt cls1 a1
              rw [hpure] at this
              exact this
            cases hemp : cls2.isEmpty with
            | true => simp [hemp]
            | false =>
                simp only [hemp, Bool.false_eq_true, if_false]
                cases hce : containsEmptyClause cls2 with
                | true => simp [hce]
                | false =>
                    simp only [hce, Bool.false_eq_true, if_false]
                    rcases hsp : momSplit cls2 a2 with _ | ⟨vo, pref⟩
                    · exact absurd hsp (momSplit_ne_none cls2 a2)
                    · cases vo with
                      | none => simp
                      | some v =>
                          obtain ⟨⟨c, hc, l, hl, hveq⟩, hunm⟩ := momSplit_some_var hsp
                          obtain ⟨hz, hle, -, -⟩ := (Inv2 c hc).2 l hl
                          have hv1 : 1 ≤ v := by
                            subst hveq
                            have := Int.natAbs_pos.mpr hz
                            omega
                          have hvnv : v ≤ nv := hveq ▸ hle
                          have hvun : alookup a2 v = none := amem_false_iff.mp hunm
                          have hskip1 := branch_no_empty hup hpure hce
                            (if pref then (v : Int) else -(v : Int))
                          have hskip2 := branch_no_empty hup hpure hce
                            (if !pref then (v : Int) else -(v : Int))
                          simp only [hskip1, hskip2, Bool.false_eq_true, if_false]
                          have hcount : ∀ tv : Bool,
                              unassignedCount (a2 ++ [(v, tv)]) nv < f := by
                            intro tv
                            have h1 : unassignedCount a2 nv ≤ unassignedCount a nv :=
                              unassignedCount_le_of_AExt (upAE.trans pAE)
                            have h2 := @unassignedCount_append_lt a2 _ _ tv
                              hv1 hvnv hvun
                            omega
                          have hInv3 := DInv_simplify pref Inv2 hv1 hvnv hvun
                          have hInv4 := DInv_simplify (!pref) Inv2 hv1 hvnv hvun
                          cases hr1 : momDpll f (simplifyAfterAssignment
                              (if pref then (v : Int) else -(v : Int)) cls2)
                              (a2 ++ [(v, pref)]) nv
                              { calls := k.calls + 1, splits := k.splits + 1,
                                backtracks := k.backtracks } with
                          | none => exact absurd hr1 (ih _ _ _ hInv3 (hcount pref))
                          | some r1 =>
                              obtain ⟨s1, fa1, k3⟩ := r1
                              cases s1 with
                              | true => simp
                              | false =>
                                  have heq2 : (if pref = false then (v : Int)
                                      else -(v : Int)) = litOf v (!pref) := by
                                    cases pref <;> rfl
                                  have hInv4x : DInv (simplifyAfterAssignment
                                      (if pref = false then (v : Int) else -(v : Int)) cls2)
                                      (a2 ++ [(v, !pref)]) nv := by
                                    rw [heq2]
                                    exact hInv4
                                  cases hr2 : momDpll f (simplifyAfterAssignment
                                      (if pref = false then (v : Int) else -(v : Int)) cls2)
                                      (a2 ++ [(v, !pref)]) nv
                                      { calls := k3.calls, splits := k3.splits,
                                        backtracks := k3.backtracks + 1 } with
                                  | none => exact absurd hr2 (ih _ _ _ hInv4x (hcount (!pref)))
                                  | some r2 =>
                                      obtain ⟨s2, fa2, k4⟩ := r2
                                      cases s2 <;> simp [hr2]

/-- C9: termination and depth bound of the search.  On well-formed
input, `_dpll` terminates: the fuel `num_vars + 1` that models the
allowed recursion depth is never exhausted (each recursive call assigns
one more of the variables 1..num_vars, so the depth never exceeds
`num_vars`), and hence the public `solve_cnf` always produces a
result. -/
theorem C9_dpll_terminates (clauses : List (List Int)) (nv : Nat)
    (h : WFInput clauses nv) :
    dpllGo (nv + 1) (clausesToSets clauses) [] nv ≠ none ∧
    (solve_cnf clauses nv).isSome = true := by
  have h1 : dpllGo (nv + 1) (clausesToSets clauses) [] nv ≠ none :=
    dpllGo_ne_none (nv + 1) _ [] (Inv_initial h) (by rw [unassignedCount_nil]; omega)
  refine ⟨h1, ?_⟩
  rw [solve_cnf]
  rcases hd : dpllGo (nv + 1) (clausesToSets clauses) [] nv with _ | ⟨s, a⟩
  · exact absurd hd h1
  · cases s <;> simp

theorem C9_dpll_terminates_witness :
    WFInput [[1, 2]] 2 ∧
    (dpllGo 3 (clausesToSets [[1, 2]]) [] 2 ≠ none ∧
     (solve_cnf [[1, 2]] 2).isSome = true) :=
  ⟨by unfold WFInput; decide, C9_dpll_terminates [[1, 2]] 2 (by unfold WFInput; decide)⟩

theorem DReach_DInv {clauses : List (List Int)} {nv : Nat} {cls : List Clause}
    {a : Assignment} (hwf : WFInput clauses nv) (h : DReach clauses nv cls a) :
    DInv cls a nv := by
  induction h with
  | init => exact Inv_initial hwf
  | step hr hup hpure hce hcv ih =>
      obtain ⟨-, upFalse, -⟩ := unit_propagate_spec ih hup
      obtain ⟨Inv1, -, -⟩ := upFalse rfl
      have pspec := pure_literal_elim_spec Inv1
      rw [hpure] at pspec
      obtain ⟨h1, h2, h3⟩ := chooseBranchVar_some hcv
      exact DInv_simplify _ pspec.1 h1 h2 h3

/-- C10: implicit invariant of the search.  In every invocation of
`_dpll` reachable from `solve_cnf` on well-formed input, no clause in
the clause list mentions a variable bound by the accompanying
assignment; and at the branching step (after unit propagation without
conflict, pure-literal elimination and a passed empty-clause check)
every remaining clause has at least two literals, the empty-clause skip
check inside the branch loop never triggers, and `_choose_branch_var`
never returns `None` when clauses remain. -/
theorem C10_branch_invariant {clauses : List (List Int)} {nv : Nat}
    (hwf : WFInput clauses nv) {cls : List Clause} {a : Assignment}
    (hr : DReach clauses nv cls a) :
    (∀ c ∈ cls, ∀ l ∈ c, alookup a l.natAbs = none) ∧
    ∀ {cls1 : List Clause} {a1 : Assignment} {cls2 : List Clause} {a2 : Assignment},
      unit_propagate cls a = some (cls1, a1, false) →
      pure_literal_elim cls1 a1 = (cls2, a2) →
      containsEmptyClause cls2 = false →
      (∀ c ∈ cls2, 2 ≤ c.length) ∧
      (∀ lit, containsEmptyClause (simplifyAfterAssignment lit cls2) = false) ∧
      (cls2 ≠ [] → ∀ p, chooseBranchVar cls2 a2 nv ≠ (none, p)) := by
  have hInv := DReach_DInv hwf hr
  constructor
  · intro c hc l hl
    exact ((hInv c hc).2 l hl).2.2.1
  · intro cls1 a1 cls2 a2 hup hpure hce
    obtain ⟨-, upFalse, -⟩ := unit_propagate_spec hInv hup
    obtain ⟨Inv1, -, -⟩ := upFalse rfl
    have pspec := pure_literal_elim_spec Inv1
    rw [hpure] at pspec
    have Inv2 : DInv cls2 a2 nv := pspec.1
    have hnu : unitLitsOf cls1 = [] := unit_propagate_false_no_units hup
    have hsub : cls2.Sublist cls1 := by
      have h := (pureLoop_sublist ((varsList cls1).length + 1) cls1 a1).1
      rw [show pureLoop ((varsList cls1).length + 1) cls1 a1 =
        pure_literal_elim cls1 a1 from rfl, hpure] at h
      exact h
    have hlen2 : ∀ c ∈ cls2, 2 ≤ c.length := by
      intro c hc
      have h0 := containsEmpty_false_iff.mp hce c hc
      have h1 := no_units_no_singleton hnu (hsub.subset hc)
      omega
    refine ⟨hlen2, fun lit => branch_no_empty hup hpure hce lit, ?_⟩
    intro hne p hcv
    obtain ⟨c, hc⟩ := List.exists_mem_of_ne_nil cls2 hne
    have h2 := hlen2 c hc
    obtain ⟨l, hl⟩ : ∃ l, l ∈ c := by
      cases c with
      | nil => simp at h2
      | cons x t => exact ⟨x, List.mem_cons_self x t⟩
    obtain ⟨hz, hle, hun, -⟩ := (Inv2 c hc).2 l hl
    have hv1 : 1 ≤ l.natAbs := Int.natAbs_pos.mpr hz
    have hmem := chooseBranchVar_none (by rw [hcv]) l.natAbs hv1 hle
    rw [amem, hun] at hmem
    simp at hmem

theorem C10_branch_invariant_witness :
    WFInput [[1, 2]] 2 ∧
    (∀ c ∈ clausesToSets [[1, 2]], ∀ l ∈ c, alookup ([] : Assignment) l.natAbs = none) :=
  ⟨by unfold WFInput; decide,
   (@C10_branch_invariant [[1, 2]] 2 (by unfold WFInput; decide)
     (clausesToSets [[1, 2]]) [] DReach.init).1⟩

theorem TExt_defaultExtend (a : Assignment) : TExt a (defaultExtend a) := by
  intro v b hb
  simp [defaultExtend, hb]

theorem mem_buildModel {a : Assignment} {nv : Nat} {l : Int} (hz : l ≠ 0)
    (hle : l.natAbs ≤ nv) (hsat : litSat (defaultExtend a) l) :
    l ∈ buildModel a nv := by
  rw [buildModel, List.mem_map]
  refine ⟨l.natAbs, ?_, ?_⟩
  · rw [List.mem_range'_1]
    have := Int.natAbs_pos.mpr hz
    omega
  · unfold litSat defaultExtend at hsat
    rw [hsat]
    have h := litOf_natAbs hz
    unfold litOf at h
    exact h

theorem cnfSat_clausesToSets {τ : TAssign} {clauses : List (List Int)} :
    cnfSat τ (clausesToSets clauses) ↔ ∀ c ∈ clauses, ∃ l ∈ c, litSat τ l := by
  rw [clausesToSets, cnfSat]
  constructor
  · intro h c hc
    obtain ⟨l, hl, hs⟩ := h c.dedup (List.mem_map.mpr ⟨c, hc, rfl⟩)
    exact ⟨l, List.mem_dedup.mp hl, hs⟩
  · intro h c hc
    rw [List.mem_map] at hc
    obtain ⟨c0, hc0, rfl⟩ := hc
    obtain ⟨l, hl, hs⟩ := h c0 hc0
    exact ⟨l, List.mem_dedup.mpr hl, hs⟩

/-- C1: soundness of the solver.  On well-formed input, whenever
`solve_cnf` answers `("SAT", model)`, the model has exactly `num_vars`
entries and every original input clause contains a literal that is a
member of the model (i.e. made true by it). -/
theorem C1_soundness {clauses : List (List Int)} {nv : Nat} {m : List Int}
    (h : WFInput clauses nv) (hs : solve_cnf clauses nv = some ("SAT", some m)) :
    m.length = nv ∧ ∀ c ∈ clauses, ∃ l ∈ c, l ∈ m := by
  rw [solve_cnf] at hs
  rcases hd : dpllGo (nv + 1) (clausesToSets clauses) [] nv with _ | ⟨s, a⟩
  · rw [hd] at hs
    simp at hs
  · rw [hd] at hs
    cases s with
    | false => simp at hs
    | true =>
        simp only [Option.some.injEq, Prod.mk.injEq] at hs
        obtain ⟨-, hm⟩ := hs
        subst hm
        have hcor := dpllGo_correct (nv + 1) _ [] (Inv_initial h) hd
        have hTrue := (hcor.1 rfl).2
        have hsat := hTrue (defaultExtend a) (TExt_defaultExtend a)
        refine ⟨by simp [buildModel], ?_⟩
        intro c hc
        obtain ⟨l, hl, hls⟩ := cnfSat_clausesToSets.mp hsat c hc
        obtain ⟨hz, hle, -⟩ := h c hc l hl
        exact ⟨l, hl, mem_buildModel hz hle hls⟩

theorem C1_soundness_witness :
    WFInput [[1, 2]] 2 ∧ solve_cnf [[1, 2]] 2 = some ("SAT", some [1, 2]) ∧
    (([1, 2] : List Int).length = 2 ∧ ∀ c ∈ [[1, 2]], ∃ l ∈ c, l ∈ ([1, 2] : List Int)) :=
  ⟨by unfold WFInput; decide, by decide,
   C1_soundness (by unfold WFInput; decide) (by decide)⟩

/-- C2: completeness of the decision.  On well-formed input `solve_cnf`
always produces an answer, and it answers `("UNSAT", None)` exactly when
no total assignment of the variables satisfies every original clause
(equivalently, it answers `SAT` exactly on satisfiable formulas). -/
theorem C2_completeness (clauses : List (List Int)) (nv : Nat)
    (h : WFInput clauses nv) :
    (solve_cnf clauses nv).isSome = true ∧
    (solve_cnf clauses nv = some ("UNSAT", none) ↔
      ¬ ∃ τ : TAssign, ∀ c ∈ clauses, ∃ l ∈ c, litSat τ l) := by
  have hne : dpllGo (nv + 1) (clausesToSets clauses) [] nv ≠ none :=
    dpllGo_ne_none (nv + 1) _ [] (Inv_initial h) (by rw [unassignedCount_nil]; omega)
  rw [solve_cnf]
  rcases hd : dpllGo (nv + 1) (clausesToSets clauses) [] nv with _ | ⟨s, a⟩
  · exact absurd hd hne
  · have hcor := dpllGo_correct (nv + 1) _ [] (Inv_initial h) hd
    cases s with
    | true =>
        refine ⟨rfl, ?_⟩
        have hTrue := (hcor.1 rfl).2
        have hsat := hTrue (defaultExtend a) (TExt_defaultExtend a)
        constructor
        · intro hfalse
          simp at hfalse
        · intro hno
          exact absurd ⟨defaultExtend a, cnfSat_clausesToSets.mp hsat⟩ hno
    | false =>
        refine ⟨rfl, ?_⟩
        have hFalse := hcor.2 rfl
        constructor
        · intro _ hex
          obtain ⟨τ, hτ⟩ := hex
          exact hFalse τ (TExt_nil τ) (cnfSat_clausesToSets.mpr hτ)
        · intro _
          rfl

theorem C2_completeness_witness :
    WFInput [[1], [-1]] 1 ∧
    ((solve_cnf [[1], [-1]] 1).isSome = true ∧
     (solve_cnf [[1], [-1]] 1 = some ("UNSAT", none) ↔
       ¬ ∃ τ : TAssign, ∀ c ∈ [[1], [-1]], ∃ l ∈ c, litSat τ l)) :=
  ⟨by unfold WFInput; decide, C2_completeness [[1], [-1]] 1 (by unfold WFInput; decide)⟩

/-- C3: thrown-error paths.  The claim says all three public entry
points return `SAT` with a model or `UNSAT` and never raise.  This holds
for `solve_cnf` of src/solver.py and for `solve_cnf_mom` of
src/ella_test/solver_mom.py, but it fails for the watched solver: on the
well-formed input `[[1, 2], [-1, 2], [1, -2]]`, `num_vars = 2`, the
`solve_cnf` of src/watched/solver_jw_watched.py raises `TypeError`
(modelled as `Except.error WErr.typeErr`), because its recursive
`unit_clause_rule` indexes clauses that are sets or frozensets. -/
theorem C3_no_thrown_errors :
    (∀ (clauses : List (List Int)) (nv : Nat), WFInput clauses nv →
      (∃ m, solve_cnf clauses nv = some ("SAT", some m)) ∨
        solve_cnf clauses nv = some ("UNSAT", none)) ∧
    (∀ (clauses : List (List Int)) (nv : Nat), WFInput clauses nv →
      (∃ m k, solve_cnf_mom clauses nv = some ("SAT", some m, k)) ∨
        ∃ k, solve_cnf_mom clauses nv = some ("UNSAT", none, k)) ∧
    WFInput [[1, 2], [-1, 2], [1, -2]] 2 ∧
    solve_cnf_watched [[1, 2], [-1, 2], [1, -2]] 2 = Except.error WErr.typeErr := by
  refine ⟨?_, ?_, by unfold WFInput; decide, by decide⟩
  · intro clauses nv h
    have hne := dpllGo_ne_none (nv + 1) (clausesToSets clauses) [] (Inv_initial h)
      (by rw [unassignedCount_nil]; omega)
    rw [solve_cnf]
    rcases hd : dpllGo (nv + 1) (clausesToSets clauses) [] nv with _ | ⟨s, a⟩
    · exact absurd hd hne
    · cases s
      · right
        rfl
      · left
        exact ⟨buildModel a nv, rfl⟩
  · intro clauses nv h
    have hne := momDpll_ne_none (nv + 1) (clausesToSets clauses) [] ⟨0, 0, 0⟩
      (Inv_initial h) (by rw [unassignedCount_nil]; omega)
    rw [solve_cnf_mom]
    rcases hd : momDpll (nv + 1) (clausesToSets clauses) [] nv ⟨0, 0, 0⟩ with _ | ⟨s, a, k⟩
    · exact absurd hd hne
    · cases s
      · right
        exact ⟨k, rfl⟩
      · left
        exact ⟨buildModel a nv, k, rfl⟩

theorem C3_no_thrown_errors_witness :
    ((∃ m, solve_cnf [[1], [2]] 2 = some ("SAT", some m)) ∨
      solve_cnf [[1], [2]] 2 = some ("UNSAT", none)) ∧
    ((∃ m k, solve_cnf_mom [[1], [2]] 2 = some ("SAT", some m, k)) ∨
      ∃ k, solve_cnf_mom [[1], [2]] 2 = some ("UNSAT", none, k)) :=
  ⟨C3_no_thrown_errors.1 [[1], [2]] 2 (by unfold WFInput; decide),
   C3_no_thrown_errors.2.1 [[1], [2]] 2 (by unfold WFInput; decide)⟩

/-- C5: concrete scenario `[[1, 2], [-1, 2], [1, -2]]`, `num_vars = 2`.
The naive solver and the MOM solver both answer `SAT` with the model
`[1, 2]`, which has length 2 and satisfies all three clauses; the
watched solver does not return at all but raises `TypeError` (modelled
as `Except.error WErr.typeErr`), contradicting the claim for the third
entry point. -/
theorem C5_concrete_scenario :
    solve_cnf [[1, 2], [-1, 2], [1, -2]] 2 = some ("SAT", some [1, 2]) ∧
    solve_cnf_mom [[1, 2], [-1, 2], [1, -2]] 2 = some ("SAT", some [1, 2], ⟨1, 0, 2⟩) ∧
    ([1, 2] : List Int).length = 2 ∧
    (∀ c ∈ ([[1, 2], [-1, 2], [1, -2]] : List (List Int)),
      ∃ l ∈ c, l ∈ ([1, 2] : List Int)) ∧
    solve_cnf_watched [[1, 2], [-1, 2], [1, -2]] 2 = Except.error WErr.typeErr := by
  decide

/-! ## C4: the unit-propagation closure

Both `_unit_propagate` of src/solver.py and `unit_clause_rule` of
src/watched/solver_jw_watched.py are compared against the inductive
closure of the unit-clause rule over the original clause list: a literal
is derivable when some clause contains it and the negations of all its
other literals are derivable. -/

theorem UPC_mem {cls : List (List Int)} {l : Int} (h : UPC cls l) :
    ∃ c ∈ cls, l ∈ c := by
  cases h with
  | step hc hl _ => exact ⟨_, hc, hl⟩

theorem UPC_unit {cls : List (List Int)} {l : Int} (hc : [l] ∈ cls) : UPC cls l :=
  UPC.step hc (by simp) (by intro l2 h2 hne; simp at h2; exact absurd h2 hne)

theorem UPC_nonzero {cls : List (List Int)} {l : Int}
    (hnz : ∀ c ∈ cls, ∀ x ∈ c, x ≠ 0) (h : UPC cls l) : l ≠ 0 := by
  obtain ⟨c, hc, hl⟩ := UPC_mem h
  exact hnz c hc l hl

/-! ### Literal status under a partial assignment -/

theorem litIsTrue_iff_lookup {l : Int} {a : Assignment} :
    litIsTrue l a = true ↔ alookup a l.natAbs = some (decide (0 < l)) := by
  unfold litIsTrue
  cases hc : alookup a l.natAbs with
  | none => simp
  | some b =>
      constructor
      · intro h
        rw [beq_iff_eq] at h
        rw [h]
      · intro h
        rw [Option.some.injEq] at h
        rw [beq_iff_eq]
        exact h

theorem litIsFalse_none {l : Int} {a : Assignment} (h : alookup a l.natAbs = none) :
    litIsFalse l a = false := by
  unfold litIsFalse
  rw [h]

theorem litIsFalse_some {l : Int} {a : Assignment} (h : litIsFalse l a = true) :
    ∃ b, alookup a l.natAbs = some b ∧ b ≠ decide (0 < l) := by
  unfold litIsFalse at h
  cases hc : alookup a l.natAbs with
  | none => rw [hc] at h; simp at h
  | some b =>
      rw [hc] at h
      refine ⟨b, rfl, ?_⟩
      simpa using h

theorem litIsFalse_AExt {l : Int} {a b : Assignment} (hab : AExt a b)
    (h : litIsFalse l a = true) : litIsFalse l b = true := by
  obtain ⟨x, hx, hne⟩ := litIsFalse_some h
  unfold litIsFalse
  rw [hab _ _ hx]
  simpa using hne

theorem lookup_none_of_status {l : Int} {a : Assignment}
    (h1 : litIsTrue l a = false) (h2 : litIsFalse l a = false) :
    alookup a l.natAbs = none := by
  unfold litIsTrue at h1
  unfold litIsFalse at h2
  cases hc : alookup a l.natAbs with
  | none => rfl
  | some b =>
      rw [hc] at h1 h2
      cases b <;> cases hd : decide (0 < l) <;> rw [hd] at h1 h2 <;> simp_all

theorem decide_pos_neg {l : Int} (hz : l ≠ 0) :
    decide (0 < -l) = !decide (0 < l) := by
  by_cases hp : 0 < l
  · have : ¬ (0 < -l) := by omega
    simp [hp, this]
  · have : 0 < -l := by omega
    simp [hp, this]

theorem litOf_opp {l : Int} {b : Bool} (hz : l ≠ 0) (hb : b ≠ decide (0 < l)) :
    litOf l.natAbs b = -l := by
  have hb2 : b = decide (0 < -l) := by
    rw [decide_pos_neg hz]
    cases b <;> cases hd : decide (0 < l) <;> rw [hd] at hb <;> simp_all
  rw [hb2, show l.natAbs = (-l).natAbs by simp]
  exact litOf_natAbs (by omega)

theorem litIsFalse_elim {cls0 : List (List Int)} {a0 a : Assignment} {l : Int}
    (hz : l ≠ 0)
    (hsound : ∀ v b, alookup a v = some b → alookup a0 v = some b ∨ UPC cls0 (litOf v b))
    (hdisj : alookup a0 l.natAbs = none)
    (h : litIsFalse l a = true) : UPC cls0 (-l) := by
  obtain ⟨b, hx, hne⟩ := litIsFalse_some h
  rcases hsound _ _ hx with h0 | h1
  · rw [hdisj] at h0
    cases h0
  · rwa [litOf_opp hz hne] at h1

theorem litIsTrue_elim {cls0 : List (List Int)} {a0 a : Assignment} {l : Int}
    (hz : l ≠ 0)
    (hsound : ∀ v b, alookup a v = some b → alookup a0 v = some b ∨ UPC cls0 (litOf v b))
    (hdisj : alookup a0 l.natAbs = none)
    (h : litIsTrue l a = true) : UPC cls0 l := by
  have hx := litIsTrue_iff_lookup.mp h
  rcases hsound _ _ hx with h0 | h1
  · rw [hdisj] at h0
    cases h0
  · rwa [litOf_natAbs hz] at h1

/-! ### The assignment-reduct of the original clause list

`reduceCls a cls0` is the clause list obtained from the original input
by dropping every clause with a literal true under `a` and stripping the
false literals from the rest — exactly the shape in which both
propagators keep (naive) or report (watched) their clause list. -/

theorem reduceClause_unassigned {a : Assignment} {c : List Int}
    (h : ∀ l ∈ c, alookup a l.natAbs = none) : reduceClause a c = some c := by
  unfold reduceClause
  have h1 : c.any (fun l => litIsTrue l a) = false := by
    rw [List.any_eq_false]
    intro l hl
    simp [litIsTrue_none (h l hl)]
  rw [h1]
  simp only [Bool.false_eq_true, if_false, Option.some.injEq]
  refine List.filter_eq_self.mpr ?_
  intro l hl
  simp [litIsFalse_none (h l hl)]

theorem reduceCls_init {cls0 : List (List Int)} {a0 : Assignment}
    (hdisj : ∀ c ∈ cls0, ∀ l ∈ c, alookup a0 l.natAbs = none)
    (hnd : ∀ c ∈ cls0, (c.map Int.natAbs).Nodup) :
    reduceCls a0 cls0 = clausesToSets cls0 := by
  induction cls0 with
  | nil => rfl
  | cons c t ih =>
      have h1 : reduceClause a0 c = some c :=
        reduceClause_unassigned (hdisj c (List.mem_cons_self c t))
      have h2 : c.dedup = c :=
        List.dedup_eq_self.mpr ((hnd c (List.mem_cons_self c t)).of_map)
      have iht := ih (fun x hx => hdisj x (List.mem_cons_of_mem c hx))
        (fun x hx => hnd x (List.mem_cons_of_mem c hx))
      rw [reduceCls, List.filterMap_cons, h1, clausesToSets, List.map_cons, h2]
      rw [reduceCls, clausesToSets] at iht
      rw [iht]

theorem eq_of_natAbs_sign {l m : Int} (hz : l ≠ 0) (ha : l.natAbs = m.natAbs)
    (hs : decide (0 < l) = decide (0 < m)) : l = m := by
  rw [decide_eq_decide] at hs
  omega

theorem natAbs_eq_cases {l m : Int} (hz : l ≠ 0) (ha : l.natAbs = m.natAbs) :
    l = m ∨ l = -m := by
  omega

theorem litIsTrue_step {a : Assignment} {lit l : Int} (hz0 : lit ≠ 0) (hz : l ≠ 0)
    (hval : alookup a lit.natAbs = none) :
    litIsTrue l (a ++ [(lit.natAbs, decide (0 < lit))]) = true ↔
      litIsTrue l a = true ∨ l = lit := by
  by_cases hv : l.natAbs = lit.natAbs
  · have h1 : alookup a l.natAbs = none := by rw [hv]; exact hval
    have h2 : alookup (a ++ [(lit.natAbs, decide (0 < lit))]) l.natAbs =
        some (decide (0 < lit)) := by
      rw [hv]
      exact alookup_append_single_same _ hval
    rw [litIsTrue_iff_lookup, h2, litIsTrue_none h1]
    constructor
    · intro h
      rw [Option.some.injEq] at h
      exact Or.inr (eq_of_natAbs_sign hz hv h.symm)
    · intro h
      rcases h with h | h
      · cases h
      · subst h
        rfl
  · have h2 : alookup (a ++ [(lit.natAbs, decide (0 < lit))]) l.natAbs =
        alookup a l.natAbs := alookup_append_single_ne _ hv
    rw [litIsTrue_iff_lookup, h2, ← litIsTrue_iff_lookup]
    constructor
    · exact Or.inl
    · intro h
      rcases h with h | h
      · exact h
      · subst h
        exact absurd rfl hv

theorem litIsFalse_iff_lookup {l : Int} {a : Assignment} :
    litIsFalse l a = true ↔ alookup a l.natAbs = some (!decide (0 < l)) := by
  unfold litIsFalse
  cases hc : alookup a l.natAbs with
  | none => simp
  | some b =>
      rw [bne_iff_ne, Option.some.injEq]
      cases b <;> cases hd : decide (0 < l) <;> simp

theorem litIsFalse_step {a : Assignment} {lit l : Int} (hz0 : lit ≠ 0) (hz : l ≠ 0)
    (hval : alookup a lit.natAbs = none) :
    litIsFalse l (a ++ [(lit.natAbs, decide (0 < lit))]) = true ↔
      litIsFalse l a = true ∨ l = -lit := by
  by_cases hv : l.natAbs = lit.natAbs
  · have h1 : alookup a l.natAbs = none := by rw [hv]; exact hval
    have h2 : alookup (a ++ [(lit.natAbs, decide (0 < lit))]) l.natAbs =
        some (decide (0 < lit)) := by
      rw [hv]
      exact alookup_append_single_same _ hval
    rw [litIsFalse_iff_lookup, h2, litIsFalse_none h1]
    constructor
    · intro h
      rw [Option.some.injEq] at h
      refine Or.inr ?_
      refine eq_of_natAbs_sign hz (by simp [hv]) ?_
      rw [decide_pos_neg hz0, h]
      cases decide (0 < l) <;> rfl
    · intro h
      rcases h with h | h
      · cases h
      · subst h
        rw [Option.some.injEq, decide_pos_neg hz0]
        cases decide (0 < lit) <;> rfl
  · have h2 : alookup (a ++ [(lit.natAbs, decide (0 < lit))]) l.natAbs =
        alookup a l.natAbs := alookup_append_single_ne _ hv
    rw [litIsFalse_iff_lookup, h2, ← litIsFalse_iff_lookup]
    constructor
    · exact Or.inl
    · intro h
      rcases h with h | h
      · exact h
      · subst h
        exact absurd (by simp) hv

/-- One naive simplification step mirrors one assignment step of the
reduct: `upSimplifyByLit lit` on the reduct of `a` computes the reduct
of `a` extended with the assignment making `lit` true, and its conflict
return happens exactly when some original clause reduces to the unit
clause `[-lit]`. -/
theorem upSimplify_reduceCls {lit : Int} (hz0 : lit ≠ 0) :
    ∀ (cls0 : List (List Int)) (a : Assignment),
    alookup a lit.natAbs = none →
    (∀ c ∈ cls0, ∀ l ∈ c, l ≠ 0) →
    (∀ c ∈ cls0, (c.map Int.natAbs).Nodup) →
    (upSimplifyByLit lit (reduceCls a cls0) = none →
      ∃ c0 ∈ cls0, reduceClause a c0 = some [-lit]) ∧
    (∀ cls2, upSimplifyByLit lit (reduceCls a cls0) = some cls2 →
      cls2 = reduceCls (a ++ [(lit.natAbs, decide (0 < lit))]) cls0) := by
  intro cls0
  induction cls0 with
  | nil =>
      intro a _ _ _
      constructor
      · intro h
        simp [reduceCls, upSimplifyByLit] at h
      · intro cls2 h
        simp only [reduceCls, List.filterMap_nil, upSimplifyByLit,
          Option.some.injEq] at h
        rw [← h]
        rfl
  | cons c0 t ih =>
      intro a hval hnz hnd
      have hczero : ∀ l ∈ c0, l ≠ 0 := hnz c0 (List.mem_cons_self c0 t)
      have hcnd : c0.Nodup := (hnd c0 (List.mem_cons_self c0 t)).of_map
      have iht := ih a hval (fun x hx => hnz x (List.mem_cons_of_mem c0 hx))
        (fun x hx => hnd x (List.mem_cons_of_mem c0 hx))
      cases hr : reduceClause a c0 with
      | none =>
          have hr2 : reduceClause (a ++ [(lit.natAbs, decide (0 < lit))]) c0 = none := by
            unfold reduceClause at hr ⊢
            rcases hany : c0.any (fun l => litIsTrue l a) with _ | _
            · rw [hany] at hr
              simp at hr
            · rw [List.any_eq_true] at hany
              obtain ⟨l, hl, hlt⟩ := hany
              have : litIsTrue l (a ++ [(lit.natAbs, decide (0 < lit))]) = true :=
                (litIsTrue_step hz0 (hczero l hl) hval).mpr (Or.inl hlt)
              rw [if_pos (List.any_eq_true.mpr ⟨l, hl, this⟩)]
          have hlist : reduceCls a (c0 :: t) = reduceCls a t := by
            rw [reduceCls, List.filterMap_cons, hr]
            rfl
          have hlist2 : reduceCls (a ++ [(lit.natAbs, decide (0 < lit))]) (c0 :: t) =
              reduceCls (a ++ [(lit.natAbs, decide (0 < lit))]) t := by
            rw [reduceCls, List.filterMap_cons, hr2]
            rfl
          rw [hlist, hlist2]
          refine ⟨?_, iht.2⟩
          intro h
          obtain ⟨x, hx, hxe⟩ := iht.1 h
          exact ⟨x, List.mem_cons_of_mem c0 hx, hxe⟩
      | some c =>
          have hc_notrue : c0.any (fun x => litIsTrue x a) = false := by
            unfold reduceClause at hr
            rcases hany : c0.any (fun x => litIsTrue x a) with _ | _
            · rfl
            · rw [hany] at hr
              simp at hr
          have hc_eq : c = c0.filter (fun l => !litIsFalse l a) := by
            unfold reduceClause at hr
            rw [hc_notrue] at hr
            simp only [Bool.false_eq_true, if_false, Option.some.injEq] at hr
            exact hr.symm
          have hc_sub : ∀ l ∈ c, l ∈ c0 ∧ litIsFalse l a = false := by
            intro l hl
            rw [hc_eq] at hl
            exact ⟨List.mem_of_mem_filter hl, by simpa using List.of_mem_filter hl⟩
          have hcnodup : c.Nodup := by
            rw [hc_eq]
            exact hcnd.filter _
          have hlist : reduceCls a (c0 :: t) = c :: reduceCls a t := by
            rw [reduceCls, List.filterMap_cons, hr]
            rfl
          rw [hlist]
          by_cases hlitc : lit ∈ c
          · -- clause satisfied by lit: dropped on both sides
            have hr2 : reduceClause (a ++ [(lit.natAbs, decide (0 < lit))]) c0 = none := by
              unfold reduceClause
              have hmem0 : lit ∈ c0 := (hc_sub lit hlitc).1
              have : litIsTrue lit (a ++ [(lit.natAbs, decide (0 < lit))]) = true :=
                (litIsTrue_step hz0 hz0 hval).mpr (Or.inr rfl)
              rw [if_pos (List.any_eq_true.mpr ⟨lit, hmem0, this⟩)]
            have hlist2 : reduceCls (a ++ [(lit.natAbs, decide (0 < lit))]) (c0 :: t) =
                reduceCls (a ++ [(lit.natAbs, decide (0 < lit))]) t := by
              rw [reduceCls, List.filterMap_cons, hr2]
              rfl
            have hstep : upSimplifyByLit lit (c :: reduceCls a t) =
                upSimplifyByLit lit (reduceCls a t) := by
              rw [upSimplifyByLit, if_pos hlitc]
            rw [hstep, hlist2]
            refine ⟨?_, iht.2⟩
            intro h
            obtain ⟨x, hx, hxe⟩ := iht.1 h
            exact ⟨x, List.mem_cons_of_mem c0 hx, hxe⟩
          · have hno2 : (c0.any (fun x =>
                litIsTrue x (a ++ [(lit.natAbs, decide (0 < lit))]))) = false := by
              rw [List.any_eq_false]
              intro l hl
              intro hcon
              rcases (litIsTrue_step hz0 (hczero l hl) hval).mp hcon with h | h
              · rw [List.any_eq_false] at hc_notrue
                exact hc_notrue l hl h
              · subst h
                refine hlitc ?_
                rw [hc_eq, List.mem_filter]
                exact ⟨hl, by simp [litIsFalse_none hval]⟩
            have hfilter2 : c0.filter (fun l =>
                !litIsFalse l (a ++ [(lit.natAbs, decide (0 < lit))])) =
                c.filter (fun l => l ≠ -lit) := by
              rw [hc_eq, List.filter_filter]
              refine List.filter_congr ?_
              intro l hl
              have hlz := hczero l hl
              rcases hfa : litIsFalse l a with _ | _
              · rcases hf2 : litIsFalse l (a ++ [(lit.natAbs, decide (0 < lit))]) with _ | _
                · have : l ≠ -lit := by
                    intro he
                    have := (litIsFalse_step hz0 hlz hval).mpr (Or.inr he)
                    rw [hf2] at this
                    cases this
                  simp [hfa, this]
                · have := (litIsFalse_step hz0 hlz hval).mp hf2
                  rcases this with h | h
                  · rw [hfa] at h
                    cases h
                  · simp [hfa, h]
              · have : litIsFalse l (a ++ [(lit.natAbs, decide (0 < lit))]) = true :=
                  litIsFalse_AExt (AExt.append _ _) hfa
                simp [this, hfa]
            have hr2 : reduceClause (a ++ [(lit.natAbs, decide (0 < lit))]) c0 =
                some (c.filter (fun l => l ≠ -lit)) := by
              unfold reduceClause
              rw [hno2]
              simp only [Bool.false_eq_true, if_false, Option.some.injEq]
              exact hfilter2
            by_cases hneg : -lit ∈ c
            · have herase : c.erase (-lit) = c.filter (fun l => l ≠ -lit) := by
                rw [hcnodup.erase_eq_filter]
                refine List.filter_congr ?_
                intro x _
                by_cases hx : x = -lit <;> simp [hx]
              by_cases hzero : (c.erase (-lit)).length = 0
              · -- conflict: the reduct clause was the unit [-lit]
                have hcval : c = [-lit] := by
                  have h1 : (c.erase (-lit)).length = c.length - 1 :=
                    List.length_erase_of_mem hneg
                  have h2 : c.length = 1 := by
                    have := List.length_pos_of_mem hneg
                    omega
                  rcases c with _ | ⟨x, _ | ⟨y, r⟩⟩
                  · simp at hneg
                  · rw [List.mem_singleton] at hneg
                    rw [hneg]
                  · simp at h2
                have hstep : upSimplifyByLit lit (c :: reduceCls a t) = none := by
                  rw [upSimplifyByLit, if_neg hlitc, if_pos hneg, if_pos hzero]
                rw [hstep]
                refine ⟨?_, ?_⟩
                · intro _
                  exact ⟨c0, List.mem_cons_self c0 t, by rw [hr, hcval]⟩
                · intro cls2 h
                  cases h
              · have hlist2 : reduceCls (a ++ [(lit.natAbs, decide (0 < lit))]) (c0 :: t) =
                    c.erase (-lit) ::
                      reduceCls (a ++ [(lit.natAbs, decide (0 < lit))]) t := by
                  rw [reduceCls, List.filterMap_cons, hr2, ← herase]
                  rfl
                have hstep : upSimplifyByLit lit (c :: reduceCls a t) =
                    (upSimplifyByLit lit (reduceCls a t)).map
                      (fun r => c.erase (-lit) :: r) := by
                  rw [upSimplifyByLit, if_neg hlitc, if_pos hneg, if_neg hzero]
                rw [hstep, hlist2]
                rcases hup : upSimplifyByLit lit (reduceCls a t) with _ | cls2
                · refine ⟨?_, ?_⟩
                  · intro _
                    obtain ⟨x, hx, hxe⟩ := iht.1 hup
                    exact ⟨x, List.mem_cons_of_mem c0 hx, hxe⟩
                  · intro cls2 h
                    exact Option.noConfusion h
                · refine ⟨?_, ?_⟩
                  · intro h
                    exact Option.noConfusion h
                  · intro cls3 h
                    have h2 : c.erase (-lit) :: cls2 = cls3 := Option.some.inj h
                    rw [← h2, iht.2 cls2 hup]
            · have hfid : c.filter (fun l => l ≠ -lit) = c := by
                refine List.filter_eq_self.mpr ?_
                intro l hl
                simp only [decide_eq_true_eq]
                intro he
                rw [he] at hl
                exact hneg hl
              have hlist2 : reduceCls (a ++ [(lit.natAbs, decide (0 < lit))]) (c0 :: t) =
                  c :: reduceCls (a ++ [(lit.natAbs, decide (0 < lit))]) t := by
                rw [reduceCls, List.filterMap_cons, hr2, hfid]
                rfl
              have hstep : upSimplifyByLit lit (c :: reduceCls a t) =
                  (upSimplifyByLit lit (reduceCls a t)).map (fun r => c :: r) := by
                rw [upSimplifyByLit, if_neg hlitc, if_neg hneg]
              rw [hstep, hlist2]
              rcases hup : upSimplifyByLit lit (reduceCls a t) with _ | cls2
              · refine ⟨?_, ?_⟩
                · intro _
                  obtain ⟨x, hx, hxe⟩ := iht.1 hup
                  exact ⟨x, List.mem_cons_of_mem c0 hx, hxe⟩
                · intro cls2 h
                  exact Option.noConfusion h
              · refine ⟨?_, ?_⟩
                · intro h
                  exact Option.noConfusion h
                · intro cls3 h
                  have h2 : c :: cls2 = cls3 := Option.some.inj h
                  rw [← h2, iht.2 cls2 hup]

theorem UPC_of_reduct_unit {cls0 : List (List Int)} {a0 a : Assignment}
    {c0 : List Int} {x : Int}
    (hsound : NSound cls0 a0 a) (hc0 : c0 ∈ cls0)
    (hnz : ∀ l ∈ c0, l ≠ 0)
    (hdisj : ∀ l ∈ c0, alookup a0 l.natAbs = none)
    (hred : reduceClause a c0 = some [x]) : UPC cls0 x := by
  have hno : c0.any (fun l => litIsTrue l a) = false := by
    unfold reduceClause at hred
    rcases hany : c0.any (fun l => litIsTrue l a) with _ | _
    · rfl
    · rw [hany] at hred
      simp at hred
  have hfil : c0.filter (fun l => !litIsFalse l a) = [x] := by
    unfold reduceClause at hred
    rw [hno] at hred
    simp only [Bool.false_eq_true, if_false, Option.some.injEq] at hred
    exact hred
  have hx : x ∈ c0 := by
    have : x ∈ c0.filter (fun l => !litIsFalse l a) := by
      rw [hfil]
      simp
    exact List.mem_of_mem_filter this
  refine UPC.step hc0 hx ?_
  intro l2 hl2 hne
  have hlf : litIsFalse l2 a = true := by
    rcases hf : litIsFalse l2 a with _ | _
    · have : l2 ∈ c0.filter (fun l => !litIsFalse l a) :=
        List.mem_filter.mpr ⟨hl2, by simp [hf]⟩
      rw [hfil, List.mem_singleton] at this
      exact absurd this hne
    · rfl
  exact litIsFalse_elim (hnz l2 hl2) hsound (hdisj l2 hl2) hlf

theorem alookup_append_single_cases {a : Assignment} {v w : Nat} {val x : Bool}
    (h : alookup (a ++ [(v, val)]) w = some x) :
    alookup a w = some x ∨ (w = v ∧ x = val ∧ alookup a w = none) := by
  cases hc : alookup a w with
  | some y =>
      rw [alookup_append_some _ hc] at h
      rw [Option.some.injEq] at h
      subst h
      exact Or.inl rfl
  | none =>
      rw [alookup_append_none _ hc] at h
      by_cases hw : v = w
      · rw [show alookup [(v, val)] w = some val from by simp [alookup, hw]] at h
        rw [Option.some.injEq] at h
        exact Or.inr ⟨hw.symm, h.symm, rfl⟩
      · simp [alookup, hw] at h

theorem NSound_extend {cls0 : List (List Int)} {a0 a : Assignment} {u : Int}
    (hsound : NSound cls0 a0 a) (hz : u ≠ 0) (hu : UPC cls0 u) :
    NSound cls0 a0 (a ++ [(u.natAbs, decide (0 < u))]) := by
  intro w x hx
  rcases alookup_append_single_cases hx with h | ⟨hw, hxv, -⟩
  · exact hsound w x h
  · subst hw
    subst hxv
    rw [litOf_natAbs hz]
    exact Or.inr hu

/-- Batch processing of unit literals against the reduct invariant:
a conflict return certifies a contradictory pair of forced literals, a
normal return keeps the clause list equal to the reduct of the extended
assignment and the assignment sound. -/
theorem upBatch_reduceCls {cls0 : List (List Int)} {a0 : Assignment}
    (hnz : ∀ c ∈ cls0, ∀ l ∈ c, l ≠ 0)
    (hnd : ∀ c ∈ cls0, (c.map Int.natAbs).Nodup)
    (hdisj : ∀ c ∈ cls0, ∀ l ∈ c, alookup a0 l.natAbs = none) :
    ∀ (lits : List Int) (a : Assignment),
    NSound cls0 a0 a →
    (∀ u ∈ lits, UPC cls0 u) →
    ∀ {cls2 : List Clause} {a2 : Assignment} {f2 : Bool},
      upBatch lits (reduceCls a cls0) a = (cls2, a2, f2) →
      (f2 = true → ∃ l, UPC cls0 l ∧ UPC cls0 (-l)) ∧
      (f2 = false → cls2 = reduceCls a2 cls0 ∧ NSound cls0 a0 a2) := by
  intro lits
  induction lits with
  | nil =>
      intro a hsound _ cls2 a2 f2 h
      rw [upBatch] at h
      rw [Prod.mk.injEq, Prod.mk.injEq] at h
      obtain ⟨h1, h2, h3⟩ := h
      refine ⟨?_, ?_⟩
      · intro hf
        rw [← h3] at hf
        cases hf
      · intro _
        subst h1
        subst h2
        exact ⟨rfl, hsound⟩
  | cons u rest ih =>
      intro a hsound hUPC cls2 a2 f2 h
      have hu : UPC cls0 u := hUPC u (List.mem_cons_self u rest)
      have huz : u ≠ 0 := UPC_nonzero hnz hu
      have hrest : ∀ x ∈ rest, UPC cls0 x :=
        fun x hx => hUPC x (List.mem_cons_of_mem u hx)
      rw [upBatch] at h
      cases hl : alookup a u.natAbs with
      | some b =>
          rw [hl] at h
          dsimp only at h
          by_cases hb : b ≠ decide (0 < u)
          · rw [if_pos hb] at h
            rw [Prod.mk.injEq, Prod.mk.injEq] at h
            obtain ⟨h1, h2, h3⟩ := h
            refine ⟨?_, ?_⟩
            · intro _
              rcases hsound _ _ hl with h0 | h0
              · obtain ⟨c, hc, hmem⟩ := UPC_mem hu
                rw [hdisj c hc u hmem] at h0
                cases h0
              · rw [litOf_opp huz hb] at h0
                exact ⟨u, hu, h0⟩
            · intro hf
              rw [← h3] at hf
              cases hf
          · rw [if_neg hb] at h
            exact ih a hsound hrest h
      | none =>
          rw [hl] at h
          dsimp only at h
          have hspec := upSimplify_reduceCls huz cls0 a hl hnz hnd
          cases hup : upSimplifyByLit u (reduceCls a cls0) with
          | none =>
              rw [hup] at h
              rw [Prod.mk.injEq, Prod.mk.injEq] at h
              obtain ⟨h1, h2, h3⟩ := h
              refine ⟨?_, ?_⟩
              · intro _
                obtain ⟨c0, hc0, hcr⟩ := hspec.1 hup
                have huneg : UPC cls0 (-u) :=
                  UPC_of_reduct_unit hsound hc0 (hnz c0 hc0) (hdisj c0 hc0) hcr
                exact ⟨u, hu, huneg⟩
              · intro hf
                rw [← h3] at hf
                cases hf
          | some cls3 =>
              rw [hup] at h
              have hcls3 : cls3 =
                  reduceCls (a ++ [(u.natAbs, decide (0 < u))]) cls0 :=
                hspec.2 cls3 hup
              have hsound2 := NSound_extend hsound huz hu
              rw [hcls3] at h
              exact ih _ hsound2 hrest h

/-- The unit-literal batch of a reduct clause list consists of forced
literals. -/
theorem unitLits_UPC {cls0 : List (List Int)} {a0 a : Assignment}
    (hnz : ∀ c ∈ cls0, ∀ l ∈ c, l ≠ 0)
    (hdisj : ∀ c ∈ cls0, ∀ l ∈ c, alookup a0 l.natAbs = none)
    (hsound : NSound cls0 a0 a) :
    ∀ u ∈ unitLitsOf (reduceCls a cls0), UPC cls0 u := by
  intro u hu
  have h1 : [u] ∈ reduceCls a cls0 := mem_unitLitsOf hu
  rw [reduceCls, List.mem_filterMap] at h1
  obtain ⟨c0, hc0, hcr⟩ := h1
  exact UPC_of_reduct_unit hsound hc0 (hnz c0 hc0) (hdisj c0 hc0) hcr

/-- The outer propagation loop against the reduct invariant. -/
theorem upLoop_reduceCls {cls0 : List (List Int)} {a0 : Assignment}
    (hnz : ∀ c ∈ cls0, ∀ l ∈ c, l ≠ 0)
    (hnd : ∀ c ∈ cls0, (c.map Int.natAbs).Nodup)
    (hdisj : ∀ c ∈ cls0, ∀ l ∈ c, alookup a0 l.natAbs = none) :
    ∀ (fuel : Nat) (a : Assignment),
    NSound cls0 a0 a →
    ∀ {cls2 : List Clause} {a2 : Assignment} {f2 : Bool},
      upLoop fuel (reduceCls a cls0) a = some (cls2, a2, f2) →
      (f2 = true → ∃ l, UPC cls0 l ∧ UPC cls0 (-l)) ∧
      (f2 = false → cls2 = reduceCls a2 cls0 ∧ NSound cls0 a0 a2) := by
  intro fuel
  induction fuel with
  | zero =>
      intro a _ cls2 a2 f2 h
      simp [upLoop] at h
  | succ f ih =>
      intro a hsound cls2 a2 f2 h
      rw [upLoop] at h
      by_cases hemp : (unitLitsOf (reduceCls a cls0)).isEmpty
      · rw [if_pos hemp] at h
        simp only [Option.some.injEq, Prod.mk.injEq] at h
        obtain ⟨h1, h2, h3⟩ := h
        refine ⟨?_, ?_⟩
        · intro hf
          rw [← h3] at hf
          cases hf
        · intro _
          subst h1
          subst h2
          exact ⟨rfl, hsound⟩
      · rw [if_neg hemp] at h
        have hUPC := unitLits_UPC hnz hdisj hsound
        rcases hb : upBatch (unitLitsOf (reduceCls a cls0)) (reduceCls a cls0) a with
          ⟨cls3, a3, f3⟩
        have hbspec := upBatch_reduceCls hnz hnd hdisj _ a hsound hUPC hb
        rw [hb] at h
        cases f3 with
        | true =>
            simp only [Option.some.injEq, Prod.mk.injEq] at h
            obtain ⟨h1, h2, h3⟩ := h
            refine ⟨?_, ?_⟩
            · intro _
              exact hbspec.1 rfl
            · intro hf
              rw [← h3] at hf
              cases hf
        | false =>
            obtain ⟨hcls3, hsound3⟩ := hbspec.2 rfl
            rw [hcls3] at h
            exact ih a3 hsound3 h

theorem litIsTrue_and_false {x : Int} {a : Assignment}
    (h1 : litIsTrue x a = true) (h2 : litIsFalse x a = true) : False := by
  have g1 := litIsTrue_iff_lookup.mp h1
  have g2 := litIsFalse_iff_lookup.mp h2
  rw [g1, Option.some.injEq] at g2
  cases hd : decide (0 < x) <;> rw [hd] at g2 <;> cases g2

theorem upSimplify_keeps_nonempty {lit : Int} :
    ∀ {cls cls2 : List Clause}, upSimplifyByLit lit cls = some cls2 →
      [] ∉ cls → [] ∉ cls2 := by
  intro cls
  induction cls with
  | nil =>
      intro cls2 h _
      simp only [upSimplifyByLit, Option.some.injEq] at h
      rw [← h]
      simp
  | cons c t ih =>
      intro cls2 h hne
      have hnc : [] ∉ t := fun hx => hne (List.mem_cons_of_mem c hx)
      rw [upSimplifyByLit] at h
      by_cases h1 : lit ∈ c
      · rw [if_pos h1] at h
        exact ih h hnc
      · by_cases h2 : -lit ∈ c
        · rw [if_neg h1, if_pos h2] at h
          by_cases h3 : (c.erase (-lit)).length = 0
          · rw [if_pos h3] at h
            cases h
          · rw [if_neg h3] at h
            cases hr : upSimplifyByLit lit t with
            | none =>
                rw [hr] at h
                cases h
            | some r =>
                rw [hr] at h
                have h4 : c.erase (-lit) :: r = cls2 := Option.some.inj h
                rw [← h4]
                intro hmem
                rcases List.mem_cons.mp hmem with he | hm
                · rw [← he] at h3
                  simp at h3
                · exact ih hr hnc hm
        · rw [if_neg h1, if_neg h2] at h
          cases hr : upSimplifyByLit lit t with
          | none =>
              rw [hr] at h
              cases h
          | some r =>
              rw [hr] at h
              have h4 : c :: r = cls2 := Option.some.inj h
              rw [← h4]
              intro hmem
              rcases List.mem_cons.mp hmem with he | hm
              · exact hne (by rw [he]; exact List.mem_cons_self c t)
              · exact ih hr hnc hm

theorem upBatch_keeps_nonempty : ∀ (lits : List Int) (cls : List Clause) (a : Assignment)
    {cls2 : List Clause} {a2 : Assignment},
    upBatch lits cls a = (cls2, a2, false) → [] ∉ cls → [] ∉ cls2 := by
  intro lits
  induction lits with
  | nil =>
      intro cls a cls2 a2 h hne
      rw [upBatch, Prod.mk.injEq, Prod.mk.injEq] at h
      rw [← h.1]
      exact hne
  | cons u rest ih =>
      intro cls a cls2 a2 h hne
      rw [upBatch] at h
      cases hl : alookup a u.natAbs with
      | some b =>
          rw [hl] at h
          dsimp only at h
          by_cases hb : b ≠ decide (0 < u)
          · rw [if_pos hb, Prod.mk.injEq, Prod.mk.injEq] at h
            cases h.2.2
          · rw [if_neg hb] at h
            exact ih cls a h hne
      | none =>
          rw [hl] at h
          dsimp only at h
          cases hup : upSimplifyByLit u cls with
          | none =>
              rw [hup] at h
              rw [Prod.mk.injEq, Prod.mk.injEq] at h
              cases h.2.2
          | some cls3 =>
              rw [hup] at h
              exact ih cls3 _ h (upSimplify_keeps_nonempty hup hne)

theorem upLoop_keeps_nonempty : ∀ (fuel : Nat) (cls : List Clause) (a : Assignment)
    {cls2 : List Clause} {a2 : Assignment},
    upLoop fuel cls a = some (cls2, a2, false) → [] ∉ cls → [] ∉ cls2 := by
  intro fuel
  induction fuel with
  | zero =>
      intro cls a cls2 a2 h _
      simp [upLoop] at h
  | succ f ih =>
      intro cls a cls2 a2 h hne
      rw [upLoop] at h
      by_cases hemp : (unitLitsOf cls).isEmpty
      · rw [if_pos hemp] at h
        simp only [Option.some.injEq, Prod.mk.injEq] at h
        rw [← h.1]
        exact hne
      · rw [if_neg hemp] at h
        rcases hb : upBatch (unitLitsOf cls) cls a with ⟨cls3, a3, f3⟩
        rw [hb] at h
        cases f3 with
        | true =>
            simp only [Option.some.injEq, Prod.mk.injEq] at h
            cases h.2.2
        | false =>
            exact ih cls3 a3 h (upBatch_keeps_nonempty _ cls a hb hne)

theorem filter_eq_singleton {c : List Int} (hnd : c.Nodup) {l : Int} (hl : l ∈ c)
    {p : Int → Bool} (hp : ∀ x ∈ c, p x = true ↔ x = l) : c.filter p = [l] := by
  induction c with
  | nil => simp at hl
  | cons x t ih =>
      rw [List.filter_cons]
      by_cases hx : x = l
      · subst hx
        have hpx : p x = true := (hp x (List.mem_cons_self x t)).mpr rfl
        rw [if_pos hpx]
        have ht : t.filter p = [] := by
          rw [List.filter_eq_nil]
          intro y hy
          intro hpy
          have := (hp y (List.mem_cons_of_mem x hy)).mp hpy
          rw [this] at hy
          exact (List.nodup_cons.mp hnd).1 hy
        rw [ht]
      · have hpx : p x = false := by
          rcases hv : p x with _ | _
          · rfl
          · exact absurd ((hp x (List.mem_cons_self x t)).mp hv) hx
        rw [if_neg (by simp [hpx])]
        have hlt : l ∈ t := by
          rcases List.mem_cons.mp hl with he | hm
          · exact absurd he.symm hx
          · exact hm
        exact ih (List.nodup_cons.mp hnd).2 hlt
          (fun y hy => hp y (List.mem_cons_of_mem x hy))

/-- At a unit-propagation fixpoint with no empty clause, every forced
literal is assigned true. -/
theorem UPC_assigned_final {cls0 : List (List Int)} {an : Assignment}
    (hnz : ∀ c ∈ cls0, ∀ l ∈ c, l ≠ 0)
    (hnd : ∀ c ∈ cls0, (c.map Int.natAbs).Nodup)
    (hnounit : unitLitsOf (reduceCls an cls0) = [])
    (hnoempty : [] ∉ reduceCls an cls0) :
    ∀ l, UPC cls0 l → alookup an l.natAbs = some (decide (0 < l)) := by
  intro l h
  induction h with
  | step hc hl hrest ih =>
      rename_i c l
      have hothers : ∀ l2 ∈ c, l2 ≠ l → litIsFalse l2 an = true := by
        intro l2 h2 hne
        have hx := ih l2 h2 hne
        rw [litIsFalse_iff_lookup, ← Int.natAbs_neg,
          show (!decide (0 < l2)) = decide (0 < -l2) from
            (decide_pos_neg (hnz c hc l2 h2)).symm]
        exact hx
      cases hv : alookup an l.natAbs with
      | none =>
          exfalso
          have hno : c.any (fun x => litIsTrue x an) = false := by
            rw [List.any_eq_false]
            intro x hx hxt
            by_cases hxe : x = l
            · subst hxe
              rw [litIsTrue_iff_lookup, hv] at hxt
              cases hxt
            · exact litIsTrue_and_false hxt (hothers x hx hxe)
          have hfil : c.filter (fun x => !litIsFalse x an) = [l] := by
            refine filter_eq_singleton ((hnd c hc).of_map) hl ?_
            intro x hx
            by_cases hxe : x = l
            · subst hxe
              simp [litIsFalse_none hv]
            · simp only [hothers x hx hxe, Bool.not_true, Bool.false_eq_true,
                false_iff]
              exact hxe
          have hredc : reduceClause an c = some [l] := by
            unfold reduceClause
            rw [hno]
            simp only [Bool.false_eq_true, if_false, Option.some.injEq]
            exact hfil
          have hmem : [l] ∈ reduceCls an cls0 := by
            rw [reduceCls, List.mem_filterMap]
            exact ⟨c, hc, hredc⟩
          have : l ∈ unitLitsOf (reduceCls an cls0) := by
            unfold unitLitsOf
            rw [List.mem_filterMap]
            exact ⟨[l], hmem, by simp⟩
          rw [hnounit] at this
          simp at this
      | some b =>
          by_cases hb : b = decide (0 < l)
          · rw [hb]
          · exfalso
            have hlf : litIsFalse l an = true := by
              rw [litIsFalse_iff_lookup, hv, Option.some.injEq]
              cases hd : decide (0 < l) <;> rw [hd] at hb <;> cases b <;> simp_all
            have hall : ∀ x ∈ c, litIsFalse x an = true := by
              intro x hx
              by_cases hxe : x = l
              · rw [hxe]
                exact hlf
              · exact hothers x hx hxe
            have hno : c.any (fun x => litIsTrue x an) = false := by
              rw [List.any_eq_false]
              intro x hx hxt
              exact litIsTrue_and_false hxt (hall x hx)
            have hfil : c.filter (fun x => !litIsFalse x an) = [] := by
              rw [List.filter_eq_nil]
              intro x hx
              simp [hall x hx]
            have hredc : reduceClause an c = some [] := by
              unfold reduceClause
              rw [hno]
              simp only [Bool.false_eq_true, if_false, Option.some.injEq]
              exact hfil
            refine hnoempty ?_
            rw [reduceCls, List.mem_filterMap]
            exact ⟨c, hc, hredc⟩

theorem le_foldr_max {x : Nat} : ∀ {l : List Nat}, x ∈ l → x ≤ l.foldr max 0 := by
  intro l
  induction l with
  | nil => intro h; simp at h
  | cons y t ih =>
      intro h
      rcases List.mem_cons.mp h with he | hm
      · subst he
        simp [List.foldr_cons]
      · have := ih hm
        simp only [List.foldr_cons]
        omega

theorem neg_not_mem_of_nodup_vars {c : List Int} (hnd : (c.map Int.natAbs).Nodup)
    {l : Int} (hz : l ≠ 0) (hl : l ∈ c) : -l ∉ c := by
  intro hmem
  have hinj := List.inj_on_of_nodup_map hnd hl hmem (by simp)
  omega

theorem litOf_var_natAbs {v : Nat} (hv : 1 ≤ v) (b : Bool) :
    (litOf v b).natAbs = v ∧ decide (0 < litOf v b) = b := by
  cases b with
  | true =>
      refine ⟨by simp [litOf], ?_⟩
      rw [litOf, if_pos rfl, decide_eq_true_eq]
      exact_mod_cast hv
  | false =>
      refine ⟨by simp [litOf], ?_⟩
      rw [litOf, if_neg Bool.false_ne_true]
      rw [decide_eq_false_iff_not]
      omega

/-- Full characterization of `_unit_propagate` on well-formed input
against the unit-propagation closure: it always returns, a conflict
certifies a contradictory pair of forced literals, and a non-conflict
return extends the assignment by exactly the forced literals. -/
theorem naive_characterization {cls0 : List (List Int)} {a0 : Assignment}
    (hne : ∀ c ∈ cls0, c ≠ [])
    (hnz : ∀ c ∈ cls0, ∀ l ∈ c, l ≠ 0)
    (hnd : ∀ c ∈ cls0, (c.map Int.natAbs).Nodup)
    (hdisj : ∀ c ∈ cls0, ∀ l ∈ c, alookup a0 l.natAbs = none) :
    ∃ cn an fn, unit_propagate (clausesToSets cls0) a0 = some (cn, an, fn) ∧
      (fn = true → ∃ l, UPC cls0 l ∧ UPC cls0 (-l)) ∧
      (fn = false →
        AExt a0 an ∧
        (∀ v b, alookup an v = some b → alookup a0 v = some b ∨ UPC cls0 (litOf v b)) ∧
        (∀ l, UPC cls0 l → alookup an l.natAbs = some (decide (0 < l)))) := by
  have hInv : DInv (clausesToSets cls0) a0
      ((varsList (clausesToSets cls0)).foldr max 0) := by
    intro c hc
    rw [clausesToSets, List.mem_map] at hc
    obtain ⟨c0, hc0, rfl⟩ := hc
    have hded : c0.dedup = c0 := List.dedup_eq_self.mpr ((hnd c0 hc0).of_map)
    rw [hded]
    refine ⟨(hnd c0 hc0).of_map, ?_⟩
    intro l hl
    refine ⟨hnz c0 hc0 l hl, ?_, hdisj c0 hc0 l hl, ?_⟩
    · refine le_foldr_max (mem_varsList ?_ hl)
      rw [clausesToSets, List.mem_map]
      exact ⟨c0, hc0, hded⟩
    · exact neg_not_mem_of_nodup_vars (hnd c0 hc0) (hnz c0 hc0 l hl) hl
  have htot : unit_propagate (clausesToSets cls0) a0 ≠ none :=
    unit_propagate_ne_none hInv
  rcases hup : unit_propagate (clausesToSets cls0) a0 with _ | ⟨cn, an, fn⟩
  · exact absurd hup htot
  · refine ⟨cn, an, fn, rfl, ?_, ?_⟩
    all_goals
      have hinit : reduceCls a0 cls0 = clausesToSets cls0 := reduceCls_init hdisj hnd
      have hsound0 : NSound cls0 a0 a0 := fun v b hb => Or.inl hb
      have hloop := upLoop_reduceCls hnz hnd hdisj ((varsList (clausesToSets cls0)).length + 1)
        a0 hsound0 (by rw [hinit]; exact hup)
    · intro hf
      exact hloop.1 hf
    · intro hf
      obtain ⟨hcn, hsound⟩ := hloop.2 hf
      have hAE : AExt a0 an := (unit_propagate_spec hInv hup).1
      have hnoempty0 : [] ∉ clausesToSets cls0 := by
        intro hmem
        rw [clausesToSets, List.mem_map] at hmem
        obtain ⟨c0, hc0, hc0e⟩ := hmem
        exact hne c0 hc0 ((List.dedup_eq_nil c0).mp hc0e)
      have hnoempty : [] ∉ reduceCls an cls0 := by
        rw [← hcn]
        subst hf
        exact upLoop_keeps_nonempty _ _ _ hup hnoempty0
      have hnounit : unitLitsOf (reduceCls an cls0) = [] := by
        rw [← hcn]
        subst hf
        exact unit_propagate_false_no_units hup
      exact ⟨hAE, hsound, UPC_assigned_final hnz hnd hnounit hnoempty⟩

/-! ### C4, watched side: helper lemmas -/

theorem countUn_le_length (vars : List Nat) (a : Assignment) :
    countUn vars a ≤ vars.length :=
  List.length_filter_le _ _

theorem amem_append_single {a : Assignment} {v x : Nat} {b : Bool} :
    amem (a ++ [(v, b)]) x = (amem a x || (x == v)) := by
  rcases hc : alookup a x with _ | y
  · rw [amem, alookup_append_none _ hc]
    by_cases hx : v = x
    · subst hx
      simp [alookup, amem, hc]
    · simp [alookup, hx, amem, hc, Ne.symm hx]
  · rw [amem, alookup_append_some _ hc]
    simp [amem, hc]

theorem countUn_append_lt {vars : List Nat} {a : Assignment} {v : Nat} {b : Bool}
    (hnd : vars.Nodup) (hv : v ∈ vars) (hun : amem a v = false) :
    countUn vars (a ++ [(v, b)]) + 1 = countUn vars a := by
  unfold countUn
  have h1 : vars.filter (fun x => !(amem (a ++ [(v, b)]) x)) =
      (vars.filter (fun x => !(amem a x))).filter (fun x => x ≠ v) := by
    rw [List.filter_filter]
    refine List.filter_congr ?_
    intro x _
    rw [amem_append_single]
    by_cases hx : x = v
    · subst hx
      simp
    · simp [hx]
  rw [h1]
  have h2 : v ∈ vars.filter (fun x => !(amem a x)) :=
    List.mem_filter.mpr ⟨hv, by simp [hun]⟩
  have h3 : (vars.filter (fun x => !(amem a x))).Nodup := hnd.filter _
  have h4 : (vars.filter (fun x => !(amem a x))).filter (fun x => x ≠ v) =
      (vars.filter (fun x => !(amem a x))).erase v := by
    rw [h3.erase_eq_filter]
    refine List.filter_congr ?_
    intro x _
    by_cases hx : x = v <;> simp [hx]
  rw [h4, List.length_erase_of_mem h2]
  have := List.length_pos_of_mem h2
  omega

theorem countUn_mono {vars : List Nat} {a : Assignment} (ext : Assignment) :
    countUn vars (a ++ ext) ≤ countUn vars a := by
  unfold countUn
  refine length_filter_mono ?_
  intro x _ h
  rcases hc : alookup a x with _ | y
  · simp [amem, hc]
  · rw [show amem (a ++ ext) x = true from by
      rw [amem, alookup_append_some _ hc]; rfl] at h
    cases h

theorem mem_wAdd {w : Int → List Nat} {lit : Int} {ci : Nat} {l : Int} {cj : Nat} :
    cj ∈ wAdd w lit ci l ↔ cj ∈ w l ∨ (l = lit ∧ cj = ci) := by
  unfold wAdd
  by_cases hl : l = lit
  · subst hl
    rw [if_pos rfl]
    by_cases hmem : ci ∈ w l
    · rw [if_pos hmem]
      constructor
      · exact fun h => Or.inl h
      · intro h
        rcases h with h | ⟨-, h⟩
        · exact h
        · rw [h]
          exact hmem
    · rw [if_neg hmem, List.mem_append, List.mem_singleton]
      constructor
      · intro h
        rcases h with h | h
        · exact Or.inl h
        · exact Or.inr ⟨rfl, h⟩
      · intro h
        rcases h with h | ⟨-, h⟩
        · exact Or.inl h
        · exact Or.inr h
  · rw [if_neg hl]
    constructor
    · exact fun h => Or.inl h
    · intro h
      rcases h with h | ⟨he, -⟩
      · exact h
      · exact absurd he hl

theorem nodup_wAdd {w : Int → List Nat} {lit : Int} {ci : Nat}
    (h : ∀ l, (w l).Nodup) : ∀ l, (wAdd w lit ci l).Nodup := by
  intro l
  unfold wAdd
  by_cases hl : l = lit
  · subst hl
    by_cases hmem : ci ∈ w l
    · rw [if_pos rfl, if_pos hmem]
      exact h l
    · rw [if_pos rfl, if_neg hmem]
      rw [List.nodup_append]
      exact ⟨h l, List.nodup_singleton ci, by simpa using hmem⟩
  · rw [if_neg hl]
    exact h l

theorem mem_wDiscard {w : Int → List Nat} {lit : Int} {ci : Nat} {l : Int} {cj : Nat}
    (hnd : ∀ l, (w l).Nodup) :
    cj ∈ wDiscard w lit ci l ↔ cj ∈ w l ∧ ¬(l = lit ∧ cj = ci) := by
  unfold wDiscard
  by_cases hl : l = lit
  · subst hl
    rw [if_pos rfl, (hnd l).mem_erase_iff]
    constructor
    · rintro ⟨h1, h2⟩
      exact ⟨h2, fun hc => h1 hc.2⟩
    · rintro ⟨h1, h2⟩
      exact ⟨fun he => h2 ⟨rfl, he⟩, h1⟩
  · rw [if_neg hl]
    constructor
    · intro h
      exact ⟨h, fun hc => hl hc.1⟩
    · intro h
      exact h.1

theorem nodup_wDiscard {w : Int → List Nat} {lit : Int} {ci : Nat}
    (h : ∀ l, (w l).Nodup) : ∀ l, (wDiscard w lit ci l).Nodup := by
  intro l
  unfold wDiscard
  by_cases hl : l = lit
  · rw [if_pos hl]
    exact (h lit).erase ci
  · rw [if_neg hl]
    exact h l

theorem mem_foldl_wAdd : ∀ (regs : List (Int × Nat)) (w : Int → List Nat)
    (l : Int) (cj : Nat),
    cj ∈ (regs.foldl (fun w r => wAdd w r.1 r.2) w) l ↔ cj ∈ w l ∨ (l, cj) ∈ regs := by
  intro regs
  induction regs with
  | nil =>
      intro w l cj
      simp
  | cons r rest ih =>
      intro w l cj
      rw [List.foldl_cons, ih, mem_wAdd]
      constructor
      · intro h
        rcases h with (h | ⟨h1, h2⟩) | h
        · exact Or.inl h
        · refine Or.inr (List.mem_cons.mpr (Or.inl ?_))
          rw [h1, h2]
        · exact Or.inr (List.mem_cons.mpr (Or.inr h))
      · intro h
        rcases h with h | h
        · exact Or.inl (Or.inl h)
        · rcases List.mem_cons.mp h with he | hm
          · refine Or.inl (Or.inr ?_)
            rw [← he]
            exact ⟨rfl, rfl⟩
          · exact Or.inr hm

theorem nodup_foldl_wAdd : ∀ (regs : List (Int × Nat)) (w : Int → List Nat),
    (∀ l, (w l).Nodup) → ∀ l, ((regs.foldl (fun w r => wAdd w r.1 r.2) w) l).Nodup := by
  intro regs
  induction regs with
  | nil => exact fun w h => h
  | cons r rest ih =>
      intro w h
      rw [List.foldl_cons]
      exact ih _ (nodup_wAdd h)

theorem litIsFalse_neg_of_true {t : Int} {a : Assignment} (hz : t ≠ 0)
    (h : litIsTrue t a = true) : litIsFalse (-t) a = true := by
  rw [litIsFalse_iff_lookup, Int.natAbs_neg, decide_pos_neg hz, Bool.not_not]
  exact litIsTrue_iff_lookup.mp h

theorem litIsTrue_neg_of_false {t : Int} {a : Assignment} (hz : t ≠ 0)
    (h : litIsFalse t a = true) : litIsTrue (-t) a = true := by
  rw [litIsTrue_iff_lookup, Int.natAbs_neg, decide_pos_neg hz]
  rw [litIsFalse_iff_lookup] at h
  exact h

/-- `findNewWatch` specification: the scan of
`for idx, cand in enumerate(clause)` starting at offset `i`. -/
theorem findNewWatch_spec (owp fwp : Nat) (a : Assignment) :
    ∀ (lits : List Int) (i : Nat),
    (∀ j cand, findNewWatch lits i owp fwp a = some (j, cand) →
      i ≤ j ∧ j - i < lits.length ∧ lits.get? (j - i) = some cand ∧ j ≠ owp ∧ j ≠ fwp ∧
        litIsFalse cand a = false) ∧
    (findNewWatch lits i owp fwp a = none →
      ∀ k cand, lits.get? k = some cand → (i + k = owp ∨ i + k = fwp) ∨
        litIsFalse cand a = true) := by
  intro lits
  induction lits with
  | nil =>
      intro i
      refine ⟨?_, ?_⟩
      · intro j cand h
        simp [findNewWatch] at h
      · intro _ k cand h
        simp at h
  | cons c rest ih =>
      intro i
      refine ⟨?_, ?_⟩
      · intro j cand h
        rw [findNewWatch] at h
        by_cases h1 : i = owp ∨ i = fwp
        · rw [if_pos h1] at h
          obtain ⟨g1, g2, g3, g4, g5, g6⟩ := (ih (i + 1)).1 j cand h
          have hij : i < j := by omega
          refine ⟨by omega, by simp; omega, ?_, g4, g5, g6⟩
          rw [show j - i = (j - (i + 1)) + 1 by omega]
          simpa using g3
        · rw [if_neg h1] at h
          by_cases h2 : litIsFalse c a = false
          · rw [if_pos (by simp [h2])] at h
            rw [Option.some.injEq, Prod.mk.injEq] at h
            obtain ⟨he1, he2⟩ := h
            subst he1
            subst he2
            push_neg at h1
            exact ⟨le_refl i, by simp, by simp, h1.1, h1.2, h2⟩
          · rw [if_neg (by simpa using h2)] at h
            obtain ⟨g1, g2, g3, g4, g5, g6⟩ := (ih (i + 1)).1 j cand h
            have hij : i < j := by omega
            refine ⟨by omega, by simp; omega, ?_, g4, g5, g6⟩
            rw [show j - i = (j - (i + 1)) + 1 by omega]
            simpa using g3
      · intro h k cand hk
        rw [findNewWatch] at h
        by_cases h1 : i = owp ∨ i = fwp
        · rw [if_pos h1] at h
          cases k with
          | zero =>
              left
              simpa using h1
          | succ k2 =>
              have := (ih (i + 1)).2 h k2 cand (by simpa using hk)
              rcases this with hor | hf
              · left
                omega
              · right
                exact hf
        · rw [if_neg h1] at h
          by_cases h2 : litIsFalse c a = false
          · rw [if_pos (by simp [h2])] at h
            cases h
          · rw [if_neg (by simpa using h2)] at h
            cases k with
            | zero =>
                right
                simp only [List.get?] at hk
                rw [Option.some.injEq] at hk
                subst hk
                simpa using h2
            | succ k2 =>
                have := (ih (i + 1)).2 h k2 cand (by simpa using hk)
                rcases this with hor | hf
                · left
                  omega
                · right
                  exact hf

/-- Materialization succeeds only when every clause is satisfied or
keeps a non-false literal. -/
theorem wMaterialize_some {a : Assignment} : ∀ {cls : List WClause} {r : List WClause},
    wMaterialize a cls = some r →
    ∀ c ∈ cls, (∃ l ∈ c.lits, litIsTrue l a = true) ∨
      ∃ l ∈ c.lits, litIsFalse l a = false := by
  intro cls
  induction cls with
  | nil =>
      intro r _ c hc
      simp at hc
  | cons c0 t ih =>
      intro r h c hc
      rw [wMaterialize] at h
      by_cases h1 : c0.lits.any (fun l => litIsTrue l a)
      · rw [if_pos h1] at h
        rcases List.mem_cons.mp hc with he | hm
        · subst he
          left
          obtain ⟨l, hl, hlt⟩ := List.any_eq_true.mp h1
          exact ⟨l, hl, hlt⟩
        · exact ih h c hm
      · rw [if_neg h1] at h
        by_cases h2 : (c0.lits.filter (fun l => !litIsFalse l a)).isEmpty
        · rw [if_pos h2] at h
          cases h
        · rw [if_neg h2] at h
          cases hr : wMaterialize a t with
          | none =>
              rw [hr] at h
              cases h
          | some r2 =>
              rcases List.mem_cons.mp hc with he | hm
              · subst he
                right
                have h3 : c.lits.filter (fun l => !litIsFalse l a) ≠ [] := by
                  intro hcon
                  rw [hcon] at h2
                  simp at h2
                obtain ⟨x, hx⟩ := List.exists_mem_of_ne_nil _ h3
                exact ⟨x, List.mem_of_mem_filter hx,
                  by simpa using List.of_mem_filter hx⟩
              · exact ih hr c hm

theorem nodup_keys_append {a : Assignment} {v : Nat} {b : Bool}
    (hk : (a.map Prod.fst).Nodup) (hv : alookup a v = none) :
    ((a ++ [(v, b)]).map Prod.fst).Nodup := by
  rw [List.map_append, List.nodup_append]
  refine ⟨hk, by simp, ?_⟩
  intro x hx
  simp only [List.map_cons, List.map_nil, List.mem_singleton]
  intro he
  rw [List.mem_map] at hx
  obtain ⟨p, hp, hpe⟩ := hx
  rw [alookup_none_iff] at hv
  exact hv p hp (by rw [hpe, he])

/-- Watch-building specification on tuple clauses: no dynamic error, no
immediate conflict when no clause is empty, watch positions 0 and
(0 or 1), and the registration list records exactly the watched
literals. -/
theorem wBuildWatches_spec : ∀ (cl : List (List Int)) (ci : Nat),
    (∀ c ∈ cl, c ≠ []) →
    ∃ wp regs, wBuildWatches ci (cl.map WClause.tup) = .ok (some (wp, regs)) ∧
      wp.length = cl.length ∧
      (∀ k pr, wp.get? k = some pr → ∃ c0, cl.get? k = some c0 ∧
        pr = (0, if c0.length = 1 then 0 else 1)) ∧
      (∀ l cj, (l, cj) ∈ regs ↔ ∃ k c0, cj = ci + k ∧ cl.get? k = some c0 ∧
        (c0.get? 0 = some l ∨ c0.get? (if c0.length = 1 then 0 else 1) = some l)) := by
  intro cl
  induction cl with
  | nil =>
      intro ci _
      refine ⟨[], [], rfl, rfl, ?_, ?_⟩
      · intro k pr h
        simp at h
      · intro l cj
        constructor
        · intro h
          simp at h
        · intro h
          obtain ⟨k, c0, -, hk, -⟩ := h
          simp at hk
  | cons c0 t ih =>
      intro ci hne
      have hc0ne : c0 ≠ [] := hne c0 (List.mem_cons_self c0 t)
      obtain ⟨wp2, regs2, hrec, hlen2, hwp2, hregs2⟩ :=
        ih (ci + 1) (fun x hx => hne x (List.mem_cons_of_mem c0 hx))
      rcases c0 with _ | ⟨x, xs⟩
      · exact absurd rfl hc0ne
      · rcases xs with _ | ⟨y, ys⟩
        · -- unit clause [x]: both watches at position 0
          have hstep : wBuildWatches ci (((x :: ([] : List Int)) :: t).map WClause.tup) =
              (match wBuildWatches (ci + 1) (t.map WClause.tup) with
               | .error e => .error e
               | .ok none => .ok none
               | .ok (some (wp, regs)) =>
                   .ok (some ((0, 0) :: wp, (x, ci) :: (x, ci) :: regs))) := rfl
          refine ⟨(0, 0) :: wp2, (x, ci) :: (x, ci) :: regs2, ?_,
            by simp [hlen2], ?_, ?_⟩
          · rw [hstep, hrec]
          · intro k pr h
            cases k with
            | zero =>
                have hpr : pr = (0, 0) :=
                  Option.some.inj (show some pr = some ((0, 0) : Nat × Nat) from h.symm)
                refine ⟨[x], rfl, ?_⟩
                rw [hpr]
                simp
            | succ k2 =>
                obtain ⟨c1, hc1, hpr⟩ := hwp2 k2 pr (by simpa using h)
                exact ⟨c1, by simpa using hc1, hpr⟩
          · intro l cj
            constructor
            · intro h
              rcases List.mem_cons.mp h with he | h2
              · rw [Prod.mk.injEq] at he
                exact ⟨0, [x], by omega, rfl, Or.inl (by simp [he.1])⟩
              · rcases List.mem_cons.mp h2 with he | h3
                · rw [Prod.mk.injEq] at he
                  exact ⟨0, [x], by omega, rfl, Or.inl (by simp [he.1])⟩
                · obtain ⟨k, c1, hcj, hk, hpos⟩ := (hregs2 l cj).mp h3
                  exact ⟨k + 1, c1, by omega, by simpa using hk, hpos⟩
            · intro h
              obtain ⟨k, c1, hcj, hk, hpos⟩ := h
              cases k with
              | zero =>
                  have hc1x : c1 = [x] :=
                    (Option.some.inj (show some [x] = some c1 from hk)).symm
                  subst hc1x
                  have hx : l = x := by
                    rcases hpos with hp | hp
                    · exact (Option.some.inj hp).symm
                    · exact (Option.some.inj (show some x = some l from hp)).symm
                  subst hx
                  have : cj = ci := by omega
                  subst this
                  exact List.mem_cons_self _ _
              | succ k2 =>
                  refine List.mem_cons_of_mem _ (List.mem_cons_of_mem _ ?_)
                  refine (hregs2 l cj).mpr ⟨k2, c1, by omega, by simpa using hk, hpos⟩
        · -- clause with at least two literals: watch positions 0 and 1
          have hstep : wBuildWatches ci (((x :: y :: ys) :: t).map WClause.tup) =
              (match wBuildWatches (ci + 1) (t.map WClause.tup) with
               | .error e => .error e
               | .ok none => .ok none
               | .ok (some (wp, regs)) =>
                   .ok (some ((0, 1) :: wp, (x, ci) :: (y, ci) :: regs))) := rfl
          have hif : (if (x :: y :: ys).length = 1 then 0 else 1) = 1 :=
            if_neg (by simp)
          refine ⟨(0, 1) :: wp2, (x, ci) :: (y, ci) :: regs2, ?_,
            by simp [hlen2], ?_, ?_⟩
          · rw [hstep, hrec]
          · intro k pr h
            cases k with
            | zero =>
                have hpr : pr = (0, 1) :=
                  Option.some.inj (show some pr = some ((0, 1) : Nat × Nat) from h.symm)
                refine ⟨x :: y :: ys, rfl, ?_⟩
                rw [hpr, hif]
            | succ k2 =>
                obtain ⟨c1, hc1, hpr⟩ := hwp2 k2 pr (by simpa using h)
                exact ⟨c1, by simpa using hc1, hpr⟩
          · intro l cj
            constructor
            · intro h
              rcases List.mem_cons.mp h with he | h2
              · rw [Prod.mk.injEq] at he
                exact ⟨0, x :: y :: ys, by omega, rfl, Or.inl (by simp [he.1])⟩
              · rcases List.mem_cons.mp h2 with he | h3
                · rw [Prod.mk.injEq] at he
                  refine ⟨0, x :: y :: ys, by omega, rfl, Or.inr ?_⟩
                  rw [hif]
                  simp [he.1]
                · obtain ⟨k, c1, hcj, hk, hpos⟩ := (hregs2 l cj).mp h3
                  exact ⟨k + 1, c1, by omega, by simpa using hk, hpos⟩
            · intro h
              obtain ⟨k, c1, hcj, hk, hpos⟩ := h
              cases k with
              | zero =>
                  have hc1x : c1 = x :: y :: ys :=
                    (Option.some.inj (show some (x :: y :: ys) = some c1 from hk)).symm
                  subst hc1x
                  have : cj = ci := by omega
                  subst this
                  rw [hif] at hpos
                  rcases hpos with hp | hp
                  · have : l = x := (Option.some.inj hp).symm
                    subst this
                    exact List.mem_cons_self _ _
                  · have : l = y := (Option.some.inj (show some y = some l from hp)).symm
                    subst this
                    exact List.mem_cons_of_mem _ (List.mem_cons_self _ _)
              | succ k2 =>
                  refine List.mem_cons_of_mem _ (List.mem_cons_of_mem _ ?_)
                  refine (hregs2 l cj).mpr ⟨k2, c1, by omega, by simpa using hk, hpos⟩

/-- Specification of the initial-unit-clause loop on tuple clauses:
no dynamic error; a conflict certifies contradictory forced literals; a
normal return extends assignment and queue by the unit literals while
preserving soundness, key discipline and the binding-in-queue
property. -/
theorem wInitUnits_spec {cls0 : List (List Int)} {a0 : Assignment}
    (hnz : ∀ c ∈ cls0, ∀ l ∈ c, l ≠ 0)
    (hdisj : ∀ c ∈ cls0, ∀ l ∈ c, alookup a0 l.natAbs = none) :
    ∀ (cl : List (List Int)) (a : Assignment) (q : List Int),
    (∀ c ∈ cl, c ∈ cls0) →
    (∀ v b, alookup a v = some b → alookup a0 v = some b ∨ UPC cls0 (litOf v b)) →
    (a.map Prod.fst).Nodup →
    (∀ p ∈ a, 1 ≤ p.1) →
    (∀ v b, alookup a v = some b → litOf v b ∈ q) →
    (∀ l ∈ q, litIsTrue l a = true ∧ l ≠ 0) →
    AExt a0 a →
    ∃ a1 q1 f, wInitUnits (cl.map WClause.tup) a q = .ok (a1, q1, f) ∧
      (f = true → ∃ l, UPC cls0 l ∧ UPC cls0 (-l)) ∧
      (f = false →
        AExt a a1 ∧ AExt a0 a1 ∧
        (∀ v b, alookup a1 v = some b → alookup a0 v = some b ∨ UPC cls0 (litOf v b)) ∧
        (a1.map Prod.fst).Nodup ∧
        (∀ p ∈ a1, 1 ≤ p.1) ∧
        (∀ v b, alookup a1 v = some b → litOf v b ∈ q1) ∧
        (∀ l ∈ q1, litIsTrue l a1 = true ∧ l ≠ 0) ∧
        (∀ c ∈ cl, ∀ l, c = [l] → amem a1 l.natAbs = true)) := by
  intro cl
  induction cl with
  | nil =>
      intro a q _ hsound hkeys hpos hqbind hqtrue haext
      refine ⟨a, q, false, rfl, ?_, ?_⟩
      · intro h
        cases h
      · intro _
        refine ⟨AExt.refl a, haext, hsound, hkeys, hpos, hqbind, hqtrue, ?_⟩
        intro c hc
        simp at hc
  | cons c0 rest ih =>
      intro a q hcl hsound hkeys hpos hqbind hqtrue haext
      have hc0 : c0 ∈ cls0 := hcl c0 (List.mem_cons_self c0 rest)
      have hrest : ∀ c ∈ rest, c ∈ cls0 :=
        fun c hc => hcl c (List.mem_cons_of_mem c0 hc)
      rcases c0 with _ | ⟨x, xs⟩
      · have hstep : wInitUnits ((([] : List Int) :: rest).map WClause.tup) a q =
            wInitUnits (rest.map WClause.tup) a q := rfl
        obtain ⟨a1, q1, f, heq, h1, h2⟩ :=
          ih a q hrest hsound hkeys hpos hqbind hqtrue haext
        refine ⟨a1, q1, f, by rw [hstep]; exact heq, h1, ?_⟩
        intro hf
        obtain ⟨g1, g2, g3, g4, g5, g6, g7, g8⟩ := h2 hf
        refine ⟨g1, g2, g3, g4, g5, g6, g7, ?_⟩
        intro c hc l hcl2
        rcases List.mem_cons.mp hc with he | hm
        · rw [hcl2] at he
          cases he
        · exact g8 c hm l hcl2
      · rcases xs with _ | ⟨y, ys⟩
        · -- unit clause [x]
          have hx0 : x ≠ 0 := hnz [x] hc0 x (by simp)
          have hxU : UPC cls0 x := UPC_unit hc0
          have hstep : wInitUnits (((x :: ([] : List Int)) :: rest).map WClause.tup) a q =
              (match alookup a x.natAbs with
               | some b => if b ≠ decide (0 < x) then .ok (a, q, true)
                           else wInitUnits (rest.map WClause.tup) a q
               | none => wInitUnits (rest.map WClause.tup)
                   (a ++ [(x.natAbs, decide (0 < x))]) (q ++ [x])) := rfl
          cases hl : alookup a x.natAbs with
          | some b =>
              by_cases hb : b ≠ decide (0 < x)
              · refine ⟨a, q, true, ?_, ?_, by intro h; cases h⟩
                · rw [hstep, hl]
                  dsimp only
                  rw [if_pos hb]
                · intro _
                  rcases hsound _ _ hl with h0 | h0
                  · rw [hdisj [x] hc0 x (by simp)] at h0
                    cases h0
                  · rw [litOf_opp hx0 hb] at h0
                    exact ⟨x, hxU, h0⟩
              · obtain ⟨a1, q1, f, heq, h1, h2⟩ :=
                  ih a q hrest hsound hkeys hpos hqbind hqtrue haext
                refine ⟨a1, q1, f, ?_, h1, ?_⟩
                · rw [hstep, hl]
                  dsimp only
                  rw [if_neg hb]
                  exact heq
                · intro hf
                  obtain ⟨g1, g2, g3, g4, g5, g6, g7, g8⟩ := h2 hf
                  refine ⟨g1, g2, g3, g4, g5, g6, g7, ?_⟩
                  intro c hc l hcl2
                  rcases List.mem_cons.mp hc with he | hm
                  · rw [hcl2] at he
                    have hlx : l = x := by
                      rw [List.cons.injEq] at he
                      exact he.1
                    subst hlx
                    rw [amem, g1 _ _ hl]
                    rfl
                  · exact g8 c hm l hcl2
          | none =>
              set a2 := a ++ [(x.natAbs, decide (0 < x))] with ha2
              set q2 := q ++ [x] with hq2
              have hsound2 : ∀ v b, alookup a2 v = some b →
                  alookup a0 v = some b ∨ UPC cls0 (litOf v b) := by
                intro v b hb
                rcases alookup_append_single_cases hb with h | ⟨hv, hbv, -⟩
                · exact hsound v b h
                · subst hv
                  subst hbv
                  rw [litOf_natAbs hx0]
                  exact Or.inr hxU
              have hkeys2 : (a2.map Prod.fst).Nodup := nodup_keys_append hkeys hl
              have hpos2 : ∀ p ∈ a2, 1 ≤ p.1 := by
                intro p hp
                rcases List.mem_append.mp hp with h | h
                · exact hpos p h
                · rw [List.mem_singleton] at h
                  subst h
                  have := Int.natAbs_pos.mpr hx0
                  omega
              have hqbind2 : ∀ v b, alookup a2 v = some b → litOf v b ∈ q2 := by
                intro v b hb
                rcases alookup_append_single_cases hb with h | ⟨hv, hbv, -⟩
                · exact List.mem_append_left _ (hqbind v b h)
                · subst hv
                  subst hbv
                  rw [litOf_natAbs hx0]
                  exact List.mem_append_right _ (by simp)
              have hqtrue2 : ∀ l ∈ q2, litIsTrue l a2 = true ∧ l ≠ 0 := by
                intro l hlq
                rcases List.mem_append.mp hlq with h | h
                · obtain ⟨ht, hz⟩ := hqtrue l h
                  exact ⟨litIsTrue_AExt (AExt.append a _) ht, hz⟩
                · rw [List.mem_singleton] at h
                  subst h
                  refine ⟨?_, hx0⟩
                  rw [litIsTrue_iff_lookup]
                  exact alookup_append_single_same _ hl
              have haext2 : AExt a0 a2 := haext.trans (AExt.append a _)
              obtain ⟨a1, q1, f, heq, h1, h2⟩ :=
                ih a2 q2 hrest hsound2 hkeys2 hpos2 hqbind2 hqtrue2 haext2
              refine ⟨a1, q1, f, ?_, h1, ?_⟩
              · rw [hstep, hl]
                exact heq
              · intro hf
                obtain ⟨g1, g2, g3, g4, g5, g6, g7, g8⟩ := h2 hf
                refine ⟨(AExt.append a _).trans g1, g2, g3, g4, g5, g6, g7, ?_⟩
                intro c hc l hcl2
                rcases List.mem_cons.mp hc with he | hm
                · rw [hcl2] at he
                  have hlx : l = x := by
                    rw [List.cons.injEq] at he
                    exact he.1
                  subst hlx
                  rw [amem, g1 _ _ (alookup_append_single_same _ hl)]
                  rfl
                · exact g8 c hm l hcl2
        · -- clause with two or more literals: skipped
          have hstep : wInitUnits (((x :: y :: ys) :: rest).map WClause.tup) a q =
              wInitUnits (rest.map WClause.tup) a q := rfl
          obtain ⟨a1, q1, f, heq, h1, h2⟩ :=
            ih a q hrest hsound hkeys hpos hqbind hqtrue haext
          refine ⟨a1, q1, f, by rw [hstep]; exact heq, h1, ?_⟩
          intro hf
          obtain ⟨g1, g2, g3, g4, g5, g6, g7, g8⟩ := h2 hf
          refine ⟨g1, g2, g3, g4, g5, g6, g7, ?_⟩
          intro c hc l hcl2
          rcases List.mem_cons.mp hc with he | hm
          · rw [hcl2] at he
            rw [List.cons.injEq] at he
            obtain ⟨-, he2⟩ := he
            cases he2
          · exact g8 c hm l hcl2

theorem UPC_forced {cls0 : List (List Int)} {a0 a : Assignment} {c0 : List Int}
    {x : Int}
    (hnz : ∀ c ∈ cls0, ∀ l ∈ c, l ≠ 0)
    (hdisj : ∀ c ∈ cls0, ∀ l ∈ c, alookup a0 l.natAbs = none)
    (hsound : ∀ v b, alookup a v = some b → alookup a0 v = some b ∨ UPC cls0 (litOf v b))
    (hc0 : c0 ∈ cls0) (hmem : x ∈ c0)
    (hall : ∀ l ∈ c0, l ≠ x → litIsFalse l a = true) : UPC cls0 x :=
  UPC.step hc0 hmem (fun l2 h2 hne =>
    litIsFalse_elim (hnz c0 hc0 l2 h2) hsound (hdisj c0 hc0 l2 h2) (hall l2 h2 hne))

theorem UPC_pair_of_allfalse {cls0 : List (List Int)} {a0 a : Assignment}
    {c0 : List Int}
    (hnz : ∀ c ∈ cls0, ∀ l ∈ c, l ≠ 0)
    (hdisj : ∀ c ∈ cls0, ∀ l ∈ c, alookup a0 l.natAbs = none)
    (hsound : ∀ v b, alookup a v = some b → alookup a0 v = some b ∨ UPC cls0 (litOf v b))
    (hc0 : c0 ∈ cls0) (hne : c0 ≠ [])
    (hall : ∀ l ∈ c0, litIsFalse l a = true) :
    ∃ l, UPC cls0 l ∧ UPC cls0 (-l) := by
  obtain ⟨x, hx⟩ := List.exists_mem_of_ne_nil c0 hne
  have hder : ∀ l ∈ c0, UPC cls0 (-l) := fun l hl =>
    litIsFalse_elim (hnz c0 hc0 l hl) hsound (hdisj c0 hc0 l hl) (hall l hl)
  exact ⟨x, UPC.step hc0 hx (fun l2 h2 _ => hder l2 h2), hder x hx⟩

theorem amem_of_AExt {a b : Assignment} {v : Nat} (hab : AExt a b)
    (h : amem a v = true) : amem b v = true := by
  rw [amem] at h ⊢
  cases hc : alookup a v with
  | none => rw [hc] at h; cases h
  | some x => rw [hab v x hc]; rfl

/-- Forcing the other watched literal (`wForceOther`): a conflict
certifies contradictory forced literals; otherwise the literal is newly
assigned true and enqueued, preserving the invariant and the
propagation measure. -/
theorem wForceOther_spec {cls0 : List (List Int)} {a0 : Assignment}
    (hnz : ∀ c ∈ cls0, ∀ l ∈ c, l ≠ 0)
    (hdisj : ∀ c ∈ cls0, ∀ l ∈ c, alookup a0 l.natAbs = none)
    {exc : Int → Nat → Prop} {st : WState} (hinv : WInv cls0 a0 exc st)
    {c0 : List Int} {otherLit : Int} (hc0 : c0 ∈ cls0) (hmem : otherLit ∈ c0)
    (hnottrue : litIsTrue otherLit st.assign = false)
    (hall : ∀ l ∈ c0, l ≠ otherLit → litIsFalse l st.assign = true) :
    ∃ res, wForceOther otherLit st = .ok res ∧
      (∀ a, res = .conflict a → ∃ l, UPC cls0 l ∧ UPC cls0 (-l)) ∧
      (∀ st2, res = .next st2 →
        st2.wpos = st.wpos ∧ st2.watchers = st.watchers ∧
        st2.assign = st.assign ++ [(otherLit.natAbs, decide (0 < otherLit))] ∧
        st2.queue = st.queue ++ [otherLit] ∧
        WInv cls0 a0 exc st2 ∧
        litIsTrue otherLit st2.assign = true ∧
        st2.queue.length + countUn (varsList cls0) st2.assign =
          st.queue.length + countUn (varsList cls0) st.assign) := by
  have hoz : otherLit ≠ 0 := hnz c0 hc0 otherLit hmem
  rcases hf : litIsFalse otherLit st.assign with _ | _
  · -- the other literal is unassigned: assign and enqueue it
    have hnone : alookup st.assign otherLit.natAbs = none :=
      lookup_none_of_status hnottrue hf
    have heq : wForceOther otherLit st = .ok (.next { st with
        assign := st.assign ++ [(otherLit.natAbs, decide (0 < otherLit))],
        queue := st.queue ++ [otherLit] }) := by
      rw [wForceOther, if_neg (by simp [hf])]
      dsimp only
      rw [hnone]
    refine ⟨_, heq, ?_, ?_⟩
    · intro a h
      cases h
    · intro st2 h
      have hst2 : st2 = { st with
          assign := st.assign ++ [(otherLit.natAbs, decide (0 < otherLit))],
          queue := st.queue ++ [otherLit] } := by
        have := WRes.next.inj h
        exact this.symm
      subst hst2
      have hUPC : UPC cls0 otherLit :=
        UPC_forced hnz hdisj hinv.asound hc0 hmem hall
      have htrue2 : litIsTrue otherLit
          (st.assign ++ [(otherLit.natAbs, decide (0 < otherLit))]) = true := by
        rw [litIsTrue_iff_lookup]
        exact alookup_append_single_same _ hnone
      refine ⟨rfl, rfl, rfl, rfl, ?_, htrue2, ?_⟩
      · refine ⟨hinv.wlen, hinv.wvalid, hinv.wexact, hinv.wnodup, ?_, ?_, ?_, ?_,
          ?_, ?_, ?_⟩
        · -- asound
          intro v b hb
          rcases alookup_append_single_cases hb with h0 | ⟨hv, hbv, -⟩
          · exact hinv.asound v b h0
          · subst hv
            subst hbv
            rw [litOf_natAbs hoz]
            exact Or.inr hUPC
        · exact nodup_keys_append hinv.akeys hnone
        · intro p hp
          rcases List.mem_append.mp hp with h0 | h0
          · exact hinv.apos p h0
          · rw [List.mem_singleton] at h0
            subst h0
            have := Int.natAbs_pos.mpr hoz
            omega
        · exact hinv.aext.trans (AExt.append _ _)
        · intro l hl
          rcases List.mem_append.mp hl with h0 | h0
          · obtain ⟨ht, hz⟩ := hinv.qtrue l h0
            exact ⟨litIsTrue_AExt (AExt.append _ _) ht, hz⟩
          · rw [List.mem_singleton] at h0
            subst h0
            exact ⟨htrue2, hoz⟩
        · intro c1 hc1 l hl
          exact amem_of_AExt (AExt.append _ _) (hinv.units c1 hc1 l hl)
        · -- watch
          intro ci i1 i2 c1 w hwp hc1 hpos hfw
          have hwz : w ≠ 0 := by
            rcases hpos with hp | hp
            · exact hnz c1 (List.get?_mem hc1) w (List.get?_mem hp)
            · exact hnz c1 (List.get?_mem hc1) w (List.get?_mem hp)
          rcases (litIsFalse_step hoz hwz hnone).mp hfw with hold | hnew
          · rcases hinv.watch ci i1 i2 c1 w hwp hc1 hpos hold with hsat | hq | he
            · obtain ⟨l, hl, hlt⟩ := hsat
              exact Or.inl ⟨l, hl, litIsTrue_AExt (AExt.append _ _) hlt⟩
            · exact Or.inr (Or.inl (List.mem_append_left _ hq))
            · exact Or.inr (Or.inr he)
          · subst hnew
            refine Or.inr (Or.inl ?_)
            rw [show - -otherLit = otherLit by omega]
            exact List.mem_append_right _ (by simp)
      · -- measure is preserved exactly
        have hvm : otherLit.natAbs ∈ varsList cls0 := mem_varsList hc0 hmem
        have hvn : (varsList cls0).Nodup := List.nodup_dedup _
        have hunm : amem st.assign otherLit.natAbs = false := by
          rw [amem, hnone]
          rfl
        have := @countUn_append_lt _ st.assign _ (decide (0 < otherLit)) hvn hvm hunm
        simp only [List.length_append, List.length_cons, List.length_nil]
        omega
  · -- the other literal is false as well: conflict
    have heq : wForceOther otherLit st = .ok (.conflict st.assign) := by
      rw [wForceOther, if_pos hf]
    refine ⟨_, heq, ?_, ?_⟩
    · intro a _
      refine UPC_pair_of_allfalse hnz hdisj hinv.asound hc0
        (List.ne_nil_of_mem hmem) ?_
      intro l hl
      by_cases hle : l = otherLit
      · subst hle
        exact hf
      · exact hall l hl hle
    · intro st2 h
      cases h

theorem WInv_weaken {cls0 : List (List Int)} {a0 : Assignment}
    {exc exc2 : Int → Nat → Prop} {st : WState}
    (hinv : WInv cls0 a0 exc st)
    (himp : ∀ w ci i1 i2 c0, exc w ci → st.wpos.get? ci = some (i1, i2) →
      cls0.get? ci = some c0 → (c0.get? i1 = some w ∨ c0.get? i2 = some w) →
      litIsFalse w st.assign = true →
      (∃ l ∈ c0, litIsTrue l st.assign = true) ∨ -w ∈ st.queue ∨ exc2 w ci) :
    WInv cls0 a0 exc2 st := by
  refine ⟨hinv.wlen, hinv.wvalid, hinv.wexact, hinv.wnodup, hinv.asound, hinv.akeys,
    hinv.apos, hinv.aext, hinv.qtrue, hinv.units, ?_⟩
  intro ci i1 i2 c0 w hwp hc0 hpos hfw
  rcases hinv.watch ci i1 i2 c0 w hwp hc0 hpos hfw with hsat | hq | he
  · exact Or.inl hsat
  · exact Or.inr (Or.inl hq)
  · exact himp w ci i1 i2 c0 he hwp hc0 hpos hfw

theorem nodup_get?_inj {c : List Int} (hnd : c.Nodup) {j k : Nat} {x : Int}
    (hj : c.get? j = some x) (hk : c.get? k = some x) : j = k := by
  obtain ⟨hj2, hjg⟩ := List.get?_eq_some.mp hj
  obtain ⟨hk2, hkg⟩ := List.get?_eq_some.mp hk
  have : c.get ⟨j, hj2⟩ = c.get ⟨k, hk2⟩ := by rw [hjg, hkg]
  have := (List.Nodup.get_inj_iff hnd).mp this
  exact congrArg Fin.val this

/-- Handling of an affected clause (`wHandleWatch`): satisfied clause,
successful watch move, or forcing of the other watched literal; the
invariant's exception for the processed clause is discharged. -/
theorem wHandleWatch_spec {cls0 : List (List Int)} {a0 : Assignment}
    (hnz : ∀ c ∈ cls0, ∀ l ∈ c, l ≠ 0)
    (hnd : ∀ c ∈ cls0, (c.map Int.natAbs).Nodup)
    (hdisj : ∀ c ∈ cls0, ∀ l ∈ c, alookup a0 l.natAbs = none)
    {t : Int} {st : WState} {R : List Nat} {ci i1 i2 fwp owp : Nat} {c0 : List Int}
    (hinv : WInv cls0 a0 (fun w cj => w = -t ∧ cj ∈ ci :: R) st)
    (htz : t ≠ 0) (htt : litIsTrue t st.assign = true)
    (hwp : st.wpos.get? ci = some (i1, i2))
    (hc0 : cls0.get? ci = some c0)
    (hpm : (fwp = i1 ∧ owp = i2) ∨ (fwp = i2 ∧ owp = i1))
    (hfw : c0.get? fwp = some (-t)) :
    ∃ res, wHandleWatch (WClause.tup c0) t ci i1 fwp owp st = .ok res ∧
      (∀ a, res = .conflict a → ∃ l, UPC cls0 l ∧ UPC cls0 (-l)) ∧
      (∀ st2, res = .next st2 →
        WInv cls0 a0 (fun w cj => w = -t ∧ cj ∈ R) st2 ∧
        AExt st.assign st2.assign ∧
        st2.queue.length + countUn (varsList cls0) st2.assign ≤
          st.queue.length + countUn (varsList cls0) st.assign) := by
  have hc0mem : c0 ∈ cls0 := List.get?_mem hc0
  have hc0nd : c0.Nodup := (hnd c0 hc0mem).of_map
  obtain ⟨c1, hc1, hb1, hb2, hb3, hb4⟩ := hinv.wvalid ci i1 i2 hwp
  have hc1e : c1 = c0 := by
    rw [hc0] at hc1
    exact (Option.some.inj hc1).symm
  rw [hc1e] at hb1 hb2 hb3 hb4
  have howlt : owp < c0.length := by
    rcases hpm with ⟨-, h⟩ | ⟨-, h⟩ <;> omega
  cases how : c0.get? owp with
  | none =>
      rw [List.get?_eq_none] at how
      omega
  | some otherLit =>
      have homem : otherLit ∈ c0 := List.get?_mem how
      have hosome : (WClause.tup c0).idx owp = some otherLit := how
      have hstep : wHandleWatch (WClause.tup c0) t ci i1 fwp owp st =
          (if litIsTrue otherLit st.assign then Except.ok (WRes.next st)
           else
             match findNewWatch c0 0 owp fwp st.assign with
             | some (j, cand) =>
                 let w2 := wDiscard st.watchers (-t) ci
                 let w3 := wAdd w2 cand ci
                 let wp2 := if fwp = i1 then st.wpos.set ci (j, owp)
                            else st.wpos.set ci (owp, j)
                 Except.ok (WRes.next { st with watchers := w3, wpos := wp2 })
             | none => wForceOther otherLit st) := by
        rw [wHandleWatch, hosome]
        rfl
      rcases hot : litIsTrue otherLit st.assign with _ | _
      · -- not satisfied by the other watch
        cases hfind : findNewWatch c0 0 owp fwp st.assign with
        | none =>
            -- no replacement: force the other literal
            have hall : ∀ l ∈ c0, l ≠ otherLit → litIsFalse l st.assign = true := by
              intro l hl hne
              obtain ⟨k, hk⟩ := List.get?_of_mem hl
              rcases (findNewWatch_spec owp fwp st.assign c0 0).2 hfind k l hk with
                hor | hf
              · rcases hor with h | h
                · rw [show k = owp by omega] at hk
                  rw [how] at hk
                  exact absurd (Option.some.inj hk).symm hne
                · rw [show k = fwp by omega] at hk
                  rw [hfw] at hk
                  have : l = -t := (Option.some.inj hk).symm
                  subst this
                  exact litIsFalse_neg_of_true htz htt
              · exact hf
            obtain ⟨res, hres, hconf, hnext⟩ := wForceOther_spec hnz hdisj hinv
              hc0mem homem hot hall
            refine ⟨res, ?_, hconf, ?_⟩
            · rw [hstep, hot]
              simp only [Bool.false_eq_true, if_false]
              rw [hfind]
              exact hres
            · intro st2 h2
              obtain ⟨hwpos2, hwat2, hasg2, hq2, hinv2, hotrue2, hmeas⟩ := hnext st2 h2
              refine ⟨?_, ?_, by omega⟩
              · refine WInv_weaken hinv2 ?_
                intro w cj j1 j2 c2 hexc hwpj hc2 hposj hfwj
                rcases hexc with ⟨hwt, hcj⟩
                rcases List.mem_cons.mp hcj with he | hm
                · subst he
                  refine Or.inl ⟨otherLit, ?_, hotrue2⟩
                  rw [hwpos2] at hwpj
                  rw [hwp] at hwpj
                  have := Option.some.inj hwpj
                  rw [hc0] at hc2
                  have hc2e := Option.some.inj hc2
                  rw [← hc2e]
                  exact homem
                · exact Or.inr (Or.inr ⟨hwt, hm⟩)
              · rw [hasg2]
                exact AExt.append _ _
        | some pr =>
            obtain ⟨j, cand⟩ := pr
            have hspec := (findNewWatch_spec owp fwp st.assign c0 0).1 j cand hfind
            obtain ⟨-, hjlt, hjget, hjow, hjfw, hcnf⟩ := hspec
            rw [Nat.sub_zero] at hjlt hjget
            have hcmem : cand ∈ c0 := List.get?_mem hjget
            -- the clause has at least two literals and distinct watch positions
            have hlen2 : 2 ≤ c0.length := by
              by_contra hcon
              have h1 : c0.length = 1 := by
                have := List.length_pos_of_mem homem
                omega
              obtain ⟨hz1, hz2⟩ := hb3 h1
              omega
            have hi12 : i1 ≠ i2 := hb4 hlen2
            have hfwowp : fwp ≠ owp := by
              rcases hpm with ⟨h1, h2⟩ | ⟨h1, h2⟩ <;> omega
            have hcother : cand ≠ otherLit := by
              intro he
              subst he
              exact hjow (nodup_get?_inj hc0nd hjget how)
            have hcfalse : cand ≠ -t := by
              intro he
              rw [he] at hjget
              exact hjfw (nodup_get?_inj hc0nd hjget hfw)
            have hofw : otherLit ≠ -t := by
              intro he
              rw [he] at how
              exact hfwowp (nodup_get?_inj hc0nd hfw how)
            set w2 := wDiscard st.watchers (-t) ci with hw2
            set w3 := wAdd w2 cand ci with hw3
            set wp2 := if fwp = i1 then st.wpos.set ci (j, owp)
                       else st.wpos.set ci (owp, j) with hwp2
            set st2 : WState := { st with watchers := w3, wpos := wp2 } with hst2
            -- old watch literals of ci are exactly -t (at fwp) and otherLit (at owp)
            have hold_watch : ∀ w, (c0.get? i1 = some w ∨ c0.get? i2 = some w) ↔
                (w = -t ∨ w = otherLit) := by
              intro w
              constructor
              · intro h
                rcases hpm with ⟨h1, h2⟩ | ⟨h1, h2⟩
                · subst h1
                  subst h2
                  rcases h with h | h
                  · rw [hfw] at h
                    exact Or.inl (Option.some.inj h).symm
                  · rw [how] at h
                    exact Or.inr (Option.some.inj h).symm
                · subst h1
                  subst h2
                  rcases h with h | h
                  · rw [how] at h
                    exact Or.inr (Option.some.inj h).symm
                  · rw [hfw] at h
                    exact Or.inl (Option.some.inj h).symm
              · intro h
                rcases hpm with ⟨h1, h2⟩ | ⟨h1, h2⟩
                · subst h1
                  subst h2
                  rcases h with h | h
                  · exact Or.inl (by rw [h]; exact hfw)
                  · exact Or.inr (by rw [h]; exact how)
                · subst h1
                  subst h2
                  rcases h with h | h
                  · exact Or.inr (by rw [h]; exact hfw)
                  · exact Or.inl (by rw [h]; exact how)
            obtain ⟨p1, p2, hwp2eq, hp1lt, hp2lt, hpne, hnewlits⟩ :
                ∃ p1 p2, wp2 = st.wpos.set ci (p1, p2) ∧ p1 < c0.length ∧
                  p2 < c0.length ∧ p1 ≠ p2 ∧
                  (∀ w, (c0.get? p1 = some w ∨ c0.get? p2 = some w) ↔
                    (w = cand ∨ w = otherLit)) := by
              by_cases hfi : fwp = i1
              · refine ⟨j, owp, by rw [hwp2, if_pos hfi], hjlt, howlt, hjow, ?_⟩
                intro w
                constructor
                · intro h
                  rcases h with h | h
                  · rw [hjget] at h
                    exact Or.inl (Option.some.inj h).symm
                  · rw [how] at h
                    exact Or.inr (Option.some.inj h).symm
                · intro h
                  rcases h with h | h
                  · subst h
                    exact Or.inl hjget
                  · subst h
                    exact Or.inr how
              · refine ⟨owp, j, by rw [hwp2, if_neg hfi], howlt, hjlt,
                  fun he => hjow he.symm, ?_⟩
                intro w
                constructor
                · intro h
                  rcases h with h | h
                  · rw [how] at h
                    exact Or.inr (Option.some.inj h).symm
                  · rw [hjget] at h
                    exact Or.inl (Option.some.inj h).symm
                · intro h
                  rcases h with h | h
                  · subst h
                    exact Or.inr hjget
                  · subst h
                    exact Or.inl how
            have hcilt : ci < st.wpos.length := by
              by_contra hcon
              rw [show st.wpos.get? ci = none from
                List.get?_eq_none.mpr (by omega)] at hwp
              cases hwp
            have hget_set : wp2.get? ci = some (p1, p2) := by
              rw [hwp2eq, List.get?_eq_getElem?,
                List.getElem?_set_self (by simpa using hcilt)]
            have hget_set_ne : ∀ cj, cj ≠ ci → wp2.get? cj = st.wpos.get? cj := by
              intro cj hcj
              rw [hwp2eq, List.get?_eq_getElem?,
                List.getElem?_set_ne (by omega), ← List.get?_eq_getElem?]
            refine ⟨.next st2, ?_, ?_, ?_⟩
            · rw [hstep, hot]
              simp only [Bool.false_eq_true, if_false]
              rw [hfind]
            · intro a h
              cases h
            · intro st3 h3
              have hst3 : st3 = st2 := (WRes.next.inj h3).symm
              subst hst3
              have hw3mem : ∀ l cj, cj ∈ w3 l ↔
                  (cj ∈ st.watchers l ∧ ¬(l = -t ∧ cj = ci)) ∨ (l = cand ∧ cj = ci) := by
                intro l cj
                rw [hw3, mem_wAdd, hw2, mem_wDiscard hinv.wnodup]
              refine ⟨⟨?_, ?_, ?_, ?_, hinv.asound, hinv.akeys, hinv.apos, hinv.aext,
                hinv.qtrue, hinv.units, ?_⟩, AExt.refl _, le_refl _⟩
              · -- wlen
                show wp2.length = cls0.length
                rw [hwp2eq, List.length_set]
                exact hinv.wlen
              · -- wvalid
                intro cj j1 j2 hj
                by_cases hcj : cj = ci
                · subst hcj
                  rw [hget_set] at hj
                  have hj2 := Option.some.inj hj
                  rw [Prod.mk.injEq] at hj2
                  obtain ⟨hja, hjb⟩ := hj2
                  subst hja
                  subst hjb
                  exact ⟨c0, hc0, hp1lt, hp2lt, by omega, fun _ => hpne⟩
                · rw [hget_set_ne cj hcj] at hj
                  exact hinv.wvalid cj j1 j2 hj
              · -- wexact
                intro l cj
                show cj ∈ w3 l ↔ _
                rw [hw3mem]
                by_cases hcj : cj = ci
                · subst hcj
                  constructor
                  · intro h
                    rcases h with ⟨hmem, hnot⟩ | ⟨hl, -⟩
                    · obtain ⟨j1, j2, c2, hj, hc2, hpos⟩ := (hinv.wexact l cj).mp hmem
                      rw [hwp] at hj
                      have hje := Option.some.inj hj
                      rw [Prod.mk.injEq] at hje
                      obtain ⟨hj1, hj2⟩ := hje
                      subst hj1
                      subst hj2
                      rw [hc0] at hc2
                      have hc2e := Option.some.inj hc2
                      subst hc2e
                      rcases (hold_watch l).mp hpos with he | he
                      · exact absurd ⟨he, rfl⟩ hnot
                      · subst he
                        exact ⟨p1, p2, c0, hget_set, hc0,
                          (hnewlits l).mpr (Or.inr rfl)⟩
                    · subst hl
                      exact ⟨p1, p2, c0, hget_set, hc0,
                        (hnewlits l).mpr (Or.inl rfl)⟩
                  · intro h
                    obtain ⟨j1, j2, c2, hj, hc2, hpos⟩ := h
                    rw [hget_set] at hj
                    rw [hc0] at hc2
                    have hc2e := Option.some.inj hc2
                    subst hc2e
                    have hje := Option.some.inj hj
                    rw [Prod.mk.injEq] at hje
                    obtain ⟨hja, hjb⟩ := hje
                    subst hja
                    subst hjb
                    rcases (hnewlits l).mp hpos with he | he
                    · subst he
                      exact Or.inr ⟨rfl, rfl⟩
                    · subst he
                      refine Or.inl ⟨?_, ?_⟩
                      · refine (hinv.wexact l cj).mpr ?_
                        exact ⟨i1, i2, c0, hwp, hc0, (hold_watch l).mpr (Or.inr rfl)⟩
                      · intro hcon
                        exact hofw hcon.1
                · constructor
                  · intro h
                    rcases h with ⟨hmem, -⟩ | ⟨-, he⟩
                    · obtain ⟨j1, j2, c2, hj, hc2, hpos⟩ := (hinv.wexact l cj).mp hmem
                      exact ⟨j1, j2, c2, by rw [hget_set_ne cj hcj]; exact hj, hc2, hpos⟩
                    · exact absurd he hcj
                  · intro h
                    obtain ⟨j1, j2, c2, hj, hc2, hpos⟩ := h
                    rw [hget_set_ne cj hcj] at hj
                    refine Or.inl ⟨(hinv.wexact l cj).mpr ⟨j1, j2, c2, hj, hc2, hpos⟩, ?_⟩
                    intro hcon
                    exact hcj hcon.2
              · -- wnodup
                intro l
                exact nodup_wAdd (nodup_wDiscard hinv.wnodup) l
              · -- watch invariant
                intro cj j1 j2 c2 w hj hc2 hpos hfwj
                by_cases hcj : cj = ci
                · subst hcj
                  rw [hget_set] at hj
                  rw [hc0] at hc2
                  have hc2e := Option.some.inj hc2
                  subst hc2e
                  have hje := Option.some.inj hj
                  rw [Prod.mk.injEq] at hje
                  obtain ⟨hja, hjb⟩ := hje
                  subst hja
                  subst hjb
                  rcases (hnewlits w).mp hpos with hw | hw
                  · subst hw
                    rw [hcnf] at hfwj
                    cases hfwj
                  · subst hw
                    have := hinv.watch cj i1 i2 c0 w hwp hc0
                      ((hold_watch w).mpr (Or.inr rfl)) hfwj
                    rcases this with hsat | hq | he
                    · exact Or.inl hsat
                    · exact Or.inr (Or.inl hq)
                    · exact absurd he.1 hofw
                · rw [hget_set_ne cj hcj] at hj
                  rcases hinv.watch cj j1 j2 c2 w hj hc2 hpos hfwj with hsat | hq | he
                  · exact Or.inl hsat
                  · exact Or.inr (Or.inl hq)
                  · rcases List.mem_cons.mp he.2 with hee | hm
                    · exact absurd hee hcj
                    · exact Or.inr (Or.inr ⟨he.1, hm⟩)
      · -- clause satisfied by the other watched literal
        refine ⟨.next st, by rw [hstep, hot]; rfl, ?_, ?_⟩
        · intro a h
          cases h
        · intro st2 h2
          have hst2 : st2 = st := (WRes.next.inj h2).symm
          subst hst2
          refine ⟨?_, AExt.refl _, le_refl _⟩
          refine WInv_weaken hinv ?_
          intro w cj j1 j2 c2 hexc hwpj hc2 hposj hfwj
          rcases hexc with ⟨hwt, hcj⟩
          rcases List.mem_cons.mp hcj with he | hm
          · subst he
            rw [hwp] at hwpj
            have := Option.some.inj hwpj
            rw [Prod.mk.injEq] at this
            rw [hc0] at hc2
            have hc2e := Option.some.inj hc2
            subst hc2e
            exact Or.inl ⟨otherLit, homem, hot⟩
          · exact Or.inr (Or.inr ⟨hwt, hm⟩)

/-- Processing of one clause from the affected snapshot. -/
theorem wProcessClause_spec {cls0 : List (List Int)} {a0 : Assignment}
    (hnz : ∀ c ∈ cls0, ∀ l ∈ c, l ≠ 0)
    (hnd : ∀ c ∈ cls0, (c.map Int.natAbs).Nodup)
    (hdisj : ∀ c ∈ cls0, ∀ l ∈ c, alookup a0 l.natAbs = none)
    {t : Int} {st : WState} {R : List Nat} {ci : Nat}
    (hinv : WInv cls0 a0 (fun w cj => w = -t ∧ cj ∈ ci :: R) st)
    (htz : t ≠ 0) (htt : litIsTrue t st.assign = true)
    (hci : ci < cls0.length) :
    ∃ res, wProcessClause (wConvertClauses cls0) t ci st = .ok res ∧
      (∀ a, res = .conflict a → ∃ l, UPC cls0 l ∧ UPC cls0 (-l)) ∧
      (∀ st2, res = .next st2 →
        WInv cls0 a0 (fun w cj => w = -t ∧ cj ∈ R) st2 ∧
        AExt st.assign st2.assign ∧
        st2.queue.length + countUn (varsList cls0) st2.assign ≤
          st.queue.length + countUn (varsList cls0) st.assign) := by
  cases hg : cls0.get? ci with
  | none =>
      rw [List.get?_eq_none] at hg
      omega
  | some c0 =>
      have hgc : (wConvertClauses cls0).get? ci = some (WClause.tup c0) := by
        rw [wConvertClauses, List.get?_map, hg]
        rfl
      cases hw : st.wpos.get? ci with
      | none =>
          rw [List.get?_eq_none, hinv.wlen] at hw
          omega
      | some pr =>
          obtain ⟨i1, i2⟩ := pr
          obtain ⟨c1, hc1, hb1, hb2, hb3, hb4⟩ := hinv.wvalid ci i1 i2 hw
          have hc1e : c1 = c0 := by
            rw [hg] at hc1
            exact (Option.some.inj hc1).symm
          rw [hc1e] at hb1 hb2 hb3 hb4
          cases hli1 : c0.get? i1 with
          | none =>
              rw [List.get?_eq_none] at hli1
              omega
          | some li1 =>
              cases hli2 : c0.get? i2 with
              | none =>
                  rw [List.get?_eq_none] at hli2
                  omega
              | some li2 =>
                  have hstep : wProcessClause (wConvertClauses cls0) t ci st =
                      (if li1 = -t then wHandleWatch (WClause.tup c0) t ci i1 i1 i2 st
                       else if li2 = -t then wHandleWatch (WClause.tup c0) t ci i1 i2 i1 st
                       else .ok (.next st)) := by
                    rw [wProcessClause, hgc, hw]
                    dsimp only
                    rw [show (WClause.tup c0).idx i1 = c0.get? i1 from rfl, hli1]
                    rw [show (WClause.tup c0).idx i2 = c0.get? i2 from rfl, hli2]
                  by_cases h1 : li1 = -t
                  · have hfw : c0.get? i1 = some (-t) := by rw [hli1, h1]
                    obtain ⟨res, hres, hconf, hnext⟩ := wHandleWatch_spec hnz hnd hdisj
                      hinv htz htt hw hg (Or.inl ⟨rfl, rfl⟩) hfw
                    refine ⟨res, ?_, hconf, hnext⟩
                    rw [hstep, if_pos h1]
                    exact hres
                  · by_cases h2 : li2 = -t
                    · have hfw : c0.get? i2 = some (-t) := by rw [hli2, h2]
                      obtain ⟨res, hres, hconf, hnext⟩ := wHandleWatch_spec hnz hnd hdisj
                        hinv htz htt hw hg (Or.inr ⟨rfl, rfl⟩) hfw
                      refine ⟨res, ?_, hconf, hnext⟩
                      rw [hstep, if_neg h1, if_pos h2]
                      exact hres
                    · -- the clause no longer watches -t
                      refine ⟨.next st, by rw [hstep, if_neg h1, if_neg h2], ?_, ?_⟩
                      · intro a h
                        cases h
                      · intro st2 h
                        have hst2 : st2 = st := (WRes.next.inj h).symm
                        subst hst2
                        refine ⟨?_, AExt.refl _, le_refl _⟩
                        refine WInv_weaken hinv ?_
                        intro w cj j1 j2 c2 hexc hwpj hc2 hposj hfwj
                        rcases hexc with ⟨hwt, hcj⟩
                        rcases List.mem_cons.mp hcj with he | hm
                        · subst he
                          subst hwt
                          rw [hw] at hwpj
                          have hje := Option.some.inj hwpj
                          rw [Prod.mk.injEq] at hje
                          obtain ⟨hja, hjb⟩ := hje
                          subst hja
                          subst hjb
                          rw [hg] at hc2
                          have hc2e := Option.some.inj hc2
                          subst hc2e
                          rcases hposj with hp | hp
                          · rw [hli1] at hp
                            exact absurd (Option.some.inj hp) h1
                          · rw [hli2] at hp
                            exact absurd (Option.some.inj hp) h2
                        · exact Or.inr (Or.inr ⟨hwt, hm⟩)

/-- Iteration over the affected snapshot. -/
theorem wProcessAffected_spec {cls0 : List (List Int)} {a0 : Assignment}
    (hnz : ∀ c ∈ cls0, ∀ l ∈ c, l ≠ 0)
    (hnd : ∀ c ∈ cls0, (c.map Int.natAbs).Nodup)
    (hdisj : ∀ c ∈ cls0, ∀ l ∈ c, alookup a0 l.natAbs = none)
    {t : Int} (htz : t ≠ 0) :
    ∀ (R : List Nat) (st : WState),
    WInv cls0 a0 (fun w cj => w = -t ∧ cj ∈ R) st →
    litIsTrue t st.assign = true →
    (∀ ci ∈ R, ci < cls0.length) →
    ∃ res, wProcessAffected (wConvertClauses cls0) t R st = .ok res ∧
      (∀ a, res = .conflict a → ∃ l, UPC cls0 l ∧ UPC cls0 (-l)) ∧
      (∀ st2, res = .next st2 →
        WInv cls0 a0 (fun _ _ => False) st2 ∧
        AExt st.assign st2.assign ∧
        st2.queue.length + countUn (varsList cls0) st2.assign ≤
          st.queue.length + countUn (varsList cls0) st.assign) := by
  intro R
  induction R with
  | nil =>
      intro st hinv htt _
      refine ⟨.next st, rfl, ?_, ?_⟩
      · intro a h
        cases h
      · intro st2 h
        have hst2 : st2 = st := (WRes.next.inj h).symm
        subst hst2
        refine ⟨?_, AExt.refl _, le_refl _⟩
        refine WInv_weaken hinv ?_
        intro w cj j1 j2 c2 hexc _ _ _ _
        rcases hexc with ⟨-, hm⟩
        simp at hm
  | cons ci R2 ih =>
      intro st hinv htt hbound
      obtain ⟨res1, hres1, hconf1, hnext1⟩ := wProcessClause_spec hnz hnd hdisj
        hinv htz htt (hbound ci (List.mem_cons_self ci R2))
      cases res1 with
      | conflict a =>
          refine ⟨.conflict a, ?_, ?_, ?_⟩
          · rw [wProcessAffected, hres1]
          · intro a2 h
            exact hconf1 a rfl
          · intro st2 h
            cases h
      | next st1 =>
          obtain ⟨hinv1, haext1, hmeas1⟩ := hnext1 st1 rfl
          obtain ⟨res2, hres2, hconf2, hnext2⟩ := ih st1 hinv1
            (litIsTrue_AExt haext1 htt)
            (fun cj hcj => hbound cj (List.mem_cons_of_mem ci hcj))
          refine ⟨res2, ?_, hconf2, ?_⟩
          · rw [wProcessAffected, hres1]
            exact hres2
          · intro st2 h
            obtain ⟨hinv2, haext2, hmeas2⟩ := hnext2 st2 h
            exact ⟨hinv2, haext1.trans haext2, by omega⟩

/-- The main propagation loop terminates within its fuel and either
reports a conflict that certifies contradictory forced literals or
drains the queue preserving the invariant. -/
theorem wPropagate_spec {cls0 : List (List Int)} {a0 : Assignment}
    (hnz : ∀ c ∈ cls0, ∀ l ∈ c, l ≠ 0)
    (hnd : ∀ c ∈ cls0, (c.map Int.natAbs).Nodup)
    (hdisj : ∀ c ∈ cls0, ∀ l ∈ c, alookup a0 l.natAbs = none) :
    ∀ (fuel : Nat) (st : WState),
    WInv cls0 a0 (fun _ _ => False) st →
    st.queue.length + countUn (varsList cls0) st.assign < fuel →
    ∃ res, wPropagate (wConvertClauses cls0) fuel st = .ok res ∧
      (∀ a, res = .conflict a → ∃ l, UPC cls0 l ∧ UPC cls0 (-l)) ∧
      (∀ st2, res = .next st2 →
        st2.queue = [] ∧ WInv cls0 a0 (fun _ _ => False) st2 ∧
        AExt st.assign st2.assign) := by
  intro fuel
  induction fuel with
  | zero =>
      intro st _ hm
      omega
  | succ f ih =>
      intro st hinv hm
      cases hq : st.queue with
      | nil =>
          refine ⟨.next st, ?_, ?_, ?_⟩
          · rw [wPropagate, hq]
          · intro a h
            cases h
          · intro st2 h
            have hst2 : st2 = st := (WRes.next.inj h).symm
            subst hst2
            exact ⟨hq, hinv, AExt.refl _⟩
      | cons t qrest =>
          obtain ⟨htt, htz⟩ := hinv.qtrue t (by rw [hq]; exact List.mem_cons_self t qrest)
          set st1 : WState := { st with queue := qrest } with hst1
          have hbad : (match alookup st.assign t.natAbs with
              | some b => b != decide (0 < t)
              | none => false) = false := by
            rw [litIsTrue_iff_lookup.mp htt]
            simp
          have hinv1 : WInv cls0 a0
              (fun w cj => w = -t ∧ cj ∈ st.watchers (-t)) st1 := by
            refine ⟨hinv.wlen, hinv.wvalid, hinv.wexact, hinv.wnodup, hinv.asound,
              hinv.akeys, hinv.apos, hinv.aext, ?_, hinv.units, ?_⟩
            · intro l hl
              refine hinv.qtrue l ?_
              rw [hq]
              exact List.mem_cons_of_mem t hl
            · intro ci i1 i2 c2 w hwp hc2 hpos hfw
              rcases hinv.watch ci i1 i2 c2 w hwp hc2 hpos hfw with hsat | hqm | he
              · exact Or.inl hsat
              · rw [hq] at hqm
                rcases List.mem_cons.mp hqm with he2 | hm2
                · refine Or.inr (Or.inr ⟨by omega, ?_⟩)
                  refine (hinv.wexact (-t) ci).mpr ?_
                  refine ⟨i1, i2, c2, hwp, hc2, ?_⟩
                  rw [show w = -t by omega] at hpos
                  exact hpos
                · exact Or.inr (Or.inl hm2)
              · cases he
          have hboundw : ∀ ci ∈ st.watchers (-t), ci < cls0.length := by
            intro ci hci
            obtain ⟨i1, i2, c2, hwp, hc2, -⟩ := (hinv.wexact (-t) ci).mp hci
            obtain ⟨hlt, -⟩ := List.get?_eq_some.mp hc2
            exact hlt
          obtain ⟨res1, hres1, hconf1, hnext1⟩ := wProcessAffected_spec hnz hnd hdisj
            htz (st.watchers (-t)) st1 hinv1 htt hboundw
          have hstep : wPropagate (wConvertClauses cls0) (f + 1) st =
              (match wProcessAffected (wConvertClauses cls0) t (st.watchers (-t)) st1 with
               | .error e => .error e
               | .ok (.conflict a) => .ok (.conflict a)
               | .ok (.next st2) => wPropagate (wConvertClauses cls0) f st2) := by
            simp only [wPropagate, hq]
            rw [hbad]
            simp only [Bool.false_eq_true, if_false]
          cases res1 with
          | conflict a =>
              refine ⟨.conflict a, ?_, ?_, ?_⟩
              · rw [hstep, hres1]
              · intro a2 h
                exact hconf1 a rfl
              · intro st2 h
                cases h
          | next stm =>
              obtain ⟨hinv2, haext2, hmeas2⟩ := hnext1 stm rfl
              have hm2 : stm.queue.length + countUn (varsList cls0) stm.assign < f := by
                have h1 : st1.queue.length + countUn (varsList cls0) st1.assign + 1 =
                    st.queue.length + countUn (varsList cls0) st.assign := by
                  show qrest.length + countUn (varsList cls0) st.assign + 1 = _
                  rw [hq]
                  simp only [List.length_cons]
                  omega
                omega
              obtain ⟨res2, hres2, hconf2, hnext2⟩ := ih stm hinv2 hm2
              refine ⟨res2, ?_, hconf2, ?_⟩
              · rw [hstep, hres1]
                exact hres2
              · intro st2 h
                obtain ⟨hq2, hinv3, haext3⟩ := hnext2 st2 h
                exact ⟨hq2, hinv3, haext2.trans haext3⟩

theorem wMaterialize_none {a : Assignment} : ∀ {cls : List WClause},
    wMaterialize a cls = none →
    ∃ c ∈ cls, ∀ l ∈ c.lits, litIsFalse l a = true := by
  intro cls
  induction cls with
  | nil =>
      intro h
      cases h
  | cons c0 t ih =>
      intro h
      rw [wMaterialize] at h
      by_cases h1 : c0.lits.any (fun l => litIsTrue l a)
      · rw [if_pos h1] at h
        obtain ⟨c, hc, hcf⟩ := ih h
        exact ⟨c, List.mem_cons_of_mem c0 hc, hcf⟩
      · rw [if_neg h1] at h
        by_cases h2 : (c0.lits.filter (fun l => !litIsFalse l a)).isEmpty
        · refine ⟨c0, List.mem_cons_self c0 t, ?_⟩
          intro l hl
          rcases hf : litIsFalse l a with _ | _
          · have hmem : l ∈ c0.lits.filter (fun l => !litIsFalse l a) :=
              List.mem_filter.mpr ⟨hl, by simp [hf]⟩
            rw [List.isEmpty_iff] at h2
            rw [h2] at hmem
            cases hmem
          · rfl
        · rw [if_neg h2] at h
          cases hr : wMaterialize a t with
          | none =>
              obtain ⟨c, hc, hcf⟩ := ih hr
              exact ⟨c, List.mem_cons_of_mem c0 hc, hcf⟩
          | some r =>
              rw [hr] at h
              cases h

/-- At a drained queue with successful materialization, every forced
literal is assigned true in the watched state. -/
theorem wUPC_assigned_final {cls0 : List (List Int)} {a0 : Assignment} {st : WState}
    (hnz : ∀ c ∈ cls0, ∀ l ∈ c, l ≠ 0)
    (hnd : ∀ c ∈ cls0, (c.map Int.natAbs).Nodup)
    (hinv : WInv cls0 a0 (fun _ _ => False) st)
    (hq : st.queue = [])
    (hmat : ∀ c ∈ cls0, (∃ l ∈ c, litIsTrue l st.assign = true) ∨
      ∃ l ∈ c, litIsFalse l st.assign = false) :
    ∀ l, UPC cls0 l → alookup st.assign l.natAbs = some (decide (0 < l)) := by
  intro l h
  induction h with
  | step hc hl hrest ih =>
      rename_i c l
      have hothers : ∀ l2 ∈ c, l2 ≠ l → litIsFalse l2 st.assign = true := by
        intro l2 h2 hne
        have hx := ih l2 h2 hne
        rw [litIsFalse_iff_lookup, ← Int.natAbs_neg,
          show (!decide (0 < l2)) = decide (0 < -l2) from
            (decide_pos_neg (hnz c hc l2 h2)).symm]
        exact hx
      cases hv : alookup st.assign l.natAbs with
      | none =>
          exfalso
          have hnotrue : ∀ x ∈ c, litIsTrue x st.assign = false := by
            intro x hx
            by_cases hxe : x = l
            · subst hxe
              rcases ht : litIsTrue x st.assign with _ | _
              · rfl
              · rw [litIsTrue_iff_lookup, hv] at ht
                cases ht
            · rcases ht : litIsTrue x st.assign with _ | _
              · rfl
              · exact absurd (litIsTrue_and_false ht (hothers x hx hxe)) (fun h => h)
          obtain ⟨ci, hci⟩ := List.get?_of_mem hc
          cases hw : st.wpos.get? ci with
          | none =>
              rw [List.get?_eq_none, hinv.wlen] at hw
              obtain ⟨hlt, -⟩ := List.get?_eq_some.mp hci
              omega
          | some pr =>
              obtain ⟨i1, i2⟩ := pr
              obtain ⟨c1, hc1, hb1, hb2, hb3, hb4⟩ := hinv.wvalid ci i1 i2 hw
              have hc1e : c1 = c := by
                rw [hci] at hc1
                exact (Option.some.inj hc1).symm
              rw [hc1e] at hb1 hb2 hb3 hb4
              by_cases hlen1 : c.length = 1
              · -- unit input clause: its literal was assigned during initialization
                obtain ⟨x, hx⟩ := List.length_eq_one.mp hlen1
                have hxl : x = l := by
                  rw [hx, List.mem_singleton] at hl
                  exact hl.symm
                subst hxl
                have := hinv.units c hc x (by rw [hx])
                rw [amem, hv] at this
                cases this
              · have hlen2 : 2 ≤ c.length := by
                  have := List.length_pos_of_mem hl
                  omega
                have hi12 : i1 ≠ i2 := hb4 hlen2
                cases hw1 : c.get? i1 with
                | none =>
                    rw [List.get?_eq_none] at hw1
                    omega
                | some w1 =>
                    cases hw2 : c.get? i2 with
                    | none =>
                        rw [List.get?_eq_none] at hw2
                        omega
                    | some w2 =>
                        have hnf : ∀ w, (c.get? i1 = some w ∨ c.get? i2 = some w) →
                            litIsFalse w st.assign = false := by
                          intro w hpos
                          rcases hf : litIsFalse w st.assign with _ | _
                          · rfl
                          · rcases hinv.watch ci i1 i2 c w hw hci hpos hf with
                              hsat | hqm | he
                            · obtain ⟨x, hx, hxt⟩ := hsat
                              rw [hnotrue x hx] at hxt
                              cases hxt
                            · rw [hq] at hqm
                              cases hqm
                            · cases he
                        have hw1l : w1 = l := by
                          by_contra hcon
                          have := hothers w1 (List.get?_mem hw1) hcon
                          rw [hnf w1 (Or.inl hw1)] at this
                          cases this
                        have hw2l : w2 = l := by
                          by_contra hcon
                          have := hothers w2 (List.get?_mem hw2) hcon
                          rw [hnf w2 (Or.inr hw2)] at this
                          cases this
                        subst hw1l
                        rw [← hw2l] at hw1
                        exact hi12 (nodup_get?_inj ((hnd c hc).of_map) hw1 hw2)
      | some b =>
          by_cases hb : b = decide (0 < l)
          · rw [hb]
          · exfalso
            have hlf : litIsFalse l st.assign = true := by
              rw [litIsFalse_iff_lookup, hv, Option.some.injEq]
              cases hd : decide (0 < l) <;> rw [hd] at hb <;> cases b <;> simp_all
            have hall : ∀ x ∈ c, litIsFalse x st.assign = true := by
              intro x hx
              by_cases hxe : x = l
              · rw [hxe]
                exact hlf
              · exact hothers x hx hxe
            rcases hmat c hc with hsat | hkeep
            · obtain ⟨x, hx, hxt⟩ := hsat
              exact litIsTrue_and_false hxt (hall x hx)
            · obtain ⟨x, hx, hxf⟩ := hkeep
              rw [hall x hx] at hxf
              cases hxf

/-- Full characterization of the watched `unit_clause_rule` on
well-formed tuple input against the unit-propagation closure. -/
theorem watched_characterization {cls0 : List (List Int)} {a0 : Assignment}
    (hne : ∀ c ∈ cls0, c ≠ [])
    (hnz : ∀ c ∈ cls0, ∀ l ∈ c, l ≠ 0)
    (hnd : ∀ c ∈ cls0, (c.map Int.natAbs).Nodup)
    (hdisj : ∀ c ∈ cls0, ∀ l ∈ c, alookup a0 l.natAbs = none)
    (hkeys : (a0.map Prod.fst).Nodup)
    (hposk : ∀ p ∈ a0, 1 ≤ p.1) :
    ∃ cw aw fw, wUnitClauseRule (wConvertClauses cls0) a0 = .ok (cw, aw, fw) ∧
      (fw = true → ∃ l, UPC cls0 l ∧ UPC cls0 (-l)) ∧
      (fw = false →
        AExt a0 aw ∧
        (∀ v b, alookup aw v = some b → alookup a0 v = some b ∨ UPC cls0 (litOf v b)) ∧
        (∀ l, UPC cls0 l → alookup aw l.natAbs = some (decide (0 < l)))) := by
  obtain ⟨wp, regs, hbw, hwplen, hwpget, hregs⟩ := wBuildWatches_spec cls0 0 hne
  have hq0bind : ∀ v b, alookup a0 v = some b →
      litOf v b ∈ a0.map (fun p => if p.2 then (p.1 : Int) else -(p.1 : Int)) := by
    intro v b hb
    exact List.mem_map.mpr ⟨(v, b), alookup_some_mem hb, rfl⟩
  have hq0true : ∀ l ∈ a0.map (fun p => if p.2 then (p.1 : Int) else -(p.1 : Int)),
      litIsTrue l a0 = true ∧ l ≠ 0 := by
    intro l hlq
    obtain ⟨p, hp, hpe⟩ := List.mem_map.mp hlq
    obtain ⟨v, b⟩ := p
    have hv1 : 1 ≤ v := hposk (v, b) hp
    have hlit : l = litOf v b := hpe.symm
    subst hlit
    obtain ⟨hnab, hdec⟩ := litOf_var_natAbs hv1 b
    constructor
    · rw [litIsTrue_iff_lookup, hnab, hdec]
      exact alookup_of_mem_nodup hkeys hp
    · exact litOf_ne_zero hv1 b
  obtain ⟨a1, q1, f0, hinit, hconf0, hok0⟩ := wInitUnits_spec hnz hdisj cls0 a0
    (a0.map (fun p => if p.2 then (p.1 : Int) else -(p.1 : Int)))
    (fun c hc => hc) (fun v b hb => Or.inl hb) hkeys hposk hq0bind hq0true (AExt.refl a0)
  have hstep1 : wUnitClauseRule (wConvertClauses cls0) a0 =
      (match wInitUnits (cls0.map WClause.tup) a0
          (a0.map (fun p => if p.2 then (p.1 : Int) else -(p.1 : Int))) with
       | .error e => .error e
       | .ok (b1, _, true) => .ok (cls0.map WClause.tup, b1, true)
       | .ok (b1, p1, false) =>
           match wPropagate (cls0.map WClause.tup)
               (p1.length +
                 (varsList ((cls0.map WClause.tup).map WClause.lits)).length + 1)
               ⟨wp, regs.foldl (fun w r => wAdd w r.1 r.2) (fun _ => []), p1, b1⟩ with
           | .error e => .error e
           | .ok (.conflict a2) => .ok (cls0.map WClause.tup, a2, true)
           | .ok (.next st2) =>
               match wMaterialize st2.assign (cls0.map WClause.tup) with
               | none => .ok (cls0.map WClause.tup, st2.assign, true)
               | some simplified => .ok (simplified, st2.assign, false)) := by
    rw [show wConvertClauses cls0 = cls0.map WClause.tup from rfl]
    rw [wUnitClauseRule, hbw]
  cases f0 with
  | true =>
      refine ⟨cls0.map WClause.tup, a1, true, ?_, fun _ => hconf0 rfl, ?_⟩
      · rw [hstep1, hinit]
      · intro h
        cases h
  | false =>
      obtain ⟨g1, g2, g3, g4, g5, g6, g7, g8⟩ := hok0 rfl
      set w0 : Int → List Nat := regs.foldl (fun w r => wAdd w r.1 r.2) (fun _ => [])
        with hw0
      set st0 : WState := ⟨wp, w0, q1, a1⟩ with hst0
      have hinv0 : WInv cls0 a0 (fun _ _ => False) st0 := by
        refine ⟨hwplen, ?_, ?_, ?_, g3, g4, g5, g2, g7, g8, ?_⟩
        · -- wvalid
          intro ci i1 i2 hget
          obtain ⟨c0, hc0, hpr⟩ := hwpget ci (i1, i2) hget
          have hc0mem : c0 ∈ cls0 := List.get?_mem hc0
          have hc0len : 0 < c0.length := List.length_pos.mpr (hne c0 hc0mem)
          rw [Prod.mk.injEq] at hpr
          obtain ⟨hi1, hi2⟩ := hpr
          subst hi1
          subst hi2
          by_cases hl1 : c0.length = 1
          · rw [if_pos hl1]
            exact ⟨c0, hc0, hc0len, by omega, fun _ => ⟨rfl, rfl⟩, fun h2 => by omega⟩
          · rw [if_neg hl1]
            have : 2 ≤ c0.length := by omega
            exact ⟨c0, hc0, hc0len, by omega, fun h1 => absurd h1 hl1,
              fun _ => by omega⟩
        · -- wexact
          intro l ci
          show ci ∈ w0 l ↔ _
          rw [hw0, mem_foldl_wAdd]
          constructor
          · intro h
            rcases h with h | h
            · simp at h
            · obtain ⟨k, c0, hk, hc0, hpos⟩ := (hregs l ci).mp h
              have hkci : k = ci := by omega
              subst hkci
              cases hgp : wp.get? k with
              | none =>
                  rw [List.get?_eq_none, hwplen] at hgp
                  obtain ⟨hlt, -⟩ := List.get?_eq_some.mp hc0
                  omega
              | some pr =>
                  obtain ⟨pa, pb⟩ := pr
                  obtain ⟨c1, hc1, hpr⟩ := hwpget k (pa, pb) hgp
                  have hc1e : c1 = c0 := by
                    rw [hc0] at hc1
                    exact (Option.some.inj hc1).symm
                  rw [hc1e] at hpr
                  rw [Prod.mk.injEq] at hpr
                  obtain ⟨hpa, hpb⟩ := hpr
                  subst hpa
                  subst hpb
                  exact ⟨0, if c0.length = 1 then 0 else 1, c0, rfl, hc0, hpos⟩
          · intro h
            obtain ⟨i1, i2, c0, hget, hc0, hpos⟩ := h
            obtain ⟨c1, hc1, hpr⟩ := hwpget ci (i1, i2) hget
            have hc1e : c1 = c0 := by
              rw [hc0] at hc1
              exact (Option.some.inj hc1).symm
            subst hc1e
            refine Or.inr ((hregs l ci).mpr ⟨ci, c1, by omega, hc0, ?_⟩)
            rw [Prod.mk.injEq] at hpr
            obtain ⟨hi1, hi2⟩ := hpr
            subst hi1
            subst hi2
            exact hpos
        · -- wnodup
          intro l
          exact nodup_foldl_wAdd regs (fun _ => []) (fun _ => List.nodup_nil) l
        · -- watch
          intro ci i1 i2 c0 w hwp2 hc0 hpos hfw
          have hwz : w ≠ 0 := by
            rcases hpos with hp | hp
            · exact hnz c0 (List.get?_mem hc0) w (List.get?_mem hp)
            · exact hnz c0 (List.get?_mem hc0) w (List.get?_mem hp)
          obtain ⟨b, hb, hbne⟩ := litIsFalse_some hfw
          have := g6 w.natAbs b hb
          rw [litOf_opp hwz hbne] at this
          exact Or.inr (Or.inl this)
      have hmaplits : (cls0.map WClause.tup).map WClause.lits = cls0 := by
        rw [List.map_map]
        have hcomp : WClause.lits ∘ WClause.tup = fun c => c := rfl
        rw [hcomp, List.map_id']
      have hmeas : st0.queue.length + countUn (varsList cls0) st0.assign <
          q1.length + (varsList ((cls0.map WClause.tup).map WClause.lits)).length + 1 := by
        show q1.length + countUn (varsList cls0) a1 < _
        rw [hmaplits]
        have := countUn_le_length (varsList cls0) a1
        omega
      obtain ⟨res, hprop, hconf, hnext⟩ := wPropagate_spec hnz hnd hdisj
        (q1.length + (varsList ((cls0.map WClause.tup).map WClause.lits)).length + 1)
        st0 hinv0 hmeas
      rw [show wConvertClauses cls0 = List.map WClause.tup cls0 from rfl] at hprop
      rw [hst0] at hprop
      cases res with
      | conflict a2 =>
          refine ⟨cls0.map WClause.tup, a2, true, ?_, fun _ => hconf a2 rfl, ?_⟩
          · rw [hstep1, hinit]
            dsimp only
            rw [hprop]
          · intro h
            cases h
      | next st2 =>
          obtain ⟨hq2, hinv2, haext2⟩ := hnext st2 rfl
          cases hmz : wMaterialize st2.assign (cls0.map WClause.tup) with
          | none =>
              refine ⟨cls0.map WClause.tup, st2.assign, true, ?_, ?_, ?_⟩
              · rw [hstep1, hinit]
                dsimp only
                rw [hprop]
                dsimp only
                rw [hmz]
              · intro _
                obtain ⟨c, hc, hcf⟩ := wMaterialize_none hmz
                obtain ⟨c0, hc0, hce⟩ := List.mem_map.mp hc
                have hcf0 : ∀ l ∈ c0, litIsFalse l st2.assign = true := by
                  intro l hl
                  refine hcf l ?_
                  rw [← hce]
                  exact hl
                exact UPC_pair_of_allfalse hnz hdisj hinv2.asound hc0 (hne c0 hc0) hcf0
              · intro h
                cases h
          | some simplified =>
              refine ⟨simplified, st2.assign, false, ?_, ?_, ?_⟩
              · rw [hstep1, hinit]
                dsimp only
                rw [hprop]
                dsimp only
                rw [hmz]
              · intro h
                cases h
              · intro _
                refine ⟨g2.trans haext2, hinv2.asound, ?_⟩
                refine wUPC_assigned_final hnz hnd hinv2 hq2 ?_
                intro c hc
                have hmem : WClause.tup c ∈ cls0.map WClause.tup :=
                  List.mem_map.mpr ⟨c, hc, rfl⟩
                exact wMaterialize_some hmz (WClause.tup c) hmem

/-- C4: counterexample to the literal claim. On clauses [[1, 2]] with the
partial assignment mapping both variables to false, the naive
_unit_propagate of src/solver.py keeps the clause and reports no conflict
(flag false), while the watched unit_clause_rule of
src/watched/solver_jw_watched.py pops the pre-assigned false literals from
its queue, finds both watches of the clause false with no replacement, and
reports a conflict (flag true): the two propagators disagree on the
conflict flag. -/
theorem C4_counterexample :
    unit_propagate (clausesToSets [[1, 2]]) [(1, false), (2, false)]
      = some ([[1, 2]], [(1, false), (2, false)], false) ∧
    wUnitClauseRule (wConvertClauses [[1, 2]]) [(1, false), (2, false)]
      = .ok ([WClause.tup [1, 2]], [(1, false), (2, false)], true) :=
  ⟨by decide, by decide⟩

/-- C4 (amended): naive/watched propagation equivalence holds on inputs the
solvers actually generate: clauses nonempty with non-zero literals and no
duplicate variable inside a clause, and a dictionary-shaped partial
assignment (positive keys, no duplicate keys) whose variables do not occur
in the clauses. Then the naive _unit_propagate of src/solver.py and the
watched unit_clause_rule of src/watched/solver_jw_watched.py both succeed,
return the same conflict flag, and (when no conflict is reported)
extensionally the same assignment. -/
theorem C4_amended_propagation_equiv {cls0 : List (List Int)} {a0 : Assignment}
    (hne : ∀ c ∈ cls0, c ≠ [])
    (hnz : ∀ c ∈ cls0, ∀ l ∈ c, l ≠ 0)
    (hnd : ∀ c ∈ cls0, (c.map Int.natAbs).Nodup)
    (hdisj : ∀ c ∈ cls0, ∀ l ∈ c, alookup a0 l.natAbs = none)
    (hkeys : (a0.map Prod.fst).Nodup)
    (hposk : ∀ p ∈ a0, 1 ≤ p.1) :
    ∃ cn an fn cw aw fw,
      unit_propagate (clausesToSets cls0) a0 = some (cn, an, fn) ∧
      wUnitClauseRule (wConvertClauses cls0) a0 = .ok (cw, aw, fw) ∧
      fn = fw ∧
      (fn = false → ∀ v, alookup an v = alookup aw v) := by
  obtain ⟨cn, an, fn, hup, hnc, hnf⟩ := naive_characterization hne hnz hnd hdisj
  obtain ⟨cw, aw, fw, hwup, hwc, hwf⟩ :=
    watched_characterization hne hnz hnd hdisj hkeys hposk
  have hflag : fn = fw := by
    cases fn with
    | true =>
        cases fw with
        | true => rfl
        | false =>
            exfalso
            obtain ⟨l, h1, h2⟩ := hnc rfl
            obtain ⟨-, -, hcomp⟩ := hwf rfl
            have e1 := hcomp l h1
            have e2 := hcomp (-l) h2
            rw [Int.natAbs_neg, e1] at e2
            have e3 := Option.some.inj e2
            rw [decide_pos_neg (UPC_nonzero hnz h1)] at e3
            simp at e3
    | false =>
        cases fw with
        | false => rfl
        | true =>
            exfalso
            obtain ⟨l, h1, h2⟩ := hwc rfl
            obtain ⟨-, -, hcomp⟩ := hnf rfl
            have e1 := hcomp l h1
            have e2 := hcomp (-l) h2
            rw [Int.natAbs_neg, e1] at e2
            have e3 := Option.some.inj e2
            rw [decide_pos_neg (UPC_nonzero hnz h1)] at e3
            simp at e3
  refine ⟨cn, an, fn, cw, aw, fw, hup, hwup, hflag, ?_⟩
  intro hfn
  have hfw : fw = false := hflag.symm.trans hfn
  obtain ⟨hna, hnsound, hncomp⟩ := hnf hfn
  obtain ⟨hwa, hwsound, hwcomp⟩ := hwf hfw
  intro v
  cases hv : alookup an v with
  | some b =>
      rcases hnsound v b hv with h0 | hU
      · rw [hwa v b h0]
      · have hvz : 1 ≤ v := by
          rcases Nat.eq_zero_or_pos v with h0 | h1
          · exfalso
            apply UPC_nonzero hnz hU
            subst h0
            cases b <;> decide
          · exact h1
        obtain ⟨hnab, hdec⟩ := litOf_var_natAbs hvz b
        have h2 := hwcomp (litOf v b) hU
        rw [hnab, hdec] at h2
        rw [h2]
  | none =>
      cases hw : alookup aw v with
      | none => rfl
      | some b =>
          exfalso
          rcases hwsound v b hw with h0 | hU
          · rw [hna v b h0] at hv
            cases hv
          · have hvz : 1 ≤ v := by
              rcases Nat.eq_zero_or_pos v with h0 | h1
              · exfalso
                apply UPC_nonzero hnz hU
                subst h0
                cases b <;> decide
              · exact h1
            obtain ⟨hnab, hdec⟩ := litOf_var_natAbs hvz b
            have h2 := hncomp (litOf v b) hU
            rw [hnab, hdec] at h2
            rw [h2] at hv
            cases hv

/-- C4 witness: on clauses [[1], [-1, 2]] with the empty assignment all
hypotheses of the amended equivalence hold, and both propagators agree. -/
theorem C4_amended_propagation_equiv_witness :
    ((∀ c ∈ [[1], [-1, 2]], c ≠ ([] : List Int)) ∧
     (∀ c ∈ [[1], [-1, 2]], ∀ l ∈ c, l ≠ (0 : Int)) ∧
     (∀ c ∈ [[1], [-1, 2]], ((c : List Int).map Int.natAbs).Nodup) ∧
     (∀ c ∈ [[1], [-1, 2]], ∀ l ∈ c, alookup ([] : Assignment) l.natAbs = none) ∧
     (([] : Assignment).map Prod.fst).Nodup ∧
     (∀ p ∈ ([] : Assignment), 1 ≤ p.1)) ∧
    (∃ cn an fn cw aw fw,
      unit_propagate (clausesToSets [[1], [-1, 2]]) [] = some (cn, an, fn) ∧
      wUnitClauseRule (wConvertClauses [[1], [-1, 2]]) [] = .ok (cw, aw, fw) ∧
      fn = fw ∧
      (fn = false → ∀ v, alookup an v = alookup aw v)) :=
  ⟨⟨by decide, by decide, by decide, by decide, by decide, by decide⟩,
   C4_amended_propagation_equiv (by decide) (by decide) (by decide) (by decide)
     (by decide) (by decide)⟩
